import Mathlib

/-!
Verification of the MVCC storage core in `src/c-deps/libroach/db.cc`
(CockroachDB's libroach layer) against its natural-language specification.

Byte strings are modelled as `List Nat` (each element an octet value
0..255).  Machine integers are modelled as `Int`/`Nat` with explicit
wrap-around (`% 2^64`, `% 2^32`) where the C code converts between
signed and unsigned representations.
-/

namespace Libroach

/-! ## Byte-string primitives -/

/-- memcmp-style three-way comparison of byte strings, as performed by
`rocksdb::Slice::compare` (compare the common prefix bytewise, then the
lengths). -/
def compareBytes : List Nat → List Nat → Ordering
  | [], [] => .eq
  | [], _ :: _ => .lt
  | _ :: _, [] => .gt
  | a :: as, b :: bs =>
    if a < b then .lt else if b < a then .gt else compareBytes as bs

/-- `bytesLT a b` means `a` sorts strictly before `b` bytewise. -/
def bytesLT (a b : List Nat) : Prop := compareBytes a b = .lt

instance : DecidableEq Ordering := fun a b => by
  cases a <;> cases b <;> first | exact isTrue rfl | exact isFalse (by simp)

/-! ## Big-endian fixed-width integer encoding

Modelled from the spec: `EncodeUint64`/`EncodeUint32`/`DecodeUint64`/
`DecodeUint32` live in `encoding.h`, which is not part of the sources;
the spec (§3) fixes the format as fixed-width big-endian
(`<wall:uint64 big-endian>`, `<logical:uint32 big-endian>`). -/

/-- `beBytes n w` is the `n`-byte big-endian encoding of `w` (the low
`8*n` bits of `w`). -/
def beBytes : Nat → Nat → List Nat
  | 0, _ => []
  | n + 1, w => (w / 256 ^ n % 256) :: beBytes n w

/-- Value of a big-endian byte string. -/
def beVal (l : List Nat) : Nat := l.foldl (fun acc b => acc * 256 + b) 0

/-- Modelled from the spec: `DecodeUint64` consumes exactly 8 bytes from
the front of the buffer and fails if fewer are available. -/
def decodeUint64 (l : List Nat) : Option (Nat × List Nat) :=
  if 8 ≤ l.length then some (beVal (l.take 8), l.drop 8) else none

/-- Modelled from the spec: `DecodeUint32` consumes exactly 4 bytes from
the front of the buffer and fails if fewer are available. -/
def decodeUint32 (l : List Nat) : Option (Nat × List Nat) :=
  if 4 ≤ l.length then some (beVal (l.take 4), l.drop 4) else none

/-- Reinterpret a `uint64` bit pattern as an `int64` (C cast
`int64_t(w)`). -/
def toInt64 (u : Nat) : Int := if u < 2 ^ 63 then (u : Int) else (u : Int) - 2 ^ 64

/-- Reinterpret a `uint32` bit pattern as an `int32` (C cast
`int32_t(l)`). -/
def toInt32 (u : Nat) : Int := if u < 2 ^ 31 then (u : Int) else (u : Int) - 2 ^ 32

/-! ## Hybrid-logical-clock timestamps (`DBTimestamp`, db.cc:240-256) -/

/-- `DBTimestamp`: wall time in nanoseconds (`int64_t`) and a logical
tiebreaker (`int32_t`). -/
structure DBTimestampM where
  wall_time : Int
  logical : Int
  deriving DecidableEq, Repr

/-- The zero (meta) timestamp. -/
def kZeroTimestamp : DBTimestampM := ⟨0, 0⟩

/-- `operator<` on `DBTimestamp` (db.cc:246-248): lexicographic on
(wall_time, logical). -/
def tsLT (a b : DBTimestampM) : Bool :=
  a.wall_time < b.wall_time ∨ (a.wall_time = b.wall_time ∧ a.logical < b.logical)

/-- `operator<=` on `DBTimestamp` (db.cc:252). -/
def tsLE (a b : DBTimestampM) : Bool := !(tsLT b a)

/-- `PrevTimestamp` (db.cc:225-238): the immediate predecessor of a
timestamp.  The `abort()` on a zero timestamp is modelled by returning
the input unchanged (that branch is unreachable for the callers in this
development, which always pass a non-zero intent timestamp). -/
def prevTimestamp (ts : DBTimestampM) : DBTimestampM :=
  if ts.logical > 0 then ⟨ts.wall_time, ts.logical - 1⟩
  else if ts.wall_time = 0 then ts
  else ⟨ts.wall_time - 1, 2 ^ 31 - 1⟩

/-! ## MVCC key encoding (db.cc:256-359) -/

/-- `kMVCCVersionTimestampSize` (db.cc:256). -/
def kMVCCVersionTimestampSize : Nat := 12

/-- `EncodeTimestamp` (db.cc:258-263): 8-byte big-endian wall time,
followed by the 4-byte big-endian logical count only when it is
non-zero.  The C code casts the signed inputs to `uint64_t`/`uint32_t`. -/
def encodeTimestamp (wall_time logical : Int) : List Nat :=
  beBytes 8 (wall_time % 2 ^ 64).toNat ++
    (if logical ≠ 0 then beBytes 4 (logical % 2 ^ 32).toNat else [])

/-- `EncodeKey` (db.cc:275-288): `<key>[0x00 <timestamp>]<ts-len byte>`.
The length byte counts the bracketed bytes (0, 9 or 13). -/
def encodeKey (key : List Nat) (wall_time logical : Int) : List Nat :=
  if wall_time ≠ 0 ∨ logical ≠ 0 then
    let ts := encodeTimestamp wall_time logical
    key ++ 0 :: ts ++ [ts.length + 1]
  else
    key ++ [0]

/-- `EncodeKey` on a `DBKey`-style (key, timestamp) pair. -/
def encodeKeyTS (key : List Nat) (ts : DBTimestampM) : List Nat :=
  encodeKey key ts.wall_time ts.logical

/-- `SplitKey` (db.cc:295-307): split an encoded key into (user key,
timestamp bytes) using the trailing length byte.  `ts_size` is read
into a signed `char`; a byte ≥ 128 is negative and the comparison
`ts_size >= buf.size()` then converts it to a huge unsigned value, so
the split fails.  Also fails when the length byte is at least the
buffer size. -/
def splitKey (buf : List Nat) : Option (List Nat × List Nat) :=
  match buf.getLast? with
  | none => none
  | some ts_size =>
    if 128 ≤ ts_size ∨ buf.length ≤ ts_size then none
    else
      some (buf.take (buf.length - ts_size - 1),
            (buf.drop (buf.length - ts_size - 1)).take ts_size)

/-- `DecodeTimestamp` (db.cc:309-326): decode the wall time, then the
logical count when any bytes remain.  Returns the decoded values and
the remaining bytes. -/
def decodeTimestamp (ts : List Nat) : Option (Int × Int × List Nat) :=
  match decodeUint64 ts with
  | none => none
  | some (w, rest) =>
    if rest.length > 0 then
      match decodeUint32 rest with
      | none => none
      | some (l, rest') => some (toInt64 w, toInt32 l, rest')
    else
      some (toInt64 w, 0, rest)

/-- `DecodeKey` (db.cc:340-355): split, strip the NUL prefix of the
timestamp bytes, decode, and require that the timestamp bytes are
consumed exactly.  A missing timestamp decodes as the zero timestamp
(the C out-parameters are zero-initialised by every caller). -/
def decodeKey (buf : List Nat) : Option (List Nat × Int × Int) :=
  match splitKey buf with
  | none => none
  | some (key, ts) =>
    if ts = [] then some (key, 0, 0)
    else
      match decodeTimestamp (ts.drop 1) with
      | none => none
      | some (w, l, rest) => if rest = [] then some (key, w, l) else none

/-- `DecodeKey` packaged with a `DBTimestampM` (db.cc:357-359). -/
def decodeKeyTS (buf : List Nat) : Option (List Nat × DBTimestampM) :=
  (decodeKey buf).map fun (k, w, l) => (k, ⟨w, l⟩)

/-! ## The comparator (`DBComparator::Compare`, db.cc:513-535) -/

/-- `DBComparator::Compare`: split both keys; on a split failure fall
back to bytewise comparison; compare user keys bytewise; an empty
timestamp (meta key) sorts before any timestamped version of the same
user key; otherwise compare the timestamp bytes in reverse so newer
timestamps sort first. -/
def dbCompare (a b : List Nat) : Ordering :=
  match splitKey a, splitKey b with
  | some (key_a, ts_a), some (key_b, ts_b) =>
    match compareBytes key_a key_b with
    | .eq =>
      if ts_a = [] then
        if ts_b = [] then .eq else .lt
      else if ts_b = [] then .gt
      else compareBytes ts_b ts_a
    | c => c
  | _, _ => compareBytes a b

end Libroach

namespace Libroach

/-! ## Basic facts about the byte-level primitives -/

theorem beBytes_length (n w : Nat) : (beBytes n w).length = n := by
  induction n generalizing w with
  | zero => rfl
  | succ n ih => simp [beBytes, ih]

theorem beVal_nil : beVal [] = 0 := rfl

theorem beVal_foldl (l : List Nat) (acc : Nat) :
    l.foldl (fun a b => a * 256 + b) acc = acc * 256 ^ l.length + beVal l := by
  induction l generalizing acc with
  | nil => simp [beVal]
  | cons b l ih =>
    show l.foldl _ (acc * 256 + b) = _
    rw [ih (acc * 256 + b)]
    have : beVal (b :: l) = b * 256 ^ l.length + beVal l := by
      show l.foldl _ (0 * 256 + b) = _
      rw [ih (0 * 256 + b)]; ring
    rw [this]; simp [List.length_cons]; ring

theorem beVal_beBytes (n w : Nat) : beVal (beBytes n w) = w % 256 ^ n := by
  induction n with
  | zero => simp [beBytes, beVal, Nat.mod_one]
  | succ n ih =>
    show beVal (_ :: _) = _
    have h : beVal ((w / 256 ^ n % 256) :: beBytes n w)
        = (w / 256 ^ n % 256) * 256 ^ n + beVal (beBytes n w) := by
      show (beBytes n w).foldl _ (0 * 256 + _) = _
      rw [beVal_foldl, beBytes_length]; ring
    rw [h, ih, pow_succ, Nat.mod_mul]; ring

theorem beBytes_mod (n w : Nat) : beBytes n (w % 256 ^ n) = beBytes n w := by
  induction n generalizing w with
  | zero => rfl
  | succ n ih =>
    have hd : w % 256 ^ (n + 1) / 256 ^ n % 256 = w / 256 ^ n % 256 := by
      have h1 : w % 256 ^ (n + 1) = w % 256 ^ n + 256 ^ n * (w / 256 ^ n % 256) := by
        rw [pow_succ, Nat.mod_mul]
      have h2 : w % 256 ^ n < 256 ^ n := Nat.mod_lt _ (Nat.pos_pow_of_pos n (by norm_num))
      rw [h1, Nat.add_mul_div_left _ _ (Nat.pos_pow_of_pos n (by norm_num)),
        Nat.div_eq_of_lt h2]
      omega
    have ht : beBytes n (w % 256 ^ (n + 1)) = beBytes n w := by
      have h3 : w % 256 ^ (n + 1) % 256 ^ n = w % 256 ^ n :=
        Nat.mod_mod_of_dvd w (pow_dvd_pow 256 (Nat.le_succ n))
      calc beBytes n (w % 256 ^ (n + 1))
            = beBytes n (w % 256 ^ (n + 1) % 256 ^ n) := (ih _).symm
        _ = beBytes n (w % 256 ^ n) := by rw [h3]
        _ = beBytes n w := ih w
    show (w % 256 ^ (n+1) / 256 ^ n % 256) :: beBytes n (w % 256 ^ (n+1))
        = (w / 256 ^ n % 256) :: beBytes n w
    rw [hd, ht]

theorem compareBytes_self (l : List Nat) : compareBytes l l = .eq := by
  induction l with
  | nil => rfl
  | cons a l ih => simp [compareBytes, ih]

theorem compareBytes_eq_iff (a b : List Nat) : compareBytes a b = .eq ↔ a = b := by
  induction a generalizing b with
  | nil => cases b <;> simp [compareBytes]
  | cons x as ih =>
    cases b with
    | nil => simp [compareBytes]
    | cons y bs =>
      by_cases h1 : x < y
      · simp [compareBytes, h1]; omega
      · by_cases h2 : y < x
        · simp [compareBytes, h1, h2]; omega
        · have hxy : x = y := by omega
          simp [compareBytes, h1, h2, hxy, ih]

theorem compareBytes_swap (a b : List Nat) :
    compareBytes a b = (compareBytes b a).swap := by
  induction a generalizing b with
  | nil => cases b <;> rfl
  | cons x as ih =>
    cases b with
    | nil => rfl
    | cons y bs =>
      by_cases h1 : x < y
      · have h2 : ¬ y < x := by omega
        simp [compareBytes, h1, h2, Ordering.swap]
      · by_cases h2 : y < x
        · simp [compareBytes, h1, h2, Ordering.swap]
        · simp [compareBytes, h1, h2, ih]

theorem compareBytes_append_left (p a b : List Nat) :
    compareBytes (p ++ a) (p ++ b) = compareBytes a b := by
  induction p with
  | nil => rfl
  | cons x ps ih => simp [compareBytes, ih]

theorem compareBytes_append_of_lt {a b : List Nat} (c d : List Nat)
    (hlen : a.length = b.length) (h : compareBytes a b = .lt) :
    compareBytes (a ++ c) (b ++ d) = .lt := by
  induction a generalizing b with
  | nil =>
    cases b with
    | nil => simp [compareBytes] at h
    | cons y bs => simp at hlen
  | cons x as ih =>
    cases b with
    | nil => simp at hlen
    | cons y bs =>
      by_cases h1 : x < y
      · simp [compareBytes, h1]
      · by_cases h2 : y < x
        · simp [compareBytes, h1, h2] at h
        · simp [compareBytes, h1, h2] at h ⊢
          exact ih (by simpa using hlen) h

theorem compareBytes_beBytes_lt (n x y : Nat) :
    compareBytes (beBytes n x) (beBytes n y) = .lt ↔ x % 256 ^ n < y % 256 ^ n := by
  induction n with
  | zero => simp [beBytes, compareBytes, Nat.mod_one]
  | succ n ih =>
    have hx : x % 256 ^ (n + 1) = x % 256 ^ n + 256 ^ n * (x / 256 ^ n % 256) := by
      rw [pow_succ, Nat.mod_mul]
    have hy : y % 256 ^ (n + 1) = y % 256 ^ n + 256 ^ n * (y / 256 ^ n % 256) := by
      rw [pow_succ, Nat.mod_mul]
    have hxm : x % 256 ^ n < 256 ^ n := Nat.mod_lt _ (Nat.pos_pow_of_pos n (by norm_num))
    have hym : y % 256 ^ n < 256 ^ n := Nat.mod_lt _ (Nat.pos_pow_of_pos n (by norm_num))
    set dx := x / 256 ^ n % 256 with hdx
    set dy := y / 256 ^ n % 256 with hdy
    show compareBytes (dx :: beBytes n x) (dy :: beBytes n y) = .lt ↔ _
    by_cases h1 : dx < dy
    · have key : x % 256 ^ (n + 1) < y % 256 ^ (n + 1) := by
        rw [hx, hy]
        calc x % 256 ^ n + 256 ^ n * dx < 256 ^ n + 256 ^ n * dx := by omega
          _ = 256 ^ n * (dx + 1) := by ring
          _ ≤ 256 ^ n * dy := Nat.mul_le_mul_left _ h1
          _ ≤ y % 256 ^ n + 256 ^ n * dy := by omega
      simp [compareBytes, h1, key]
    · by_cases h2 : dy < dx
      · have key : y % 256 ^ (n + 1) < x % 256 ^ (n + 1) := by
          rw [hx, hy]
          calc y % 256 ^ n + 256 ^ n * dy < 256 ^ n + 256 ^ n * dy := by omega
            _ = 256 ^ n * (dy + 1) := by ring
            _ ≤ 256 ^ n * dx := Nat.mul_le_mul_left _ h2
            _ ≤ x % 256 ^ n + 256 ^ n * dx := by omega
        simp [compareBytes, h1, h2]
        omega
      · have hde : dx = dy := by omega
        have key : (x % 256 ^ (n + 1) < y % 256 ^ (n + 1)) ↔ (x % 256 ^ n < y % 256 ^ n) := by
          rw [hx, hy, hde]
          exact Nat.add_lt_add_iff_right
        simp [compareBytes, h1, h2, ih, key]

theorem compareBytes_beBytes_eq (n x y : Nat) :
    compareBytes (beBytes n x) (beBytes n y) = .eq ↔ x % 256 ^ n = y % 256 ^ n := by
  rw [compareBytes_eq_iff]
  constructor
  · intro h
    have := congrArg beVal h
    rwa [beVal_beBytes, beVal_beBytes] at this
  · intro h
    calc beBytes n x = beBytes n (x % 256 ^ n) := (beBytes_mod n x).symm
      _ = beBytes n (y % 256 ^ n) := by rw [h]
      _ = beBytes n y := beBytes_mod n y

end Libroach

namespace Libroach

/-! ## Structure of encoded keys -/

/-- The timestamp suffix (between user key and length byte) that
`EncodeKey` appends: empty for the zero timestamp, otherwise a NUL
prefix guard followed by the encoded timestamp. -/
def tsSuffix (wall_time logical : Int) : List Nat :=
  if wall_time ≠ 0 ∨ logical ≠ 0 then 0 :: encodeTimestamp wall_time logical else []

theorem encodeTimestamp_length (w l : Int) :
    (encodeTimestamp w l).length = if l ≠ 0 then 12 else 8 := by
  unfold encodeTimestamp
  by_cases h : l ≠ 0 <;> simp [h, beBytes_length]

theorem encodeKey_shape (k : List Nat) (w l : Int) :
    encodeKey k w l = k ++ (tsSuffix w l ++ [(tsSuffix w l).length]) := by
  unfold encodeKey tsSuffix
  by_cases h : w ≠ 0 ∨ l ≠ 0 <;> simp [h]

theorem tsSuffix_length_lt (w l : Int) : (tsSuffix w l).length < 128 := by
  unfold tsSuffix
  split
  · simp only [List.length_cons, encodeTimestamp_length]
    split <;> norm_num
  · simp

theorem splitKey_of_shape (k t : List Nat) (h : t.length < 128) :
    splitKey (k ++ (t ++ [t.length])) = some (k, t) := by
  have hl : (k ++ (t ++ [t.length])).length = k.length + (t.length + 1) := by simp
  have hg : (k ++ (t ++ [t.length])).getLast? = some t.length := by
    rw [← List.append_assoc]
    exact List.getLast?_concat _
  have step : splitKey (k ++ (t ++ [t.length])) =
      if 128 ≤ t.length ∨ (k ++ (t ++ [t.length])).length ≤ t.length then none
      else some ((k ++ (t ++ [t.length])).take ((k ++ (t ++ [t.length])).length - t.length - 1),
        ((k ++ (t ++ [t.length])).drop
          ((k ++ (t ++ [t.length])).length - t.length - 1)).take t.length) := by
    unfold splitKey
    rw [hg]
  rw [step, if_neg (by rw [hl]; omega)]
  have h1 : (k ++ (t ++ [t.length])).length - t.length - 1 = k.length := by rw [hl]; omega
  rw [h1, List.take_left, List.drop_left, List.take_left]

theorem splitKey_encodeKey (k : List Nat) (w l : Int) :
    splitKey (encodeKey k w l) = some (k, tsSuffix w l) := by
  rw [encodeKey_shape]
  exact splitKey_of_shape k _ (tsSuffix_length_lt w l)

theorem tsSuffix_eq_nil_iff (w l : Int) : tsSuffix w l = [] ↔ (w = 0 ∧ l = 0) := by
  unfold tsSuffix
  by_cases h : w ≠ 0 ∨ l ≠ 0 <;> simp [h] <;> tauto

theorem decodeUint64_beBytes (w : Nat) (r : List Nat) :
    decodeUint64 (beBytes 8 w ++ r) = some (w % 2 ^ 64, r) := by
  unfold decodeUint64
  rw [if_pos (by simp [beBytes_length]), List.take_left' (beBytes_length _ _),
    List.drop_left' (beBytes_length _ _), beVal_beBytes]
  norm_num

theorem decodeUint32_beBytes (w : Nat) (r : List Nat) :
    decodeUint32 (beBytes 4 w ++ r) = some (w % 2 ^ 32, r) := by
  unfold decodeUint32
  rw [if_pos (by simp [beBytes_length]), List.take_left' (beBytes_length _ _),
    List.drop_left' (beBytes_length _ _), beVal_beBytes]
  norm_num

/-- Decoding the encoded timestamp bytes recovers the timestamp, for
in-range non-negative components. -/
theorem decodeTimestamp_encodeTimestamp (w l : Int)
    (hw0 : 0 ≤ w) (hw : w < 2 ^ 63) (hl0 : 0 ≤ l) (hl : l < 2 ^ 31) :
    decodeTimestamp (encodeTimestamp w l) = some (w, l, []) := by
  have hwm : w % 2 ^ 64 = w := Int.emod_eq_of_lt hw0 (by omega)
  have hWlt63 : (w % 2 ^ 64).toNat < 2 ^ 63 := by rw [hwm]; omega
  have hWmod : (w % 2 ^ 64).toNat % 2 ^ 64 = (w % 2 ^ 64).toNat := Nat.mod_eq_of_lt (by omega)
  have hWcast : (((w % 2 ^ 64).toNat : Nat) : Int) = w := by rw [hwm]; exact Int.toNat_of_nonneg hw0
  have hW64 : toInt64 (w % 2 ^ 64).toNat = w := by
    unfold toInt64; rw [if_pos hWlt63, hWcast]
  unfold encodeTimestamp decodeTimestamp
  by_cases hlz : l ≠ 0
  · have hlm : l % 2 ^ 32 = l := Int.emod_eq_of_lt hl0 (by omega)
    have hLlt31 : (l % 2 ^ 32).toNat < 2 ^ 31 := by rw [hlm]; omega
    have hLmod : (l % 2 ^ 32).toNat % 2 ^ 32 = (l % 2 ^ 32).toNat := Nat.mod_eq_of_lt (by omega)
    have hLcast : (((l % 2 ^ 32).toNat : Nat) : Int) = l := by
      rw [hlm]; exact Int.toNat_of_nonneg hl0
    have hL32 : toInt32 (l % 2 ^ 32).toNat = l := by
      unfold toInt32; rw [if_pos hLlt31, hLcast]
    simp only [hlz, if_true, ite_true, ne_eq, not_false_eq_true]
    rw [decodeUint64_beBytes, hWmod]
    have h4 : (beBytes 4 (l % 2 ^ 32).toNat).length > 0 := by rw [beBytes_length]; omega
    simp only [h4, if_pos]
    have : decodeUint32 (beBytes 4 (l % 2 ^ 32).toNat) = some ((l % 2 ^ 32).toNat, []) := by
      have := decodeUint32_beBytes (l % 2 ^ 32).toNat []
      rwa [List.append_nil, hLmod] at this
    rw [this, hW64]
    show some (w, toInt32 (l % 2 ^ 32).toNat, []) = some (w, l, [])
    rw [hL32]
  · have hle : l = 0 := by omega
    simp only [hlz, ite_false]
    rw [List.append_nil]
    have : decodeUint64 (beBytes 8 (w % 2 ^ 64).toNat)
        = some ((w % 2 ^ 64).toNat, []) := by
      have := decodeUint64_beBytes (w % 2 ^ 64).toNat []
      rwa [List.append_nil, hWmod] at this
    rw [this]
    simp only [List.length_nil, gt_iff_lt, lt_irrefl, ite_false]
    rw [hW64, hle]


/-- Unfolding lemma for `splitKey` given the trailing byte. -/
theorem splitKey_eq (buf : List Nat) (b : Nat) (hb : buf.getLast? = some b) :
    splitKey buf =
      if 128 ≤ b ∨ buf.length ≤ b then none
      else some (buf.take (buf.length - b - 1), (buf.drop (buf.length - b - 1)).take b) := by
  unfold splitKey
  rw [hb]

/-- Unfolding lemma for `decodeKey` given the split. -/
theorem decodeKey_eq_of_split (buf key ts : List Nat) (hs : splitKey buf = some (key, ts)) :
    decodeKey buf =
      if ts = [] then some (key, 0, 0)
      else
        match decodeTimestamp (ts.drop 1) with
        | none => none
        | some (w, l, rest) => if rest = [] then some (key, w, l) else none := by
  unfold decodeKey
  rw [hs]

theorem decodeKey_none_of_split_none (buf : List Nat) (hs : splitKey buf = none) :
    decodeKey buf = none := by
  unfold decodeKey
  rw [hs]

theorem decodeKey_encodeKey (k : List Nat) (w l : Int)
    (hw0 : 0 ≤ w) (hw : w < 2 ^ 63) (hl0 : 0 ≤ l) (hl : l < 2 ^ 31) :
    decodeKey (encodeKey k w l) = some (k, w, l) := by
  rw [decodeKey_eq_of_split _ k (tsSuffix w l) (splitKey_encodeKey k w l)]
  by_cases hz : w ≠ 0 ∨ l ≠ 0
  · have hts : tsSuffix w l = 0 :: encodeTimestamp w l := by
      unfold tsSuffix; rw [if_pos hz]
    rw [if_neg (by rw [hts]; simp), hts]
    show (match decodeTimestamp (encodeTimestamp w l) with
          | none => none
          | some (w, l, rest) => if rest = [] then some (k, w, l) else none) = some (k, w, l)
    rw [decodeTimestamp_encodeTimestamp w l hw0 hw hl0 hl]
    simp
  · push_neg at hz
    obtain ⟨hzw, hzl⟩ := hz
    rw [if_pos ((tsSuffix_eq_nil_iff w l).mpr ⟨hzw, hzl⟩), hzw, hzl]

theorem decodeKey_rejects (buf : List Nat) (b : Nat)
    (hb : buf.getLast? = some b)
    (hbad : buf.length ≤ b ∨
      ¬ ((buf.drop (buf.length - b - 1)).take b = [] ∨
        ∃ w l, decodeTimestamp (((buf.drop (buf.length - b - 1)).take b).drop 1)
          = some (w, l, []))) :
    decodeKey buf = none := by
  by_cases hfail : 128 ≤ b ∨ buf.length ≤ b
  · exact decodeKey_none_of_split_none buf (by rw [splitKey_eq buf b hb, if_pos hfail])
  · push_neg at hfail
    rcases hbad with hbad | hbad
    · omega
    · push_neg at hbad
      obtain ⟨hne, hnex⟩ := hbad
      have hs : splitKey buf
          = some (buf.take (buf.length - b - 1), (buf.drop (buf.length - b - 1)).take b) := by
        rw [splitKey_eq buf b hb, if_neg (by omega)]
      rw [decodeKey_eq_of_split _ _ _ hs, if_neg hne]
      cases hdt : decodeTimestamp (((buf.drop (buf.length - b - 1)).take b).drop 1) with
      | none => rfl
      | some x =>
        obtain ⟨w', l', rest⟩ := x
        show (if rest = [] then some (_, w', l') else none) = none
        rcases List.eq_nil_or_concat rest with hrest | hrest
        · exact absurd (hrest ▸ hdt) (by simpa using hnex w' l')
        · obtain ⟨l2, a, rfl⟩ := hrest
          rw [if_neg (by simp)]

/-- **C1.**  Encoding round-trip: for every user key `k` and every
timestamp with `wall_time ≥ 0` and `logical ≥ 0` (within the `int64`/
`int32` value ranges), `DecodeKey (EncodeKey k wall logical)` succeeds
and returns exactly `(k, wall, logical)`; and `DecodeKey` fails on
every buffer whose trailing length byte disagrees with the buffer:
when the length byte is at least the buffer size, or when the
bracketed timestamp region does not parse to exactly the declared
bytes. -/
theorem c1_encode_decode_roundtrip :
    (∀ (k : List Nat) (w l : Int), 0 ≤ w → w < 2 ^ 63 → 0 ≤ l → l < 2 ^ 31 →
      decodeKey (encodeKey k w l) = some (k, w, l)) ∧
    (∀ (buf : List Nat) (b : Nat), buf.getLast? = some b →
      (buf.length ≤ b ∨
        ¬ ((buf.drop (buf.length - b - 1)).take b = [] ∨
          ∃ w l, decodeTimestamp (((buf.drop (buf.length - b - 1)).take b).drop 1)
            = some (w, l, []))) →
      decodeKey buf = none) :=
  ⟨fun k w l hw0 hw hl0 hl => decodeKey_encodeKey k w l hw0 hw hl0 hl,
   fun buf b hb hbad => decodeKey_rejects buf b hb hbad⟩

/-- Witness for `c1_encode_decode_roundtrip` at concrete inputs. -/
theorem c1_encode_decode_roundtrip_witness :
    decodeKey (encodeKey [7, 200] 12345 6) = some ([7, 200], 12345, 6) ∧
    decodeKey [5, 5] = none :=
  ⟨c1_encode_decode_roundtrip.1 [7, 200] 12345 6 (by decide) (by decide) (by decide) (by decide),
   c1_encode_decode_roundtrip.2 [5, 5] 5 (by decide) (Or.inl (by decide))⟩


/-! ## Comparator order on encoded keys -/

/-! ## Comparator order on encoded keys -/

theorem dbCompare_encodeKey_same_key (k : List Nat) (w1 l1 w2 l2 : Int) :
    dbCompare (encodeKey k w1 l1) (encodeKey k w2 l2) =
      (if tsSuffix w1 l1 = [] then (if tsSuffix w2 l2 = [] then .eq else .lt)
       else if tsSuffix w2 l2 = [] then .gt
       else compareBytes (tsSuffix w2 l2) (tsSuffix w1 l1)) := by
  simp only [dbCompare, splitKey_encodeKey, compareBytes_self]

theorem dbCompare_encodeKey_lt_keys (a b : List Nat) (w1 l1 w2 l2 : Int)
    (h : compareBytes a b = .lt) :
    dbCompare (encodeKey a w1 l1) (encodeKey b w2 l2) = .lt := by
  simp only [dbCompare, splitKey_encodeKey, h]

theorem compareBytes_append_of_gt {a b : List Nat} (c d : List Nat)
    (hlen : a.length = b.length) (h : compareBytes a b = .gt) :
    compareBytes (a ++ c) (b ++ d) = .gt := by
  have h' : compareBytes b a = .lt := by
    have := compareBytes_swap a b
    rw [h] at this
    cases hba : compareBytes b a <;> rw [hba] at this <;> simp [Ordering.swap] at this ⊢
  have := compareBytes_append_of_lt d c hlen.symm h'
  rw [compareBytes_swap, this]
  rfl

theorem compareBytes_tsSuffix_lt_iff (wa la wb lb : Int)
    (hwa0 : 0 ≤ wa) (hwa : wa < 2 ^ 63) (hla0 : 0 ≤ la) (hla : la < 2 ^ 31)
    (hwb0 : 0 ≤ wb) (hwb : wb < 2 ^ 63) (hlb0 : 0 ≤ lb) (hlb : lb < 2 ^ 31)
    (hza : ¬(wa = 0 ∧ la = 0)) (hzb : ¬(wb = 0 ∧ lb = 0)) :
    compareBytes (tsSuffix wa la) (tsSuffix wb lb) = .lt ↔
      (wa < wb ∨ (wa = wb ∧ la < lb)) := by
  have hta : tsSuffix wa la = 0 :: (beBytes 8 (wa % 2 ^ 64).toNat ++
      (if la ≠ 0 then beBytes 4 (la % 2 ^ 32).toNat else [])) := by
    unfold tsSuffix encodeTimestamp
    rw [if_pos (by tauto)]
  have htb : tsSuffix wb lb = 0 :: (beBytes 8 (wb % 2 ^ 64).toNat ++
      (if lb ≠ 0 then beBytes 4 (lb % 2 ^ 32).toNat else [])) := by
    unfold tsSuffix encodeTimestamp
    rw [if_pos (by tauto)]
  rw [hta, htb]
  have hcons : ∀ (x y : List Nat), compareBytes (0 :: x) (0 :: y) = compareBytes x y := by
    intro x y; simp [compareBytes]
  rw [hcons]
  set Wa := (wa % 2 ^ 64).toNat with hWa
  set Wb := (wb % 2 ^ 64).toNat with hWb
  rcases lt_trichotomy wa wb with hlt | heq | hgt
  · have hW : Wa % 256 ^ 8 < Wb % 256 ^ 8 := by
      have h256 : (256 : Nat) ^ 8 = 2 ^ 64 := by norm_num
      rw [h256]
      omega
    have hbytes := (compareBytes_beBytes_lt 8 Wa Wb).mpr hW
    have hwhole := compareBytes_append_of_lt
      (if la ≠ 0 then beBytes 4 (la % 2 ^ 32).toNat else [])
      (if lb ≠ 0 then beBytes 4 (lb % 2 ^ 32).toNat else [])
      (by simp [beBytes_length]) hbytes
    rw [hwhole]
    exact iff_of_true rfl (Or.inl hlt)
  · have hWeq : Wa = Wb := by omega
    rw [hWeq, compareBytes_append_left]
    by_cases hlaz : la ≠ 0 <;> by_cases hlbz : lb ≠ 0
    · rw [if_pos hlaz, if_pos hlbz, compareBytes_beBytes_lt]
      have h256 : (256 : Nat) ^ 4 = 2 ^ 32 := by norm_num
      rw [h256]
      constructor
      · intro h; exact Or.inr ⟨heq, by omega⟩
      · rintro (h | ⟨-, h⟩) <;> omega
    · rw [if_pos hlaz, if_neg hlbz]
      have hgt4 : compareBytes (beBytes 4 (la % 2 ^ 32).toNat) [] = .gt := by
        simp [beBytes, compareBytes]
      rw [hgt4]
      constructor
      · intro h; cases h
      · rintro (h | ⟨-, h⟩) <;> omega
    · rw [if_neg hlaz, if_pos hlbz]
      have hlt4 : compareBytes [] (beBytes 4 (lb % 2 ^ 32).toNat) = .lt := by
        simp [beBytes, compareBytes]
      rw [hlt4]
      exact iff_of_true rfl (Or.inr ⟨heq, by omega⟩)
    · rw [if_neg hlaz, if_neg hlbz]
      have heq4 : compareBytes ([] : List Nat) [] = .eq := rfl
      rw [heq4]
      constructor
      · intro h; cases h
      · rintro (h | ⟨-, h⟩) <;> omega
  · have hW : Wb % 256 ^ 8 < Wa % 256 ^ 8 := by
      have h256 : (256 : Nat) ^ 8 = 2 ^ 64 := by norm_num
      rw [h256]
      omega
    have hbytes := (compareBytes_beBytes_lt 8 Wb Wa).mpr hW
    have hgt8 : compareBytes (beBytes 8 Wa) (beBytes 8 Wb) = .gt := by
      rw [compareBytes_swap, hbytes]
      rfl
    have hwhole := compareBytes_append_of_gt
      (if la ≠ 0 then beBytes 4 (la % 2 ^ 32).toNat else [])
      (if lb ≠ 0 then beBytes 4 (lb % 2 ^ 32).toNat else [])
      (by simp [beBytes_length]) hgt8
    rw [hwhole]
    constructor
    · intro h; cases h
    · rintro (h | ⟨h, -⟩) <;> omega

/-- The claim C2, as stated, includes the "newest version first" iff for
*all* timestamps of the same user key; this fails when one of the two
timestamps is the zero (meta) timestamp: the meta key sorts first even
though the zero timestamp is the *smallest* timestamp.  Concretely, for
`k = []`, `(w1,l1) = (0,0)`, `(w2,l2) = (1,0)`, the encoded meta key
sorts before the encoded version key, yet `(w1,l1) > (w2,l2)` is false. -/
theorem c2_comparator_order_counterexample :
    ¬ (dbCompare (encodeKey [] 0 0) (encodeKey [] 1 0) = .lt ↔
        ((1 : Int) < 0 ∨ ((0 : Int) = 1 ∧ (0 : Int) < 0))) := by
  decide

/-- **C2 (amended).**  Comparator order: (1) for every user key `k` and
every timestamp `(w,l) ≠ (0,0)`, the meta encoding `EncodeKey(k,0,0)`
sorts strictly before `EncodeKey(k,w,l)`; (2) for equal user keys and
*non-zero* timestamps within the non-negative `int64`/`int32` value
ranges, `EncodeKey(k,w1,l1)` sorts before `EncodeKey(k,w2,l2)` iff
`(w1,l1) > (w2,l2)` lexicographically on (wall, logical) (newer version
first); (3) for user keys `a < b` bytewise, every encoding of `a` sorts
strictly before every encoding of `b`.  (The original claim's part (2)
without the non-zero restriction is refuted by
`c2_comparator_order_counterexample`.) -/
theorem c2_comparator_order_amended :
    (∀ (k : List Nat) (w l : Int), ¬(w = 0 ∧ l = 0) →
      dbCompare (encodeKey k 0 0) (encodeKey k w l) = .lt) ∧
    (∀ (k : List Nat) (w1 l1 w2 l2 : Int),
      0 ≤ w1 → w1 < 2 ^ 63 → 0 ≤ l1 → l1 < 2 ^ 31 →
      0 ≤ w2 → w2 < 2 ^ 63 → 0 ≤ l2 → l2 < 2 ^ 31 →
      ¬(w1 = 0 ∧ l1 = 0) → ¬(w2 = 0 ∧ l2 = 0) →
      (dbCompare (encodeKey k w1 l1) (encodeKey k w2 l2) = .lt ↔
        (w2 < w1 ∨ (w2 = w1 ∧ l2 < l1)))) ∧
    (∀ (a b : List Nat) (w1 l1 w2 l2 : Int), compareBytes a b = .lt →
      dbCompare (encodeKey a w1 l1) (encodeKey b w2 l2) = .lt) := by
  refine ⟨?_, ?_, ?_⟩
  · intro k w l hz
    rw [dbCompare_encodeKey_same_key]
    have h1 : tsSuffix 0 0 = [] := by simp [tsSuffix]
    have h2 : tsSuffix w l ≠ [] := by
      rw [Ne, tsSuffix_eq_nil_iff]; exact hz
    rw [if_pos h1, if_neg h2]
  · intro k w1 l1 w2 l2 hw10 hw1 hl10 hl1 hw20 hw2 hl20 hl2 hz1 hz2
    rw [dbCompare_encodeKey_same_key]
    have h1 : tsSuffix w1 l1 ≠ [] := by rw [Ne, tsSuffix_eq_nil_iff]; exact hz1
    have h2 : tsSuffix w2 l2 ≠ [] := by rw [Ne, tsSuffix_eq_nil_iff]; exact hz2
    rw [if_neg h1, if_neg h2]
    exact compareBytes_tsSuffix_lt_iff w2 l2 w1 l1 hw20 hw2 hl20 hl2 hw10 hw1 hl10 hl1 hz2 hz1
  · exact dbCompare_encodeKey_lt_keys

/-- Witness for `c2_comparator_order_amended` at concrete inputs. -/
theorem c2_comparator_order_amended_witness :
    dbCompare (encodeKey [97] 0 0) (encodeKey [97] 5 0) = .lt ∧
    (dbCompare (encodeKey [97] 5 1) (encodeKey [97] 5 2) = .lt ↔
      ((5 : Int) < 5 ∨ ((5 : Int) = 5 ∧ (2 : Int) < 1))) ∧
    dbCompare (encodeKey [97] 9 9 : List Nat) (encodeKey [98] 1 0) = .lt :=
  ⟨c2_comparator_order_amended.1 [97] 5 0 (by decide),
   c2_comparator_order_amended.2.1 [97] 5 1 5 2 (by decide) (by decide) (by decide) (by decide)
     (by decide) (by decide) (by decide) (by decide) (by decide) (by decide),
   c2_comparator_order_amended.2.2 [97] [98] 9 9 1 0 (by decide)⟩


/-! ## GC age arithmetic (db.cc:2331-2338) -/

/-- `kNanosecondPerSecond` (db.cc:2331): the `int64_t` constant `1e9`. -/
def kNanosecondPerSecond : Int := 1000000000

/-- `age_factor` (db.cc:2333-2338): the seconds factor applied while
accruing `gc_bytes_age` and `intent_age` in
`MVCCComputeStatsInternal`.  C++ `int64_t` division truncates toward
zero (`Int.tdiv`), and the source deliberately divides each operand
separately: "toNS/1e9 - fromNS/1e9 is not the same since 1e9 is a
double". -/
def age_factor (fromNS toNS : Int) : Int :=
  toNS.tdiv kNanosecondPerSecond - fromNS.tdiv kNanosecondPerSecond

/-- **C9.**  GC-age arithmetic: the age factor equals
`toNS/1e9 - fromNS/1e9` with exact 64-bit integer division computed on
each operand separately (for the non-negative timestamps used by the
stats computation this is the floor quotient), and it is *not* the
integer quotient of the difference: the two disagree, e.g. at
`fromNS = 6*10^8`, `toNS = 15*10^8`. -/
theorem c9_age_factor_arithmetic :
    (∀ fromNS toNS : Int, 0 ≤ fromNS → 0 ≤ toNS →
      age_factor fromNS toNS = toNS / 1000000000 - fromNS / 1000000000) ∧
    age_factor 600000000 1500000000 = 1 ∧
    ¬ (∀ fromNS toNS : Int, 0 ≤ fromNS → 0 ≤ toNS →
        age_factor fromNS toNS = (toNS - fromNS).tdiv 1000000000) := by
  refine ⟨?_, by decide, ?_⟩
  · intro f t hf ht
    unfold age_factor kNanosecondPerSecond
    rw [Int.tdiv_eq_ediv ht (by norm_num), Int.tdiv_eq_ediv hf (by norm_num)]
  · intro h
    have := h 600000000 1500000000 (by norm_num) (by norm_num)
    rw [show age_factor 600000000 1500000000 = 1 from by decide] at this
    norm_num at this
    exact absurd this.symm (by decide)

/-- Witness for `c9_age_factor_arithmetic` at concrete inputs. -/
theorem c9_age_factor_arithmetic_witness :
    age_factor 2500000000 9999999999 = 9999999999 / 1000000000 - 2500000000 / 1000000000 :=
  c9_age_factor_arithmetic.1 2500000000 9999999999 (by decide) (by decide)


/-! ## Batch delta replay (`ProcessDeltaKey`, db.cc:1007-1074)

`DBMergeOne` (db.cc:2312-2329) fully merges two serialized
`MVCCMetadata` values; its protobuf wire format lives outside this
file, so the merge operation is taken as a parameter `m` throughout.
A `none` value models a `DBString` with NULL data (the deletion
marker); `some v` models present data (possibly empty). -/

/-- A write-batch entry for one key, in insertion order
(`rocksdb::WriteEntry`).  `other` covers the record types ignored by
the `default` branch of the `switch`. -/
inductive BatchEntry where
  | put (value : List Nat)
  | merge (value : List Nat)
  | del
  | other
  deriving DecidableEq, Repr

/-- The loop of `ProcessDeltaKey` (db.cc:1015-1068): `count` counts
processed entries, `value` is the accumulator, `fetches` counts calls
to `base->Get`.  After the loop (db.cc:1070-1073), a zero count returns
the base value (one more fetch). -/
def processDeltaKeyGo (m : List Nat → List Nat → Except String (List Nat))
    (base : Option (List Nat)) :
    List BatchEntry → Nat → Option (List Nat) → Nat →
      Except String (Option (List Nat) × Nat)
  | [], count, value, fetches =>
    if 0 < count then .ok (value, fetches) else .ok (base, fetches + 1)
  | e :: rest, count, value, fetches =>
    match e with
    | .put v => processDeltaKeyGo m base rest (count + 1) (some v) fetches
    | .del => processDeltaKeyGo m base rest (count + 1) none fetches
    | .other => processDeltaKeyGo m base rest (count + 1) value fetches
    | .merge v =>
      if count = 0 then
        match base with
        | some ex =>
          match m ex v with
          | .error s => .error s
          | .ok merged => processDeltaKeyGo m base rest (count + 1) (some merged) (fetches + 1)
        | none => processDeltaKeyGo m base rest (count + 1) (some v) (fetches + 1)
      else
        match value with
        | some ex =>
          match m ex v with
          | .error s => .error s
          | .ok merged => processDeltaKeyGo m base rest (count + 1) (some merged) fetches
        | none => processDeltaKeyGo m base rest (count + 1) (some v) fetches

/-- `ProcessDeltaKey` (db.cc:1007-1074): replay the batch entries for a
single key over the base value, returning the resulting value and the
number of base fetches. -/
def processDeltaKey (m : List Nat → List Nat → Except String (List Nat))
    (base : Option (List Nat)) (entries : List BatchEntry) :
    Except String (Option (List Nat) × Nat) :=
  processDeltaKeyGo m base entries 0 none 0

/-- One step of the spec's delta replay (§4.3.1): "Put: replace
accumulator with the put's value.  Delete: clear accumulator.  Merge:
combine via the merge operator with the operand; the operand alone
becomes the result when the value merged into is absent." -/
def specReplayStep (m : List Nat → List Nat → Except String (List Nat))
    (acc : Option (List Nat)) : BatchEntry → Except String (Option (List Nat))
  | .put v => .ok (some v)
  | .del => .ok none
  | .other => .ok acc
  | .merge v =>
    match acc with
    | some a =>
      match m a v with
      | .error s => .error s
      | .ok merged => .ok (some merged)
    | none => .ok (some v)

/-- Fold of `specReplayStep` over the remaining entries. -/
def specReplayFold (m : List Nat → List Nat → Except String (List Nat)) :
    Option (List Nat) → List BatchEntry → Except String (Option (List Nat))
  | acc, [] => .ok acc
  | acc, e :: rest =>
    match specReplayStep m acc e with
    | .error s => .error s
    | .ok acc' => specReplayFold m acc' rest

/-- The spec's description of whole-key delta replay: with no entries
the base is returned unchanged; a leading Merge starts from the base
value (fetched once); any other leading entry starts from an empty
accumulator. -/
def overlayReplaySpec (m : List Nat → List Nat → Except String (List Nat))
    (base : Option (List Nat)) : List BatchEntry → Except String (Option (List Nat))
  | [] => .ok base
  | e :: rest =>
    let acc0 : Option (List Nat) := match e with | .merge _ => base | _ => none
    match specReplayStep m acc0 e with
    | .error s => .error s
    | .ok acc1 => specReplayFold m acc1 rest

/-- The number of times `ProcessDeltaKey` fetches the base value: once
when there are no entries or the first entry is a Merge, never
otherwise. -/
def baseFetchCount : List BatchEntry → Nat
  | [] => 1
  | .merge _ :: _ => 1
  | _ => 0

theorem processDeltaKeyGo_pos (m : List Nat → List Nat → Except String (List Nat))
    (base : Option (List Nat)) (rest : List BatchEntry) :
    ∀ (count : Nat) (value : Option (List Nat)) (fetches : Nat), 0 < count →
      processDeltaKeyGo m base rest count value fetches
        = (specReplayFold m value rest).map (fun v => (v, fetches)) := by
  induction rest with
  | nil =>
    intro count value fetches hc
    simp [processDeltaKeyGo, specReplayFold, hc, Except.map]
  | cons e rest ih =>
    intro count value fetches hc
    cases e with
    | put v =>
      show processDeltaKeyGo m base rest (count + 1) (some v) fetches = _
      rw [ih _ _ _ (by omega)]; rfl
    | del =>
      show processDeltaKeyGo m base rest (count + 1) none fetches = _
      rw [ih _ _ _ (by omega)]; rfl
    | other =>
      show processDeltaKeyGo m base rest (count + 1) value fetches = _
      rw [ih _ _ _ (by omega)]; rfl
    | merge v =>
      simp only [processDeltaKeyGo]
      rw [if_neg (by omega)]
      cases value with
      | none =>
        rw [ih _ _ _ (by omega)]; rfl
      | some a =>
        cases hm : m a v with
        | error s =>
          simp [specReplayFold, specReplayStep, hm, Except.map]
        | ok merged =>
          simp only [specReplayFold, specReplayStep, hm]
          exact ih (count + 1) (some merged) fetches (by omega)

theorem processDeltaKey_eq_spec (m : List Nat → List Nat → Except String (List Nat))
    (base : Option (List Nat)) (entries : List BatchEntry) :
    processDeltaKey m base entries
      = (overlayReplaySpec m base entries).map (fun v => (v, baseFetchCount entries)) := by
  cases entries with
  | nil => rfl
  | cons e rest =>
    cases e with
    | put v =>
      show processDeltaKeyGo m base rest 1 (some v) 0 = _
      rw [processDeltaKeyGo_pos m base rest 1 (some v) 0 (by omega)]; rfl
    | del =>
      show processDeltaKeyGo m base rest 1 none 0 = _
      rw [processDeltaKeyGo_pos m base rest 1 none 0 (by omega)]; rfl
    | other =>
      show processDeltaKeyGo m base rest 1 none 0 = _
      rw [processDeltaKeyGo_pos m base rest 1 none 0 (by omega)]; rfl
    | merge v =>
      show processDeltaKeyGo m base (BatchEntry.merge v :: rest) 0 none 0 = _
      simp only [processDeltaKeyGo]
      rw [if_pos trivial]
      cases base with
      | none =>
        rw [processDeltaKeyGo_pos m none rest 1 (some v) 1 (by omega)]; rfl
      | some b =>
        show (match m b v with
          | Except.error s => Except.error s
          | Except.ok merged => processDeltaKeyGo m (some b) rest (0 + 1) (some merged) (0 + 1))
          = _
        cases hm : m b v with
        | error s =>
          simp [overlayReplaySpec, specReplayStep, hm, Except.map]
        | ok merged =>
          show processDeltaKeyGo m (some b) rest (0 + 1) (some merged) (0 + 1) = _
          rw [processDeltaKeyGo_pos m (some b) rest (0 + 1) (some merged) (0 + 1) (by omega)]
          simp [overlayReplaySpec, specReplayStep, hm, baseFetchCount]

/-- **C6.**  Overlay delta replay: for a batch's entries on a single
key, processed in insertion order, a Put replaces the accumulated
value, a Delete clears it (marking deletion), and a Merge merges into
the accumulated value — fetching the base value (exactly once) as the
starting point when it is the first entry for the key, the operand
alone becoming the result when the value merged into is absent; with no
entries for the key, the base value is returned unchanged.  Stated as:
`ProcessDeltaKey` computes exactly the spec's replay fold
(`overlayReplaySpec`), and the base value is fetched exactly once when
the entry list is empty or starts with a Merge, and never otherwise. -/
theorem c6_overlay_delta_replay
    (m : List Nat → List Nat → Except String (List Nat))
    (base : Option (List Nat)) (entries : List BatchEntry) :
    (processDeltaKey m base entries).map Prod.fst = overlayReplaySpec m base entries ∧
    (∀ v fetches, processDeltaKey m base entries = .ok (v, fetches) →
      (fetches ≤ 1 ∧
        (fetches = 1 ↔ (entries = [] ∨ ∃ w rest, entries = .merge w :: rest)))) := by
  constructor
  · rw [processDeltaKey_eq_spec]
    cases overlayReplaySpec m base entries <;> rfl
  · intro v fetches h
    rw [processDeltaKey_eq_spec] at h
    cases hs : overlayReplaySpec m base entries with
    | error s => rw [hs] at h; cases h
    | ok v' =>
      rw [hs] at h
      have hf : fetches = baseFetchCount entries := by
        simp only [Except.map, Except.ok.injEq, Prod.mk.injEq] at h
        exact h.2.symm
      subst hf
      match entries with
      | [] => exact ⟨by simp [baseFetchCount], by simp [baseFetchCount]⟩
      | .put w :: rest =>
        refine ⟨by simp [baseFetchCount], ?_⟩
        simp only [baseFetchCount]
        constructor
        · intro h0; cases h0
        · rintro (h0 | ⟨w', rest', h0⟩) <;> cases h0
      | .del :: rest =>
        refine ⟨by simp [baseFetchCount], ?_⟩
        simp only [baseFetchCount]
        constructor
        · intro h0; cases h0
        · rintro (h0 | ⟨w', rest', h0⟩) <;> cases h0
      | .other :: rest =>
        refine ⟨by simp [baseFetchCount], ?_⟩
        simp only [baseFetchCount]
        constructor
        · intro h0; cases h0
        · rintro (h0 | ⟨w', rest', h0⟩) <;> cases h0
      | .merge w :: rest =>
        exact ⟨by simp [baseFetchCount], by simp [baseFetchCount]⟩

/-- Witness for `c6_overlay_delta_replay` at a concrete input. -/
theorem c6_overlay_delta_replay_witness :
    (1 : Nat) ≤ 1 ∧
      ((1 : Nat) = 1 ↔ (([BatchEntry.merge [2], .del, .merge [3]] : List BatchEntry) = [] ∨
        ∃ w rest, ([BatchEntry.merge [2], .del, .merge [3]] : List BatchEntry)
          = .merge w :: rest)) :=
  (c6_overlay_delta_replay (fun a b => .ok (a ++ b)) (some [1])
      [.merge [2], .del, .merge [3]]).2 (some [3]) 1 (by rfl)


/-! ## Time-series consolidation and merge (db.cc:592-746)

`InternalTimeSeriesData` values are modelled at the parsed (protobuf
message) level; `ParseProtoFromValue`/`SerializeTimeSeriesToValue` are
external serialization glue.  Only the `offset` field of a sample
participates in ordering and dedup; `data` stands for all the other
fields that `CopyFrom` copies along. -/

theorem dropWhile_length_le {α : Type} (p : α → Bool) (l : List α) :
    (l.dropWhile p).length ≤ l.length :=
  (List.dropWhile_sublist p).length_le

/-- `InternalTimeSeriesSample`. -/
structure Sample where
  offset : Int
  data : Nat
  deriving DecidableEq, Repr

/-- `InternalTimeSeriesData`. -/
structure InternalTimeSeriesData where
  start_timestamp_nanos : Int
  sample_duration_nanos : Int
  samples : List Sample
  deriving DecidableEq, Repr

/-- Insertion into a sorted sample list at the position a stable sort
assigns: after every strictly smaller offset, before equal ones from
later input positions. -/
def insertSample (x : Sample) : List Sample → List Sample
  | [] => [x]
  | y :: ys => if y.offset < x.offset then y :: insertSample x ys else x :: y :: ys

/-- Model of `std::stable_sort` with `TimeSeriesSampleOrdering`
(db.cc:592-596): sort by offset ascending; equal offsets keep their
original relative order. -/
def stableSortSamples : List Sample → List Sample
  | [] => []
  | x :: xs => insertSample x (stableSortSamples xs)

/-- The consolidation loop of `ConsolidateTimeSeriesValue`
(db.cc:731-741): on the sorted list, emit one sample per equal-offset
run — the last sample of the run (repeated `CopyFrom` keeps the last
one). -/
def dedupLastSamples : List Sample → List Sample
  | [] => []
  | x :: xs =>
    (xs.takeWhile (fun s => s.offset == x.offset)).getLastD x ::
      dedupLastSamples (xs.dropWhile (fun s => s.offset == x.offset))
termination_by l => l.length
decreasing_by
  simp only [List.length_cons]
  have := dropWhile_length_le (fun s => s.offset == y.offset) ys
  omega

/-- `ConsolidateTimeSeriesValue` (db.cc:709-746) on the parsed value:
stable-sort the samples, then keep the last sample of each offset. -/
def consolidateTimeSeriesValue (val : InternalTimeSeriesData) : InternalTimeSeriesData :=
  { start_timestamp_nanos := val.start_timestamp_nanos,
    sample_duration_nanos := val.sample_duration_nanos,
    samples := dedupLastSamples (stableSortSamples val.samples) }

/-- The merge loop of `MergeTimeSeriesValues` (db.cc:665-696): pick the
lowest offset among the two heads as `next_offset`, consume every
leading sample with that offset from the left and then from the right
(each consumed sample overwrites `src`, so the last one wins, right
over left), and emit `src`.  The left stream's leading run is consumed
only when its head carries `next_offset`. -/
def mergeSampleLists : List Sample → List Sample → List Sample
  | [], [] => []
  | [], y :: ys =>
    (ys.takeWhile (fun s => s.offset == y.offset)).getLastD y ::
      mergeSampleLists [] (ys.dropWhile (fun s => s.offset == y.offset))
  | x :: xs, [] =>
    (xs.takeWhile (fun s => s.offset == x.offset)).getLastD x ::
      mergeSampleLists (xs.dropWhile (fun s => s.offset == x.offset)) []
  | x :: xs, y :: ys =>
    if x.offset ≤ y.offset then
      ((y :: ys).takeWhile (fun s => s.offset == x.offset)).getLastD
          ((xs.takeWhile (fun s => s.offset == x.offset)).getLastD x) ::
        mergeSampleLists (xs.dropWhile (fun s => s.offset == x.offset))
          ((y :: ys).dropWhile (fun s => s.offset == x.offset))
    else
      (ys.takeWhile (fun s => s.offset == y.offset)).getLastD y ::
        mergeSampleLists (x :: xs) (ys.dropWhile (fun s => s.offset == y.offset))
termination_by l r => l.length + r.length
decreasing_by
  · simp only [List.length_nil, List.length_cons]
    have := dropWhile_length_le (fun s => s.offset == y.offset) ys
    omega
  · simp only [List.length_nil, List.length_cons]
    have := dropWhile_length_le (fun s => s.offset == x.offset) xs
    omega
  · simp only [List.length_cons]
    have h1 := dropWhile_length_le (fun s => s.offset == x.offset) xs
    have h2 := dropWhile_length_le (fun s => s.offset == x.offset) (y :: ys)
    simp only [List.length_cons] at h2
    omega
  · simp only [List.length_cons]
    have := dropWhile_length_le (fun s => s.offset == y.offset) ys
    omega

/-- `MergeTimeSeriesValues` (db.cc:614-701) on parsed values: fail on
mismatched start timestamps (db.cc:630) or sample durations
(db.cc:634); in a partial merge just concatenate the sample arrays
(protobuf `MergeFrom`, db.cc:642-646); in a full merge stable-sort the
right operand's samples and run the merge loop. -/
def mergeTimeSeriesValues (left right : InternalTimeSeriesData) (full_merge : Bool) :
    Option InternalTimeSeriesData :=
  if left.start_timestamp_nanos ≠ right.start_timestamp_nanos then none
  else if left.sample_duration_nanos ≠ right.sample_duration_nanos then none
  else if !full_merge then
    some { left with samples := left.samples ++ right.samples }
  else
    some { start_timestamp_nanos := left.start_timestamp_nanos,
           sample_duration_nanos := left.sample_duration_nanos,
           samples := mergeSampleLists left.samples (stableSortSamples right.samples) }


/-! ## Facts about time-series sorting, dedup and merge -/

theorem offset_eq_of_mem_takeWhile {c : Int} {l : List Sample} {z : Sample}
    (h : z ∈ l.takeWhile (fun s => s.offset == c)) : z.offset = c := by
  have := List.mem_takeWhile_imp h
  simpa using this

theorem offset_getLastD {c : Int} {run : List Sample} {d : Sample}
    (hrun : ∀ z ∈ run, z.offset = c) (hd : d.offset = c) : (run.getLastD d).offset = c := by
  have := List.getLastD_mem_cons run d
  rcases List.mem_cons.mp this with h | h
  · rw [h]; exact hd
  · exact hrun _ h

theorem mem_insertSample {x z : Sample} {l : List Sample} :
    z ∈ insertSample x l ↔ z = x ∨ z ∈ l := by
  induction l with
  | nil => simp [insertSample]
  | cons y ys ih =>
    by_cases h : y.offset < x.offset
    · simp only [insertSample, if_pos h, List.mem_cons, ih]
      try tauto
    · simp only [insertSample, if_neg h, List.mem_cons]
      try tauto

theorem sortedLE_insertSample {x : Sample} {l : List Sample}
    (hl : List.Pairwise (fun a b : Sample => a.offset ≤ b.offset) l) :
    List.Pairwise (fun a b : Sample => a.offset ≤ b.offset) (insertSample x l) := by
  induction l with
  | nil => simp [insertSample]
  | cons y ys ih =>
    rw [List.pairwise_cons] at hl
    by_cases h : y.offset < x.offset
    · rw [insertSample, if_pos h, List.pairwise_cons]
      refine ⟨?_, ih hl.2⟩
      intro b hb
      rcases mem_insertSample.mp hb with rfl | hb
      · omega
      · exact hl.1 b hb
    · rw [insertSample, if_neg h, List.pairwise_cons]
      refine ⟨?_, List.pairwise_cons.mpr hl⟩
      intro b hb
      rcases List.mem_cons.mp hb with rfl | hb
      · omega
      · have := hl.1 b hb
        omega

theorem filter_insertSample (x : Sample) (l : List Sample) (c : Int) :
    (insertSample x l).filter (fun s => s.offset == c)
      = if x.offset = c then x :: l.filter (fun s => s.offset == c)
        else l.filter (fun s => s.offset == c) := by
  induction l with
  | nil =>
    by_cases h : x.offset = c
    · simp [insertSample, List.filter_cons, h]
    · simp [insertSample, List.filter_cons,
        show (x.offset == c) = false from by simpa using h, h]
  | cons y ys ih =>
    by_cases h : y.offset < x.offset
    · rw [insertSample, if_pos h]
      by_cases hy : y.offset = c
      · by_cases hx : x.offset = c
        · rw [if_pos hx] at ih ⊢
          simp only [List.filter_cons, show (y.offset == c) = true from by simpa using hy, ih]
          omega
        · rw [if_neg hx] at ih ⊢
          simp [List.filter_cons, show (y.offset == c) = true from by simpa using hy, ih]
      · by_cases hx : x.offset = c
        · rw [if_pos hx] at ih ⊢
          simp [List.filter_cons, show (y.offset == c) = false from by simpa using hy, ih]
        · rw [if_neg hx] at ih ⊢
          simp [List.filter_cons, show (y.offset == c) = false from by simpa using hy, ih]
    · rw [insertSample, if_neg h]
      by_cases hx : x.offset = c <;>
        simp [List.filter_cons, hx]

theorem sortedLE_stableSortSamples (l : List Sample) :
    List.Pairwise (fun a b : Sample => a.offset ≤ b.offset) (stableSortSamples l) := by
  induction l with
  | nil => simp [stableSortSamples]
  | cons x xs ih => exact sortedLE_insertSample ih

theorem filter_stableSortSamples (l : List Sample) (c : Int) :
    (stableSortSamples l).filter (fun s => s.offset == c)
      = l.filter (fun s => s.offset == c) := by
  induction l with
  | nil => rfl
  | cons x xs ih =>
    rw [stableSortSamples, filter_insertSample]
    by_cases hx : x.offset = c
    · rw [if_pos hx, ih]
      simp [List.filter_cons, hx]
    · rw [if_neg hx, ih]
      simp [List.filter_cons, hx]

theorem sorted_filter_eq_takeWhile {c : Int} {l : List Sample}
    (hl : List.Pairwise (fun a b : Sample => a.offset ≤ b.offset) l)
    (hge : ∀ z ∈ l, c ≤ z.offset) :
    l.filter (fun s => s.offset == c) = l.takeWhile (fun s => s.offset == c) := by
  induction l with
  | nil => rfl
  | cons x xs ih =>
    rw [List.pairwise_cons] at hl
    by_cases hx : x.offset = c
    · rw [List.filter_cons, List.takeWhile_cons]
      simp only [show (x.offset == c) = true from by simpa using hx, if_true]
      rw [ih hl.2 (fun z hz => hge z (List.mem_cons_of_mem x hz))]
    · have hgt : c < x.offset := by
        have := hge x (List.mem_cons_self x xs)
        omega
      rw [List.filter_cons, List.takeWhile_cons]
      simp only [show (x.offset == c) = false from by simpa using hx]
      simp only [Bool.false_eq_true, if_false, cond_false]
      rw [List.filter_eq_nil_iff]
      intro z hz
      have hzx := hl.1 z hz
      have : c < z.offset := by omega
      simpa using by omega
  
theorem dropWhile_offset_gt {c : Int} {l : List Sample}
    (hl : List.Pairwise (fun a b : Sample => a.offset ≤ b.offset) l)
    (hge : ∀ z ∈ l, c ≤ z.offset) :
    ∀ z ∈ l.dropWhile (fun s => s.offset == c), c < z.offset := by
  induction l with
  | nil => simp [List.dropWhile]
  | cons x xs ih =>
    rw [List.pairwise_cons] at hl
    rw [List.dropWhile_cons]
    by_cases hx : x.offset = c
    · simp only [show (x.offset == c) = true from by simpa using hx, if_true]
      exact ih hl.2 (fun z hz => hge z (List.mem_cons_of_mem x hz))
    · have hgt : c < x.offset := by
        have := hge x (List.mem_cons_self x xs)
        omega
      simp only [show (x.offset == c) = false from by simpa using hx]
      simp only [Bool.false_eq_true, if_false]
      intro z hz
      rcases List.mem_cons.mp hz with rfl | hz
      · exact hgt
      · have := hl.1 z hz
        omega


theorem run_getLastD_offset (c : Int) (l : List Sample) (d : Sample) (hd : d.offset = c) :
    ((l.takeWhile (fun s => s.offset == c)).getLastD d).offset = c :=
  offset_getLastD (fun _ hz => offset_eq_of_mem_takeWhile hz) hd

theorem run_getLastD_mem (c : Int) (l : List Sample) (d : Sample) :
    (l.takeWhile (fun s => s.offset == c)).getLastD d = d ∨
      (l.takeWhile (fun s => s.offset == c)).getLastD d ∈ l := by
  rcases List.mem_cons.mp (List.getLastD_mem_cons (l.takeWhile (fun s => s.offset == c)) d) with
    h | h
  · exact Or.inl h
  · exact Or.inr ((List.takeWhile_sublist _).subset h)

theorem getLast?_cons_eq_getLastD (x : Sample) (b : List Sample) :
    (x :: b).getLast? = some (b.getLastD x) := by
  induction b generalizing x with
  | nil => rfl
  | cons y bs ih => rw [List.getLast?_cons_cons, ih y, List.getLastD_cons]

theorem getLast?_cons_append (x : Sample) (a b : List Sample) :
    ((x :: a) ++ b).getLast? = some (b.getLastD (a.getLastD x)) := by
  induction a generalizing x with
  | nil => simpa using getLast?_cons_eq_getLastD x b
  | cons z as iha =>
    simp only [List.cons_append]
    rw [List.getLast?_cons_cons, ← List.cons_append, iha z, List.getLastD_cons]

theorem mem_mergeSampleLists (l r : List Sample) (z : Sample)
    (h : z ∈ mergeSampleLists l r) : z ∈ l ∨ z ∈ r := by
  induction l, r using mergeSampleLists.induct with
  | case1 => simp [mergeSampleLists] at h
  | case2 y ys ih =>
    rw [mergeSampleLists] at h
    rcases List.mem_cons.mp h with h1 | h1
    · right
      rcases run_getLastD_mem y.offset ys y with h2 | h2
      · rw [h1, h2]; exact List.mem_cons_self y ys
      · rw [h1]; exact List.mem_cons_of_mem y h2
    · rcases ih h1 with h2 | h2
      · cases h2
      · right; exact List.mem_cons_of_mem y ((List.dropWhile_sublist _).subset h2)
  | case3 x xs ih =>
    rw [mergeSampleLists] at h
    rcases List.mem_cons.mp h with h1 | h1
    · left
      rcases run_getLastD_mem x.offset xs x with h2 | h2
      · rw [h1, h2]; exact List.mem_cons_self x xs
      · rw [h1]; exact List.mem_cons_of_mem x h2
    · rcases ih h1 with h2 | h2
      · left; exact List.mem_cons_of_mem x ((List.dropWhile_sublist _).subset h2)
      · cases h2
  | case4 x xs y ys hxy ih =>
    rw [mergeSampleLists, if_pos hxy] at h
    rcases List.mem_cons.mp h with h1 | h1
    · rcases run_getLastD_mem x.offset (y :: ys) ((xs.takeWhile
          (fun s => s.offset == x.offset)).getLastD x) with h2 | h2
      · rcases run_getLastD_mem x.offset xs x with h3 | h3
        · left; rw [h1, h2, h3]; exact List.mem_cons_self x xs
        · left; rw [h1, h2]; exact List.mem_cons_of_mem x h3
      · right; rw [h1]; exact h2
    · rcases ih h1 with h2 | h2
      · left; exact List.mem_cons_of_mem x ((List.dropWhile_sublist _).subset h2)
      · right; exact (List.dropWhile_sublist _).subset h2
  | case5 x xs y ys hxy ih =>
    rw [mergeSampleLists, if_neg hxy] at h
    rcases List.mem_cons.mp h with h1 | h1
    · right
      rcases run_getLastD_mem y.offset ys y with h2 | h2
      · rw [h1, h2]; exact List.mem_cons_self y ys
      · rw [h1]; exact List.mem_cons_of_mem y h2
    · rcases ih h1 with h2 | h2
      · left; exact h2
      · right; exact List.mem_cons_of_mem y ((List.dropWhile_sublist _).subset h2)


theorem sortedLT_mergeSampleLists (l r : List Sample) :
    List.Pairwise (fun a b : Sample => a.offset ≤ b.offset) l →
    List.Pairwise (fun a b : Sample => a.offset ≤ b.offset) r →
    List.Pairwise (fun a b : Sample => a.offset < b.offset) (mergeSampleLists l r) := by
  induction l, r using mergeSampleLists.induct with
  | case1 => intro _ _; simp [mergeSampleLists]
  | case2 y ys ih =>
    intro _ hr
    rw [List.pairwise_cons] at hr
    rw [mergeSampleLists, List.pairwise_cons]
    constructor
    · intro b hb
      rw [run_getLastD_offset y.offset ys y rfl]
      rcases mem_mergeSampleLists _ _ _ hb with h2 | h2
      · cases h2
      · exact dropWhile_offset_gt hr.2 (fun z hz => hr.1 z hz) b h2
    · exact ih (by simp) (hr.2.sublist (List.dropWhile_sublist _))
  | case3 x xs ih =>
    intro hl _
    rw [List.pairwise_cons] at hl
    rw [mergeSampleLists, List.pairwise_cons]
    constructor
    · intro b hb
      rw [run_getLastD_offset x.offset xs x rfl]
      rcases mem_mergeSampleLists _ _ _ hb with h2 | h2
      · exact dropWhile_offset_gt hl.2 (fun z hz => hl.1 z hz) b h2
      · cases h2
    · exact ih (hl.2.sublist (List.dropWhile_sublist _)) (by simp)
  | case4 x xs y ys hxy ih =>
    intro hl hr
    rw [List.pairwise_cons] at hl hr
    rw [mergeSampleLists, if_pos hxy, List.pairwise_cons]
    have hhead : (((y :: ys).takeWhile (fun s => s.offset == x.offset)).getLastD
        ((xs.takeWhile (fun s => s.offset == x.offset)).getLastD x)).offset = x.offset :=
      run_getLastD_offset x.offset (y :: ys) _
        (run_getLastD_offset x.offset xs x rfl)
    constructor
    · intro b hb
      rw [hhead]
      rcases mem_mergeSampleLists _ _ _ hb with h2 | h2
      · exact dropWhile_offset_gt hl.2 (fun z hz => hl.1 z hz) b h2
      · refine dropWhile_offset_gt (List.pairwise_cons.mpr hr) ?_ b h2
        intro z hz
        rcases List.mem_cons.mp hz with rfl | hz
        · exact hxy
        · have := hr.1 z hz
          omega
    · exact ih (hl.2.sublist (List.dropWhile_sublist _))
        ((List.pairwise_cons.mpr hr).sublist (List.dropWhile_sublist _))
  | case5 x xs y ys hxy ih =>
    intro hl hr
    rw [List.pairwise_cons] at hl hr
    rw [mergeSampleLists, if_neg hxy, List.pairwise_cons]
    constructor
    · intro b hb
      rw [run_getLastD_offset y.offset ys y rfl]
      rcases mem_mergeSampleLists _ _ _ hb with h2 | h2
      · rcases List.mem_cons.mp h2 with rfl | h2
        · omega
        · have := hl.1 b h2
          omega
      · exact dropWhile_offset_gt hr.2 (fun z hz => hr.1 z hz) b h2
    · exact ih (List.pairwise_cons.mpr hl) (hr.2.sublist (List.dropWhile_sublist _))


theorem filter_eq_nil_of_gt {cc : Int} {L : List Sample}
    (h : ∀ z ∈ L, cc < z.offset) : L.filter (fun s => s.offset == cc) = [] := by
  rw [List.filter_eq_nil_iff]
  intro a ha
  have := h a ha
  simp only [beq_iff_eq]
  omega

theorem filter_eq_filter_dropWhile {cc d : Int} (h : cc ≠ d) (L : List Sample) :
    L.filter (fun s => s.offset == cc)
      = (L.dropWhile (fun s => s.offset == d)).filter (fun s => s.offset == cc) := by
  conv_lhs => rw [← List.takeWhile_append_dropWhile (p := fun s => s.offset == d) (l := L)]
  rw [List.filter_append,
    show (L.takeWhile (fun s => s.offset == d)).filter (fun s => s.offset == cc) = [] from by
      rw [List.filter_eq_nil_iff]
      intro a ha
      have := offset_eq_of_mem_takeWhile ha
      simp only [beq_iff_eq]
      omega,
    List.nil_append]

theorem filter_cons_offset_eq {c : Int} {h : Sample} {t : List Sample} (hh : h.offset = c) :
    (h :: t).filter (fun s => s.offset == c) = h :: t.filter (fun s => s.offset == c) := by
  rw [List.filter_cons, if_pos (by simpa using hh)]

theorem filter_cons_offset_ne {c : Int} {h : Sample} {t : List Sample} (hh : h.offset ≠ c) :
    (h :: t).filter (fun s => s.offset == c) = t.filter (fun s => s.offset == c) := by
  rw [List.filter_cons]
  simp only [show ((h.offset == c) = false) from by simpa using hh]
  simp

theorem takeWhile_cons_offset_eq {c : Int} {h : Sample} {t : List Sample}
    (hh : h.offset = c) :
    (h :: t).takeWhile (fun s => s.offset == c)
      = h :: t.takeWhile (fun s => s.offset == c) := by
  rw [List.takeWhile_cons, if_pos (by simpa using hh)]

theorem filter_mergeSampleLists (l r : List Sample) :
    List.Pairwise (fun a b : Sample => a.offset ≤ b.offset) l →
    List.Pairwise (fun a b : Sample => a.offset ≤ b.offset) r →
    ∀ c : Int,
      (mergeSampleLists l r).filter (fun s => s.offset == c)
        = ((l.filter (fun s => s.offset == c)
            ++ r.filter (fun s => s.offset == c)).getLast?).toList := by
  induction l, r using mergeSampleLists.induct with
  | case1 => intro _ _ c; simp [mergeSampleLists]
  | case2 y ys ih =>
    intro _ hr c
    rw [List.pairwise_cons] at hr
    rw [mergeSampleLists]
    have hylb : ∀ z ∈ y :: ys, y.offset ≤ z.offset := by
      intro z hz
      rcases List.mem_cons.mp hz with rfl | hz
      · omega
      · exact hr.1 z hz
    by_cases hc : c = y.offset
    · subst hc
      rw [filter_cons_offset_eq (run_getLastD_offset y.offset ys y rfl),
        filter_eq_nil_of_gt (fun a ha => by
          rcases mem_mergeSampleLists _ _ _ ha with h2 | h2
          · cases h2
          · exact dropWhile_offset_gt hr.2 (fun z hz => hr.1 z hz) a h2),
        show ([] : List Sample).filter (fun s => s.offset == y.offset) = [] from rfl,
        List.nil_append,
        sorted_filter_eq_takeWhile (List.pairwise_cons.mpr hr) hylb,
        takeWhile_cons_offset_eq rfl, getLast?_cons_eq_getLastD]
      rfl
    · rw [filter_cons_offset_ne (by rw [run_getLastD_offset y.offset ys y rfl]; omega),
        ih (by simp) (hr.2.sublist (List.dropWhile_sublist _)) c,
        show ([] : List Sample).filter (fun s => s.offset == c) = [] from rfl,
        filter_cons_offset_ne (by omega : y.offset ≠ c),
        filter_eq_filter_dropWhile (show c ≠ y.offset from hc) ys]
  | case3 x xs ih =>
    intro hl _ c
    rw [List.pairwise_cons] at hl
    rw [mergeSampleLists]
    have hxlb : ∀ z ∈ x :: xs, x.offset ≤ z.offset := by
      intro z hz
      rcases List.mem_cons.mp hz with rfl | hz
      · omega
      · exact hl.1 z hz
    by_cases hc : c = x.offset
    · subst hc
      rw [filter_cons_offset_eq (run_getLastD_offset x.offset xs x rfl),
        filter_eq_nil_of_gt (fun a ha => by
          rcases mem_mergeSampleLists _ _ _ ha with h2 | h2
          · exact dropWhile_offset_gt hl.2 (fun z hz => hl.1 z hz) a h2
          · cases h2),
        show ([] : List Sample).filter (fun s => s.offset == x.offset) = [] from rfl,
        List.append_nil,
        sorted_filter_eq_takeWhile (List.pairwise_cons.mpr hl) hxlb,
        takeWhile_cons_offset_eq rfl, getLast?_cons_eq_getLastD]
      rfl
    · rw [filter_cons_offset_ne (by rw [run_getLastD_offset x.offset xs x rfl]; omega),
        ih (hl.2.sublist (List.dropWhile_sublist _)) (by simp) c,
        filter_cons_offset_ne (by omega : x.offset ≠ c),
        filter_eq_filter_dropWhile (show c ≠ x.offset from hc) xs]
  | case4 x xs y ys hxy ih =>
    intro hl hr c
    rw [List.pairwise_cons] at hl hr
    rw [mergeSampleLists, if_pos hxy]
    have hylb : ∀ z ∈ y :: ys, x.offset ≤ z.offset := by
      intro z hz
      rcases List.mem_cons.mp hz with rfl | hz
      · exact hxy
      · have := hr.1 z hz; omega
    have hxlb : ∀ z ∈ x :: xs, x.offset ≤ z.offset := by
      intro z hz
      rcases List.mem_cons.mp hz with rfl | hz
      · omega
      · exact hl.1 z hz
    by_cases hc : c = x.offset
    · subst hc
      rw [filter_cons_offset_eq
          (run_getLastD_offset x.offset (y :: ys) _ (run_getLastD_offset x.offset xs x rfl)),
        filter_eq_nil_of_gt (fun a ha => by
          rcases mem_mergeSampleLists _ _ _ ha with h2 | h2
          · exact dropWhile_offset_gt hl.2 (fun z hz => hl.1 z hz) a h2
          · exact dropWhile_offset_gt (List.pairwise_cons.mpr hr) hylb a h2),
        sorted_filter_eq_takeWhile (List.pairwise_cons.mpr hl) hxlb,
        sorted_filter_eq_takeWhile (List.pairwise_cons.mpr hr) hylb,
        takeWhile_cons_offset_eq rfl, getLast?_cons_append]
      rfl
    · rw [filter_cons_offset_ne (by
          rw [run_getLastD_offset x.offset (y :: ys) _ (run_getLastD_offset x.offset xs x rfl)]
          omega),
        ih (hl.2.sublist (List.dropWhile_sublist _))
          ((List.pairwise_cons.mpr hr).sublist (List.dropWhile_sublist _)) c,
        filter_cons_offset_ne (by omega : x.offset ≠ c),
        filter_eq_filter_dropWhile (show c ≠ x.offset from hc) xs,
        filter_eq_filter_dropWhile (show c ≠ x.offset from hc) (y :: ys)]
  | case5 x xs y ys hxy ih =>
    intro hl hr c
    rw [List.pairwise_cons] at hl hr
    rw [mergeSampleLists, if_neg hxy]
    have hylb : ∀ z ∈ y :: ys, y.offset ≤ z.offset := by
      intro z hz
      rcases List.mem_cons.mp hz with rfl | hz
      · omega
      · exact hr.1 z hz
    by_cases hc : c = y.offset
    · subst hc
      rw [filter_cons_offset_eq (run_getLastD_offset y.offset ys y rfl),
        filter_eq_nil_of_gt (fun a ha => by
          rcases mem_mergeSampleLists _ _ _ ha with h2 | h2
          · rcases List.mem_cons.mp h2 with rfl | h2
            · omega
            · have := hl.1 a h2; omega
          · exact dropWhile_offset_gt hr.2 (fun z hz => hr.1 z hz) a h2),
        filter_eq_nil_of_gt (fun z hz => by
          rcases List.mem_cons.mp hz with rfl | hz
          · omega
          · have := hl.1 z hz; omega),
        List.nil_append,
        sorted_filter_eq_takeWhile (List.pairwise_cons.mpr hr) hylb,
        takeWhile_cons_offset_eq rfl, getLast?_cons_eq_getLastD]
      rfl
    · rw [filter_cons_offset_ne (by rw [run_getLastD_offset y.offset ys y rfl]; omega),
        ih (List.pairwise_cons.mpr hl) (hr.2.sublist (List.dropWhile_sublist _)) c,
        filter_cons_offset_ne (by omega : y.offset ≠ c),
        filter_eq_filter_dropWhile (show c ≠ y.offset from hc) ys]


theorem mem_dedupLastSamples (l : List Sample) (z : Sample)
    (h : z ∈ dedupLastSamples l) : z ∈ l := by
  induction l using dedupLastSamples.induct with
  | case1 => simp [dedupLastSamples] at h
  | case2 x xs ih =>
    rw [dedupLastSamples] at h
    rcases List.mem_cons.mp h with h1 | h1
    · rcases run_getLastD_mem x.offset xs x with h2 | h2
      · rw [h1, h2]; exact List.mem_cons_self x xs
      · rw [h1]; exact List.mem_cons_of_mem x h2
    · exact List.mem_cons_of_mem x ((List.dropWhile_sublist _).subset (ih h1))

theorem sortedLT_dedupLastSamples (l : List Sample) :
    List.Pairwise (fun a b : Sample => a.offset ≤ b.offset) l →
    List.Pairwise (fun a b : Sample => a.offset < b.offset) (dedupLastSamples l) := by
  induction l using dedupLastSamples.induct with
  | case1 => intro _; simp [dedupLastSamples]
  | case2 x xs ih =>
    intro hl
    rw [List.pairwise_cons] at hl
    rw [dedupLastSamples, List.pairwise_cons]
    constructor
    · intro b hb
      rw [run_getLastD_offset x.offset xs x rfl]
      exact dropWhile_offset_gt hl.2 (fun z hz => hl.1 z hz) b
        (mem_dedupLastSamples _ _ hb)
    · exact ih (hl.2.sublist (List.dropWhile_sublist _))

theorem filter_dedupLastSamples (l : List Sample) :
    List.Pairwise (fun a b : Sample => a.offset ≤ b.offset) l →
    ∀ c : Int,
      (dedupLastSamples l).filter (fun s => s.offset == c)
        = ((l.filter (fun s => s.offset == c)).getLast?).toList := by
  induction l using dedupLastSamples.induct with
  | case1 => intro _ c; simp [dedupLastSamples]
  | case2 x xs ih =>
    intro hl c
    rw [List.pairwise_cons] at hl
    rw [dedupLastSamples]
    have hxlb : ∀ z ∈ x :: xs, x.offset ≤ z.offset := by
      intro z hz
      rcases List.mem_cons.mp hz with rfl | hz
      · omega
      · exact hl.1 z hz
    by_cases hc : c = x.offset
    · subst hc
      rw [filter_cons_offset_eq (run_getLastD_offset x.offset xs x rfl),
        filter_eq_nil_of_gt (fun a ha =>
          dropWhile_offset_gt hl.2 (fun z hz => hl.1 z hz) a
            (mem_dedupLastSamples _ _ ha)),
        sorted_filter_eq_takeWhile (List.pairwise_cons.mpr hl) hxlb,
        takeWhile_cons_offset_eq rfl, getLast?_cons_eq_getLastD]
      rfl
    · rw [filter_cons_offset_ne (by rw [run_getLastD_offset x.offset xs x rfl]; omega),
        ih (hl.2.sublist (List.dropWhile_sublist _)) c,
        filter_cons_offset_ne (by omega : x.offset ≠ c),
        filter_eq_filter_dropWhile (show c ≠ x.offset from hc) xs]


/-- **C7.**  Time-series dedup: consolidation produces a sample list
sorted strictly ascending by offset in which, for every offset, exactly
the last input sample with that offset survives (stable sorting keeps
equal offsets in input order, so the last one in sorted order is the
last one in the value); and a full time-series merge emits exactly one
sample per offset — the last sample of the right operand at that
offset, overriding the left operand's — given that the left operand's
samples are sorted by offset, which `MergeTimeSeriesValues` assumes
(db.cc:654, "Assume values in left_ts have been sorted").  The filter
characterisation `(filter left ++ filter right).getLast?` selects the
right operand's last sample at the offset when there is one, and the
left operand's otherwise. -/
theorem c7_timeseries_dedup :
    (∀ (ts : InternalTimeSeriesData),
      List.Pairwise (fun a b : Sample => a.offset < b.offset)
        (consolidateTimeSeriesValue ts).samples ∧
      ∀ c : Int,
        (consolidateTimeSeriesValue ts).samples.filter (fun s => s.offset == c)
          = ((ts.samples.filter (fun s => s.offset == c)).getLast?).toList) ∧
    (∀ (left right merged : InternalTimeSeriesData),
      List.Pairwise (fun a b : Sample => a.offset ≤ b.offset) left.samples →
      mergeTimeSeriesValues left right true = some merged →
      List.Pairwise (fun a b : Sample => a.offset < b.offset) merged.samples ∧
      ∀ c : Int,
        merged.samples.filter (fun s => s.offset == c)
          = ((left.samples.filter (fun s => s.offset == c)
              ++ right.samples.filter (fun s => s.offset == c)).getLast?).toList) := by
  constructor
  · intro ts
    constructor
    · exact sortedLT_dedupLastSamples _ (sortedLE_stableSortSamples ts.samples)
    · intro c
      show (dedupLastSamples (stableSortSamples ts.samples)).filter _ = _
      rw [filter_dedupLastSamples _ (sortedLE_stableSortSamples ts.samples) c,
        filter_stableSortSamples ts.samples c]
  · intro left right merged hl hm
    unfold mergeTimeSeriesValues at hm
    by_cases h1 : left.start_timestamp_nanos ≠ right.start_timestamp_nanos
    · rw [if_pos h1] at hm; cases hm
    · rw [if_neg h1] at hm
      by_cases h2 : left.sample_duration_nanos ≠ right.sample_duration_nanos
      · rw [if_pos h2] at hm; cases hm
      · rw [if_neg h2] at hm
        simp only [Bool.not_true, Bool.false_eq_true, if_false, ite_false,
          Option.some.injEq] at hm
        subst hm
        constructor
        · exact sortedLT_mergeSampleLists _ _ hl (sortedLE_stableSortSamples right.samples)
        · intro c
          show (mergeSampleLists left.samples (stableSortSamples right.samples)).filter _ = _
          rw [filter_mergeSampleLists _ _ hl (sortedLE_stableSortSamples right.samples) c,
            filter_stableSortSamples right.samples c]

/-- Witness for `c7_timeseries_dedup` at concrete inputs. -/
theorem c7_timeseries_dedup_witness :
    (List.Pairwise (fun a b : Sample => a.offset < b.offset)
      (⟨0, 10, [⟨1, 1⟩, ⟨2, 8⟩, ⟨3, 7⟩]⟩ : InternalTimeSeriesData).samples ∧
    (⟨0, 10, [⟨1, 1⟩, ⟨2, 8⟩, ⟨3, 7⟩]⟩ : InternalTimeSeriesData).samples.filter
        (fun s => s.offset == 3)
      = ((((⟨0, 10, [⟨1, 1⟩, ⟨3, 2⟩]⟩ : InternalTimeSeriesData).samples.filter
            (fun s => s.offset == 3))
          ++ ((⟨0, 10, [⟨3, 9⟩, ⟨2, 8⟩, ⟨3, 7⟩]⟩ : InternalTimeSeriesData).samples.filter
            (fun s => s.offset == 3))).getLast?).toList) :=
  have h := c7_timeseries_dedup.2 ⟨0, 10, [⟨1, 1⟩, ⟨3, 2⟩]⟩ ⟨0, 10, [⟨3, 9⟩, ⟨2, 8⟩, ⟨3, 7⟩]⟩
    ⟨0, 10, [⟨1, 1⟩, ⟨2, 8⟩, ⟨3, 7⟩]⟩ (by decide)
    (by simp [mergeTimeSeriesValues, mergeSampleLists, stableSortSamples, insertSample,
      List.takeWhile, List.dropWhile, List.getLastD])
  ⟨h.1, h.2 3⟩


/-! ## Split-key selection (db.cc:480-505, 2478-2535)

`kMeta2KeyMax` and the reverse-sorted no-split span lists come from
`keys.h`, which is not among the sources; they are parameters of the
model.  Store entries are (encoded key, value) pairs in iterator
order. -/

/-- The span loop of `IsValidSplitKey` (db.cc:492-503): the spans are
reverse sorted on the span end key, so a key at or above a span's end
exits early as valid; a key above the span's start is inside the span
and invalid. -/
def IsValidSplitKeySpanLoop (key : List Nat) : List (List Nat × List Nat) → Bool
  | [] => true
  | span :: rest =>
    if (compareBytes key span.2).isGE then true
    else if compareBytes key span.1 = .gt then false
    else IsValidSplitKeySpanLoop key rest

/-- `IsValidSplitKey` (db.cc:480-505): never split at `kMeta2KeyMax`,
nor inside a reserved no-split span. -/
def IsValidSplitKey (meta2KeyMax : List Nat) (no_split_spans : List (List Nat × List Nat))
    (key : List Nat) : Bool :=
  if key = meta2KeyMax then false
  else IsValidSplitKeySpanLoop key no_split_spans

/-- The scan loop of `MVCCFindSplitKey` (db.cc:2492-2529), carrying
`size_so_far`, `best_split_key` (initially the encoded start key),
`best_split_diff` (initially `int64` max), `prev_key` and the row
counter `n`. -/
def MVCCFindSplitKeyLoop (meta2KeyMax : List Nat) (spans : List (List Nat × List Nat))
    (end_key min_split_key : List Nat) (target_size : Int) :
    List (List Nat × List Nat) → Int → List Nat → Int → List Nat → Nat →
      Except String (List Nat)
  | [], _, best, _, _, _ => .ok best
  | (k, v) :: rest, size_so_far, best, best_diff, prev, n =>
    if dbCompare k end_key = .lt then
      match decodeKey k with
      | none => .error "unable to decode key"
      | some (decoded_key, wall_time, logical) =>
        let valid := 1 < n + 1 ∧ IsValidSplitKey meta2KeyMax spans decoded_key = true ∧
          (compareBytes decoded_key min_split_key).isGE = true
        let diff0 := target_size - size_so_far
        let diff := if diff0 < 0 then -diff0 else diff0
        let best' := if valid ∧ diff < best_diff then decoded_key else best
        let best_diff' := if valid ∧ diff < best_diff then diff else best_diff
        if best_diff' < diff ∧ best' ≠ [] then .ok best'
        else
          let is_value := wall_time ≠ 0 ∨ logical ≠ 0
          let size' :=
            if is_value ∧ decoded_key = prev then
              size_so_far + (kMVCCVersionTimestampSize : Int) + v.length
            else
              size_so_far + decoded_key.length + 1 + v.length +
                (if is_value then (kMVCCVersionTimestampSize : Int) else 0)
          MVCCFindSplitKeyLoop meta2KeyMax spans end_key min_split_key target_size
            rest size' best' best_diff' decoded_key (n + 1)
    else .ok best

/-- `MVCCFindSplitKey` (db.cc:2478-2535): seek to the encoded start
key, run the scan loop, and return no split key when the best
candidate is still the (encoded) start key sentinel. -/
def MVCCFindSplitKey (meta2KeyMax : List Nat) (spans : List (List Nat × List Nat))
    (entries : List (List Nat × List Nat)) (start_key end_key min_split_key : List Nat)
    (target_size : Int) : Except String (Option (List Nat)) :=
  match MVCCFindSplitKeyLoop meta2KeyMax spans end_key min_split_key target_size
      (entries.dropWhile (fun e => dbCompare e.1 start_key = .lt))
      0 start_key (2 ^ 63 - 1) [] 0 with
  | .error s => .error s
  | .ok best => .ok (if best = start_key then none else some best)


theorem IsValidSplitKey_ne_meta2KeyMax {meta2KeyMax : List Nat}
    {spans : List (List Nat × List Nat)} {key : List Nat}
    (h : IsValidSplitKey meta2KeyMax spans key = true) : key ≠ meta2KeyMax := by
  intro hk
  rw [IsValidSplitKey, if_pos hk] at h
  cases h

/-- The candidate invariant of the split-key scan loop: the best
candidate is either still the start-key sentinel, or it is the decoded
user key of some visited row other than the first one, passes
`IsValidSplitKey`, and is at least `min_split_key`. -/
theorem MVCCFindSplitKeyLoop_invariant (meta2KeyMax : List Nat)
    (spans : List (List Nat × List Nat)) (end_key min_split_key : List Nat)
    (target_size : Int) (visited : List (List Nat × List Nat)) (init : List Nat) :
    ∀ (rows : List (List Nat × List Nat)) (n : Nat) (size best : _) (bd : Int) (prev : List Nat),
      (n = 0 → rows = visited) → (1 ≤ n → rows.Sublist (visited.drop 1)) →
      (best = init ∨
        (IsValidSplitKey meta2KeyMax spans best = true ∧
          (compareBytes best min_split_key).isGE = true ∧
          ∃ e ∈ visited.drop 1, ∃ w l, decodeKey e.1 = some (best, w, l))) →
      ∀ result,
        MVCCFindSplitKeyLoop meta2KeyMax spans end_key min_split_key target_size
          rows size best bd prev n = .ok result →
        (result = init ∨
          (IsValidSplitKey meta2KeyMax spans result = true ∧
            (compareBytes result min_split_key).isGE = true ∧
            ∃ e ∈ visited.drop 1, ∃ w l, decodeKey e.1 = some (result, w, l))) := by
  intro rows
  induction rows with
  | nil =>
    intro n size best bd prev _ _ hinv result hres
    rw [MVCCFindSplitKeyLoop] at hres
    cases hres
    exact hinv
  | cons e rest ih =>
    intro n size best bd prev h0 h1 hinv result hres
    obtain ⟨k, v⟩ := e
    rw [MVCCFindSplitKeyLoop] at hres
    by_cases hcmp : dbCompare k end_key = .lt
    · rw [if_pos hcmp] at hres
      cases hdk : decodeKey k with
      | none => rw [hdk] at hres; cases hres
      | some dkl =>
        obtain ⟨decoded_key, wall_time, logical⟩ := dkl
        rw [hdk] at hres
        simp only [] at hres
        -- The new candidate invariant:
        have hrest1 : rest.Sublist (visited.drop 1) := by
          by_cases hn : n = 0
          · subst hn
            rw [← h0 rfl]
            show rest.Sublist (((k, v) :: rest).drop 1)
            simp
          · exact (List.sublist_cons_self (k, v) rest).trans (h1 (by omega))
        have hmem : 1 ≤ n → (k, v) ∈ visited.drop 1 := fun hn =>
          (h1 hn).subset (List.mem_cons_self (k, v) rest)
        set valid : Prop := (1 < n + 1 ∧ IsValidSplitKey meta2KeyMax spans decoded_key = true ∧
          (compareBytes decoded_key min_split_key).isGE = true) with hvalid
        set diff : Int := (if target_size - size < 0 then -(target_size - size)
          else target_size - size) with hdiff
        have hinv' : (if valid ∧ diff < bd then decoded_key else best) = init ∨
            (IsValidSplitKey meta2KeyMax spans
                (if valid ∧ diff < bd then decoded_key else best) = true ∧
              (compareBytes (if valid ∧ diff < bd then decoded_key else best)
                min_split_key).isGE = true ∧
              ∃ e ∈ visited.drop 1, ∃ w l, decodeKey e.1
                = some (if valid ∧ diff < bd then decoded_key else best, w, l)) := by
          by_cases hass : valid ∧ diff < bd
          · rw [if_pos hass]
            right
            obtain ⟨⟨hn1, hvk, hge⟩, -⟩ := hass
            exact ⟨hvk, hge, (k, v), hmem (by omega), wall_time, logical, hdk⟩
          · rw [if_neg hass]
            exact hinv
        by_cases hbrk : (if valid ∧ diff < bd then diff else bd) < diff ∧
            (if valid ∧ diff < bd then decoded_key else best) ≠ []
        · rw [if_pos hbrk] at hres
          cases hres
          exact hinv'
        · rw [if_neg hbrk] at hres
          exact ih (n + 1) _ _ _ _ (by omega) (fun _ => hrest1) hinv' result hres
    · rw [if_neg hcmp] at hres
      cases hres
      exact hinv

/-- The claim C8 states that `MVCCFindSplitKey` never returns the very
first key of the scanned range.  It can: when the first user key of
the range has more than one version, the second row already carries
that same user key, the `n > 1` guard passes, and the first user key
becomes (and may remain) the best candidate.  Concretely, with rows
`a@5, a@3` (values of 1 byte), `min_split = a` and `target_size = 1`,
the function returns `a` — the first key of the range. -/
theorem c8_split_key_counterexample :
    MVCCFindSplitKey [255] [] [(encodeKey [97] 5 0, [120]), (encodeKey [97] 3 0, [120])]
      (encodeKey [97] 0 0) (encodeKey [98] 0 0) [97] 1 = .ok (some [97]) ∧
    decodeKey (encodeKey [97] 5 0, ([120] : List Nat)).1 = some ([97], 5, 0) := by
  constructor
  · rfl
  · rfl

/-- **C8 (amended).**  Split-key constraints: every split key returned
by `MVCCFindSplitKey` passes `IsValidSplitKey` (in particular it is
never `kMeta2KeyMax` nor inside a reserved no-split span), is at least
`min_split`, and is the decoded user key of some visited row *other
than the first row* (it may still equal the first row's *user key*
when that key spans several rows, refuting the original "never the
very first key" — see `c8_split_key_counterexample`); and when no
visited row yields a valid candidate, no split key is returned. -/
theorem c8_split_key_constraints_amended (meta2KeyMax : List Nat)
    (spans : List (List Nat × List Nat)) (entries : List (List Nat × List Nat))
    (start_key end_key min_split_key : List Nat) (target_size : Int) :
    (∀ k, MVCCFindSplitKey meta2KeyMax spans entries start_key end_key min_split_key
        target_size = .ok (some k) →
      IsValidSplitKey meta2KeyMax spans k = true ∧
      k ≠ meta2KeyMax ∧
      (compareBytes k min_split_key).isGE = true ∧
      ∃ e ∈ (entries.dropWhile (fun e => dbCompare e.1 start_key = .lt)).drop 1,
        ∃ w l, decodeKey e.1 = some (k, w, l)) ∧
    ((∀ e ∈ entries.dropWhile (fun e => dbCompare e.1 start_key = .lt),
        ∀ d w l, decodeKey e.1 = some (d, w, l) →
          ¬(IsValidSplitKey meta2KeyMax spans d = true ∧
            (compareBytes d min_split_key).isGE = true)) →
      MVCCFindSplitKey meta2KeyMax spans entries start_key end_key min_split_key
          target_size = .ok none ∨
        ∃ s, MVCCFindSplitKey meta2KeyMax spans entries start_key end_key min_split_key
          target_size = .error s) := by
  constructor
  · intro k hk
    cases hloop : MVCCFindSplitKeyLoop meta2KeyMax spans end_key min_split_key target_size
        (entries.dropWhile (fun e => dbCompare e.1 start_key = .lt))
        0 start_key (2 ^ 63 - 1) [] 0 with
    | error s =>
      have hfact : MVCCFindSplitKey meta2KeyMax spans entries start_key end_key min_split_key
          target_size = .error s := by
        unfold MVCCFindSplitKey
        rw [hloop]
      rw [hfact] at hk
      cases hk
    | ok best =>
      have hfact : MVCCFindSplitKey meta2KeyMax spans entries start_key end_key min_split_key
          target_size = .ok (if best = start_key then none else some best) := by
        unfold MVCCFindSplitKey
        rw [hloop]
      rw [hfact] at hk
      by_cases hbs : best = start_key
      · rw [if_pos hbs] at hk; simp at hk
      · rw [if_neg hbs] at hk
        simp only [Except.ok.injEq, Option.some.injEq] at hk
        subst hk
        have := MVCCFindSplitKeyLoop_invariant meta2KeyMax spans end_key min_split_key
          target_size (entries.dropWhile (fun e => dbCompare e.1 start_key = .lt)) start_key
          (entries.dropWhile (fun e => dbCompare e.1 start_key = .lt)) 0 0 start_key
          (2 ^ 63 - 1) [] (fun _ => rfl) (fun h => by omega) (Or.inl rfl) best hloop
        rcases this with h | ⟨hvk, hge, hprov⟩
        · exact absurd h hbs
        · exact ⟨hvk, IsValidSplitKey_ne_meta2KeyMax hvk, hge, hprov⟩
  · intro hnone
    cases hloop : MVCCFindSplitKeyLoop meta2KeyMax spans end_key min_split_key target_size
        (entries.dropWhile (fun e => dbCompare e.1 start_key = .lt))
        0 start_key (2 ^ 63 - 1) [] 0 with
    | error s =>
      refine Or.inr ⟨s, ?_⟩
      unfold MVCCFindSplitKey
      rw [hloop]
    | ok best =>
      have hfact : MVCCFindSplitKey meta2KeyMax spans entries start_key end_key min_split_key
          target_size = .ok (if best = start_key then none else some best) := by
        unfold MVCCFindSplitKey
        rw [hloop]
      have := MVCCFindSplitKeyLoop_invariant meta2KeyMax spans end_key min_split_key
        target_size (entries.dropWhile (fun e => dbCompare e.1 start_key = .lt)) start_key
        (entries.dropWhile (fun e => dbCompare e.1 start_key = .lt)) 0 0 start_key
        (2 ^ 63 - 1) [] (fun _ => rfl) (fun h => by omega) (Or.inl rfl) best hloop
      rcases this with h | ⟨hvk, hge, e, he, w, l, hde⟩
      · subst h
        refine Or.inl ?_
        rw [hfact, if_pos rfl]
      · exfalso
        exact hnone e ((List.drop_sublist 1 _).subset he) _ w l hde ⟨hvk, hge⟩

/-- Witness for `c8_split_key_constraints_amended` at concrete inputs. -/
theorem c8_split_key_constraints_amended_witness :
    (IsValidSplitKey [255] [] [97] = true ∧
      ([97] : List Nat) ≠ [255] ∧
      (compareBytes [97] [97]).isGE = true ∧
      ∃ e ∈ (([(encodeKey [97] 5 0, [120]), (encodeKey [97] 3 0, [120])] :
            List (List Nat × List Nat)).dropWhile
          (fun e => dbCompare e.1 (encodeKey [97] 0 0) = .lt)).drop 1,
        ∃ w l, decodeKey e.1 = some ([97], w, l)) ∧
    (MVCCFindSplitKey [255] [] [] (encodeKey [97] 0 0) (encodeKey [98] 0 0) [97] 1
        = .ok none ∨
      ∃ s, MVCCFindSplitKey [255] [] [] (encodeKey [97] 0 0) (encodeKey [98] 0 0) [97] 1
        = .error s) :=
  ⟨(c8_split_key_constraints_amended [255] []
      [(encodeKey [97] 5 0, [120]), (encodeKey [97] 3 0, [120])]
      (encodeKey [97] 0 0) (encodeKey [98] 0 0) [97] 1).1 [97] (by rfl),
   (c8_split_key_constraints_amended [255] [] [] (encodeKey [97] 0 0) (encodeKey [98] 0 0)
      [97] 1).2 (by intro e he; simp at he)⟩


/-! ## The MVCC scanner (`mvccScanner`, db.cc:2560-3154)

The iterator is modelled as an index into the sorted entry list
`entries` (encoded key, value); `pos = none` is an invalid iterator.
`peeked` mirrors `peeked_`: the underlying iterator sits one entry
before the scanner's notion of current (reverse scans only).
`MVCCMetadata` values are parsed by a parameter `pm` since the
protobuf wire format is external to this file. -/

/-- `MVCCMetadata`, restricted to the fields the scanner reads. -/
structure MVCCMetadataM where
  raw_bytes : Option (List Nat)
  txn : Option (List Nat × Nat)
  timestamp : DBTimestampM
  deriving DecidableEq, Repr

/-- `DBTxn`: the transaction descriptor passed to a scan. -/
structure DBTxnM where
  id : List Nat
  epoch : Nat
  max_timestamp : DBTimestampM
  deriving DecidableEq, Repr

/-- The immutable configuration of an `mvccScanner` (the `const`
members set by the constructor, db.cc:2562-2584). -/
structure ScanConfig where
  entries : List (List Nat × List Nat)
  reverse : Bool
  start_key : List Nat
  end_key : List Nat
  max_keys : Int
  timestamp : DBTimestampM
  txn_id : List Nat
  txn_epoch : Nat
  txn_max_timestamp : DBTimestampM
  consistent : Bool
  check_uncertainty : Bool
  deriving Repr

/-- The mutable state of an `mvccScanner`: result accumulators
(`kvs_`, `intents_`, `results_`), the iterator position, the peek
flag, the current entry (`cur_raw_key_`, `cur_key_`, `cur_value_`,
`cur_timestamp_`) and the adaptive `iters_before_seek_`. -/
structure ScanState where
  kvs : List (List Nat × List Nat)
  intents : List (List Nat × List Nat)
  status : Option String
  uncertainty : Option DBTimestampM
  pos : Option Nat
  peeked : Bool
  cur_raw_key : List Nat
  cur_key : List Nat
  cur_value : List Nat
  cur_timestamp : DBTimestampM
  iters_before_seek : Nat
  deriving DecidableEq, Repr

/-- `kMaxItersBeforeSeek` (db.cc:2546). -/
def kMaxItersBeforeSeek : Nat := 10

/-- `setStatus` (db.cc:2678-2681); the Boolean `false` is returned at
each call site. -/
def setStatusS (s : ScanState) (msg : String) : ScanState := { s with status := some msg }

/-- `uncertaintyError` (db.cc:2671-2676): record the uncertainty
timestamp and clear both result batches. -/
def uncertaintyErrorS (s : ScanState) (ts : DBTimestampM) : ScanState :=
  { s with uncertainty := some ts, kvs := [], intents := [] }

/-- `Seek`: the first entry at or after the target in comparator
order (`none` past the end). -/
def seekIdx (entries : List (List Nat × List Nat)) (target : List Nat) : Option Nat :=
  let i := entries.findIdx (fun e => ¬(dbCompare e.1 target = .lt))
  if i < entries.length then some i else none

/-- `SeekForPrev` as relied upon by `iterSeekReverse` (db.cc:3002-3005:
it "positions the iterator at the key that is less than key"): the
last entry strictly before the target. -/
def seekForPrevIdx (entries : List (List Nat × List Nat)) (target : List Nat) : Option Nat :=
  let i := entries.findIdx (fun e => ¬(dbCompare e.1 target = .lt))
  if i = 0 then none else some (i - 1)

/-- `Next` on the underlying iterator. -/
def nextIdx (p : Option Nat) (len : Nat) : Option Nat :=
  p.bind fun i => if i + 1 < len then some (i + 1) else none

/-- `Prev` on the underlying iterator. -/
def prevIdx (p : Option Nat) : Option Nat :=
  p.bind fun i => if i = 0 then none else some (i - 1)

/-- `updateCurrent` (db.cc:2976-2987): load the entry under the
iterator into the `cur_*` fields and decode the MVCC key. -/
def updateCurrent (cfg : ScanConfig) (s : ScanState) : Bool × ScanState :=
  match s.pos with
  | none => (false, s)
  | some i =>
    match cfg.entries.get? i with
    | none => (false, s)
    | some (rk, v) =>
      match decodeKeyTS rk with
      | none => (false, setStatusS s "failed to split mvcc key")
      | some (k, ts) =>
        (true, { s with cur_raw_key := rk, cur_value := v, cur_key := k, cur_timestamp := ts })

/-- `clearPeeked` (db.cc:3086-3090). -/
def clearPeekedS (cfg : ScanConfig) (s : ScanState) : ScanState :=
  if cfg.reverse then { s with peeked := false } else s

/-- `iterSeek` (db.cc:2991-2995). -/
def iterSeek (cfg : ScanConfig) (s : ScanState) (key : List Nat) : Bool × ScanState :=
  let s := clearPeekedS cfg s
  updateCurrent cfg { s with pos := seekIdx cfg.entries key }

/-- `iterNext` (db.cc:3019-3031): with an active peek the underlying
iterator sits one entry back and must advance twice. -/
def iterNext (cfg : ScanConfig) (s : ScanState) : Bool × ScanState :=
  if cfg.reverse ∧ s.peeked then
    let s := { s with peeked := false }
    match s.pos with
    | none => updateCurrent cfg s
    | some p =>
      if p + 1 < cfg.entries.length then
        updateCurrent cfg { s with pos := nextIdx (some (p + 1)) cfg.entries.length }
      else
        (false, { s with pos := none })
  else
    updateCurrent cfg { s with pos := nextIdx s.pos cfg.entries.length }

/-- `iterPrev` (db.cc:3033-3040): with an active peek the underlying
iterator is already one entry back. -/
def iterPrev (cfg : ScanConfig) (s : ScanState) : Bool × ScanState :=
  if s.peeked then
    updateCurrent cfg { s with peeked := false }
  else
    updateCurrent cfg { s with pos := prevIdx s.pos }

/-- `iterPeekPrev` (db.cc:3044-3082): expose the user key of the entry
before the current one without moving the scanner's current entry.
Returns (success, peeked user key, state). -/
def iterPeekPrev (cfg : ScanConfig) (s : ScanState) : Bool × List Nat × ScanState :=
  if ¬s.peeked then
    match splitKey s.cur_raw_key with
    | none => (false, [], setStatusS s "failed to split mvcc key")
    | some (k, _) =>
      let s := { s with peeked := true, cur_key := k }
      match prevIdx s.pos with
      | none =>
        let s := { s with peeked := false, pos := if 0 < cfg.entries.length then some 0 else none }
        let (ok, s) := updateCurrent cfg s
        (ok, [], s)
      | some i =>
        let s := { s with pos := some i }
        match cfg.entries.get? i with
        | none => (false, [], s)
        | some (rk, _) =>
          match splitKey rk with
          | none => (false, [], setStatusS s "failed to split mvcc key")
          | some (pk, _) => (true, pk, s)
  else
    match s.pos with
    | none => (false, [], s)
    | some i =>
      match cfg.entries.get? i with
      | none => (false, [], s)
      | some (rk, _) =>
        match splitKey rk with
        | none => (false, [], setStatusS s "failed to split mvcc key")
        | some (pk, _) => (true, pk, s)

/-- The loop of `backwardLatestVersion` (db.cc:2821-2843), with the
remaining iteration count `ibs - i` made explicit; on exhaustion, seek
to `key ++ 0x00` (the meta key of `key`). -/
def backwardLatestVersionLoop (cfg : ScanConfig) (key_buf : List Nat) :
    Nat → ScanState → Bool × ScanState
  | 0, s =>
    let s := { s with iters_before_seek := max 1 (s.iters_before_seek - 1) }
    iterSeek cfg s (key_buf ++ [0])
  | rem + 1, s =>
    match iterPeekPrev cfg s with
    | (false, _, s) => (false, s)
    | (true, pk, s) =>
      if pk ≠ key_buf then
        (true, { s with iters_before_seek := max kMaxItersBeforeSeek (s.iters_before_seek + 1) })
      else
        match iterPrev cfg s with
        | (false, s) => (false, s)
        | (true, s) => backwardLatestVersionLoop cfg key_buf rem s

/-- `backwardLatestVersion` (db.cc:2817-2843). -/
def backwardLatestVersion (cfg : ScanConfig) (s : ScanState) (key : List Nat) (i : Nat) :
    Bool × ScanState :=
  backwardLatestVersionLoop cfg key (s.iters_before_seek - i) s

/-- `iterSeekReverse` (db.cc:2997-3017). -/
def iterSeekReverse (cfg : ScanConfig) (s : ScanState) (key : List Nat) : Bool × ScanState :=
  let s := clearPeekedS cfg s
  match updateCurrent cfg { s with pos := seekForPrevIdx cfg.entries key } with
  | (false, s) => (false, s)
  | (true, s) =>
    if s.cur_timestamp = kZeroTimestamp then (true, s)
    else backwardLatestVersion cfg s s.cur_key 0

/-- The loop of `nextKey` (db.cc:2798-2814); on exhaustion, seek to
`key ++ 0x00 0x00` (just past every version of `key`). -/
def nextKeyLoop (cfg : ScanConfig) (key_buf : List Nat) :
    Nat → ScanState → Bool × ScanState
  | 0, s =>
    let s := { s with iters_before_seek := max 1 (s.iters_before_seek - 1) }
    iterSeek cfg s (key_buf ++ [0, 0])
  | rem + 1, s =>
    match iterNext cfg s with
    | (false, s) => (false, s)
    | (true, s) =>
      if s.cur_key ≠ key_buf then
        (true, { s with iters_before_seek := max kMaxItersBeforeSeek (s.iters_before_seek + 1) })
      else nextKeyLoop cfg key_buf rem s

/-- `nextKey` (db.cc:2786-2815): the early exit fires when the end key
is exactly the meta key of the current user key. -/
def nextKey (cfg : ScanConfig) (s : ScanState) : Bool × ScanState :=
  if cfg.end_key = s.cur_key ++ [0] then (false, s)
  else nextKeyLoop cfg s.cur_key s.iters_before_seek s

/-- The raw key under the underlying iterator (used by `prevKey`'s
early exit, which compares `iter_rep_->key()` bytewise). -/
def repKey (cfg : ScanConfig) (s : ScanState) : Option (List Nat) :=
  s.pos.bind fun i => (cfg.entries.get? i).map (·.1)

/-- The loop of `prevKey` (db.cc:2857-2868); a changed peeked key
continues in `backwardLatestVersion` with the remaining budget; on
exhaustion, reverse-seek to the meta key of `key`. -/
def prevKeyLoop (cfg : ScanConfig) (key_buf : List Nat) :
    Nat → ScanState → Bool × ScanState
  | 0, s =>
    let s := { s with iters_before_seek := max 1 (s.iters_before_seek - 1) }
    iterSeekReverse cfg s (key_buf ++ [0])
  | rem + 1, s =>
    match iterPeekPrev cfg s with
    | (false, _, s) => (false, s)
    | (true, pk, s) =>
      if pk ≠ key_buf then backwardLatestVersionLoop cfg pk rem s
      else
        match iterPrev cfg s with
        | (false, s) => (false, s)
        | (true, s) => prevKeyLoop cfg key_buf rem s

/-- The early exit of `prevKey` (db.cc:2850-2856): an active peek
whose raw key is bytewise below the scan's lower bound. -/
def prevKeyStop (cfg : ScanConfig) (s : ScanState) : Bool :=
  s.peeked && (match repKey cfg s with
    | some rk => decide (compareBytes rk cfg.end_key = Ordering.lt)
    | none => false)

/-- `prevKey` (db.cc:2848-2873). -/
def prevKey (cfg : ScanConfig) (s : ScanState) (key : List Nat) : Bool × ScanState :=
  if prevKeyStop cfg s then (false, s)
  else prevKeyLoop cfg key s.iters_before_seek s

/-- `advanceKey` (db.cc:2878-2884). -/
def advanceKey (cfg : ScanConfig) (s : ScanState) : Bool × ScanState :=
  if cfg.reverse then prevKey cfg s s.cur_key else nextKey cfg s

/-- `advanceKeyAtEnd` (db.cc:2886-2902). -/
def advanceKeyAtEnd (cfg : ScanConfig) (s : ScanState) : Bool × ScanState :=
  if cfg.reverse then
    let s := clearPeekedS cfg s
    let s := { s with pos := if cfg.entries.length = 0 then none else some (cfg.entries.length - 1) }
    match updateCurrent cfg s with
    | (false, s) => (false, s)
    | (true, s) => advanceKey cfg s
  else (false, s)

/-- `advanceKeyAtNewKey` (db.cc:2904-2913). -/
def advanceKeyAtNewKey (cfg : ScanConfig) (s : ScanState) (key : List Nat) :
    Bool × ScanState :=
  if cfg.reverse then prevKey cfg s key else (true, s)

/-- `addAndAdvance` (db.cc:2915-2923): only non-empty values are
emitted; stop once the row count exceeds `max_keys`. -/
def addAndAdvance (cfg : ScanConfig) (s : ScanState) (value : List Nat) : Bool × ScanState :=
  if 0 < value.length then
    let s := { s with kvs := s.kvs ++ [(s.cur_raw_key, value)] }
    if (s.kvs.length : Int) > cfg.max_keys then (false, s)
    else advanceKey cfg s
  else advanceKey cfg s

/-- The loop of `seekVersion` (db.cc:2943-2958) followed by its seek
fall-back (db.cc:2960-2973). -/
def seekVersionLoop (cfg : ScanConfig) (key_buf : List Nat) (desired : DBTimestampM)
    (check_uncertainty : Bool) : Nat → ScanState → Bool × ScanState
  | 0, s =>
    let s := { s with iters_before_seek := max 1 (s.iters_before_seek - 1) }
    match iterSeek cfg s (encodeKeyTS key_buf desired) with
    | (false, s) => advanceKeyAtEnd cfg s
    | (true, s) =>
      if s.cur_key ≠ key_buf then advanceKeyAtNewKey cfg s key_buf
      else if tsLE s.cur_timestamp desired then
        if check_uncertainty ∧ tsLT cfg.timestamp s.cur_timestamp then
          (false, uncertaintyErrorS s s.cur_timestamp)
        else addAndAdvance cfg s s.cur_value
      else advanceKey cfg s
  | rem + 1, s =>
    match iterNext cfg s with
    | (false, s) => advanceKeyAtEnd cfg s
    | (true, s) =>
      if s.cur_key ≠ key_buf then
        let s := { s with iters_before_seek := min kMaxItersBeforeSeek (s.iters_before_seek + 1) }
        advanceKeyAtNewKey cfg s key_buf
      else if tsLE s.cur_timestamp desired then
        let s := { s with iters_before_seek := min kMaxItersBeforeSeek (s.iters_before_seek + 1) }
        if check_uncertainty ∧ tsLT cfg.timestamp s.cur_timestamp then
          (false, uncertaintyErrorS s s.cur_timestamp)
        else addAndAdvance cfg s s.cur_value
      else seekVersionLoop cfg key_buf desired check_uncertainty rem s

/-- `seekVersion` (db.cc:2940-2974). -/
def seekVersion (cfg : ScanConfig) (s : ScanState) (desired : DBTimestampM)
    (check_uncertainty : Bool) : Bool × ScanState :=
  seekVersionLoop cfg s.cur_key desired check_uncertainty s.iters_before_seek s

/-- `getAndAdvance` (db.cc:2683-2781): the ten-case scanner step. -/
def getAndAdvance (pm : List Nat → Option MVCCMetadataM) (cfg : ScanConfig)
    (s : ScanState) : Bool × ScanState :=
  if s.cur_timestamp ≠ kZeroTimestamp then
    if tsLE s.cur_timestamp cfg.timestamp then
      addAndAdvance cfg s s.cur_value
    else if cfg.check_uncertainty then
      if tsLE s.cur_timestamp cfg.txn_max_timestamp then
        (false, uncertaintyErrorS s s.cur_timestamp)
      else seekVersion cfg s cfg.txn_max_timestamp true
    else seekVersion cfg s cfg.timestamp false
  else
    match pm s.cur_value with
    | none => (false, setStatusS s "unable to decode MVCCMetadata")
    | some meta =>
      match meta.raw_bytes with
      | some rb => addAndAdvance cfg s rb
      | none =>
        match meta.txn with
        | none => (false, setStatusS s "intent without transaction")
        | some (mid, mepoch) =>
          if tsLT cfg.timestamp meta.timestamp ∧ ¬(mid = cfg.txn_id) then
            seekVersion cfg s cfg.timestamp false
          else if ¬cfg.consistent then
            let s := { s with intents := s.intents ++ [(s.cur_raw_key, s.cur_value)] }
            seekVersion cfg s (prevTimestamp meta.timestamp) false
          else if ¬(mid = cfg.txn_id) then
            let s := { s with intents := s.intents ++ [(s.cur_raw_key, s.cur_value)] }
            advanceKey cfg s
          else if cfg.txn_epoch = mepoch then
            seekVersion cfg s meta.timestamp false
          else if cfg.txn_epoch < mepoch then
            (false, setStatusS s "failed to read due to a write intent with a newer epoch")
          else
            seekVersion cfg s (prevTimestamp meta.timestamp) false

/-- The scan driver loop (db.cc:2637-2651): keep calling
`getAndAdvance` while the current user key is inside the scan bounds.
`fuel` is a modelling artifact bounding the iteration count; every
theorem below holds for every fuel value or supplies enough fuel. -/
def scanCond (cfg : ScanConfig) (s : ScanState) : Bool :=
  if cfg.reverse then (compareBytes s.cur_key cfg.end_key).isGE
  else decide (compareBytes s.cur_key cfg.end_key = .lt)

def scanLoop (pm : List Nat → Option MVCCMetadataM) (cfg : ScanConfig) :
    Nat → ScanState → ScanState
  | 0, s => s
  | fuel + 1, s =>
    if scanCond cfg s then
      match getAndAdvance pm cfg s with
      | (false, s) => s
      | (true, s) => scanLoop pm cfg fuel s
    else s

/-- `fillResults` (db.cc:2657-2669) packaged with the status and the
uncertainty timestamp: result rows are only handed out on a clean
status. -/
structure DBScanResults where
  status : Option String
  uncertainty : Option DBTimestampM
  kvs : List (List Nat × List Nat)
  intents : List (List Nat × List Nat)
  deriving DecidableEq, Repr

def scanResults (s : ScanState) : DBScanResults :=
  { status := s.status,
    uncertainty := s.uncertainty,
    kvs := if s.status = none then s.kvs else [],
    intents := if s.status = none then s.intents else [] }

/-- The scanner constructor (db.cc:2562-2584). -/
def scannerInit (entries : List (List Nat × List Nat)) (rv : Bool)
    (start_key end_key : List Nat) (max_keys : Int) (ts : DBTimestampM) (txn : DBTxnM)
    (consistent : Bool) : ScanConfig × ScanState :=
  ({ entries := entries, reverse := rv, start_key := start_key, end_key := end_key,
     max_keys := max_keys, timestamp := ts, txn_id := txn.id, txn_epoch := txn.epoch,
     txn_max_timestamp := txn.max_timestamp, consistent := consistent,
     check_uncertainty := tsLT ts txn.max_timestamp },
   { kvs := [], intents := [], status := none, uncertainty := none, pos := none,
     peeked := false, cur_raw_key := [], cur_key := [], cur_value := [],
     cur_timestamp := kZeroTimestamp, iters_before_seek := kMaxItersBeforeSeek / 2 })

/-- `MVCCGet` (db.cc:3130-3143) through `mvccScanner::get`
(db.cc:2614-2622): a forward scan with `max_keys = 0` and an empty end
key, emitting only a key equal to the start key. -/
def mvccGet (pm : List Nat → Option MVCCMetadataM) (entries : List (List Nat × List Nat))
    (key : List Nat) (ts : DBTimestampM) (txn : DBTxnM) (consistent : Bool) :
    DBScanResults :=
  let (cfg, s) := scannerInit entries false key [] 0 ts txn consistent
  match iterSeek cfg s (encodeKey cfg.start_key 0 0) with
  | (false, s) => scanResults s
  | (true, s) =>
    if s.cur_key = cfg.start_key then
      scanResults (getAndAdvance pm cfg s).2
    else scanResults s

/-- `MVCCScan` (db.cc:3145-3154) through `mvccScanner::scan`
(db.cc:2624-2654).  For a reverse scan the constructor receives the
caller's `end` as its start key (exclusive upper bound) and the
caller's `start` as its end key (inclusive lower bound). -/
def mvccScan (pm : List Nat → Option MVCCMetadataM) (entries : List (List Nat × List Nat))
    (start_key end_key : List Nat) (ts : DBTimestampM) (max_keys : Int) (txn : DBTxnM)
    (consistent : Bool) (rv : Bool) (fuel : Nat) : DBScanResults :=
  if rv then
    let (cfg, s) := scannerInit entries true end_key start_key max_keys ts txn consistent
    match iterSeekReverse cfg s (encodeKey cfg.start_key 0 0) with
    | (false, s) => scanResults s
    | (true, s) => scanResults (scanLoop pm cfg fuel s)
  else
    let (cfg, s) := scannerInit entries false start_key end_key max_keys ts txn consistent
    match iterSeek cfg s (encodeKey cfg.start_key 0 0) with
    | (false, s) => scanResults s
    | (true, s) => scanResults (scanLoop pm cfg fuel s)

end Libroach

namespace Libroach

/-! ## Timestamp order and comparator facts used by the scanner proofs -/

/-- The encodable timestamp range: non-negative int64 wall time and
non-negative int32 logical count. -/
@[reducible]
def tsValid (ts : DBTimestampM) : Prop :=
  0 ≤ ts.wall_time ∧ ts.wall_time < 2 ^ 63 ∧ 0 ≤ ts.logical ∧ ts.logical < 2 ^ 31

theorem tsLT_iff (a b : DBTimestampM) :
    tsLT a b = true ↔
      (a.wall_time < b.wall_time ∨ (a.wall_time = b.wall_time ∧ a.logical < b.logical)) := by
  simp [tsLT]

theorem tsLE_iff (a b : DBTimestampM) :
    tsLE a b = true ↔
      ¬(b.wall_time < a.wall_time ∨ (b.wall_time = a.wall_time ∧ b.logical < a.logical)) := by
  simp only [tsLE, tsLT, Bool.not_eq_true', decide_eq_false_iff_not, decide_eq_true_eq]

theorem ne_kZero_iff (t : DBTimestampM) :
    t ≠ kZeroTimestamp ↔ ¬(t.wall_time = 0 ∧ t.logical = 0) := by
  obtain ⟨w, l⟩ := t
  simp [kZeroTimestamp]

theorem decodeKeyTS_encodeKeyTS (k : List Nat) (ts : DBTimestampM) (h : tsValid ts) :
    decodeKeyTS (encodeKeyTS k ts) = some (k, ts) := by
  obtain ⟨h1, h2, h3, h4⟩ := h
  unfold decodeKeyTS encodeKeyTS
  rw [decodeKey_encodeKey k ts.wall_time ts.logical h1 h2 h3 h4]
  rfl

theorem tsSuffix_ne_nil_of (ts : DBTimestampM) (h : ts ≠ kZeroTimestamp) :
    tsSuffix ts.wall_time ts.logical ≠ [] := by
  intro hc
  rw [tsSuffix_eq_nil_iff] at hc
  exact (ne_kZero_iff ts).mp h hc

/-- On two versioned keys of the same user key the comparator orders
by descending timestamp. -/
theorem dbCompare_encTS_lt_iff (k : List Nat) (a b : DBTimestampM)
    (ha : tsValid a) (hb : tsValid b)
    (hza : a ≠ kZeroTimestamp) (hzb : b ≠ kZeroTimestamp) :
    (dbCompare (encodeKeyTS k a) (encodeKeyTS k b) = .lt) ↔ tsLT b a = true := by
  unfold encodeKeyTS
  rw [dbCompare_encodeKey_same_key,
    if_neg (tsSuffix_ne_nil_of a hza), if_neg (tsSuffix_ne_nil_of b hzb)]
  obtain ⟨ha1, ha2, ha3, ha4⟩ := ha
  obtain ⟨hb1, hb2, hb3, hb4⟩ := hb
  rw [compareBytes_tsSuffix_lt_iff b.wall_time b.logical a.wall_time a.logical
    hb1 hb2 hb3 hb4 ha1 ha2 ha3 ha4 ((ne_kZero_iff b).mp hzb) ((ne_kZero_iff a).mp hza),
    tsLT_iff]

/-- A versioned key sorts after the meta key of the same user key. -/
theorem dbCompare_encTS_meta_gt (k : List Nat) (a : DBTimestampM)
    (hza : a ≠ kZeroTimestamp) :
    dbCompare (encodeKeyTS k a) (encodeKey k 0 0) = .gt := by
  have h0 : tsSuffix (0 : Int) (0 : Int) = [] := by simp [tsSuffix]
  unfold encodeKeyTS
  rw [dbCompare_encodeKey_same_key, if_neg (tsSuffix_ne_nil_of a hza), h0]
  simp

theorem dbCompare_meta_self (k : List Nat) :
    dbCompare (encodeKey k 0 0) (encodeKey k 0 0) = .eq := by
  simp [dbCompare_encodeKey_same_key, tsSuffix]

theorem tsLE_prevTimestamp_iff (x t : DBTimestampM) (hx : tsValid x) (ht : tsValid t)
    (hzt : t ≠ kZeroTimestamp) :
    (tsLE x (prevTimestamp t) = true) ↔ (tsLT x t = true) := by
  rw [ne_kZero_iff t] at hzt
  obtain ⟨xw, xl⟩ := x
  obtain ⟨tw, tl⟩ := t
  simp only [tsValid] at hx ht
  simp only [prevTimestamp, tsLE, tsLT]
  split_ifs <;> simp_all <;> omega

end Libroach

namespace Libroach

/-! ## Result preservation through the scanner's movement functions

None of the iterator-movement functions touches the accumulated rows:
only `addAndAdvance` appends to `kvs` and only `uncertaintyError`
clears it. -/

theorem updateCurrent_kvs (cfg : ScanConfig) (s : ScanState) :
    ((updateCurrent cfg s).2).kvs = s.kvs := by
  unfold updateCurrent
  repeat' split
  all_goals rfl

theorem clearPeekedS_kvs (cfg : ScanConfig) (s : ScanState) :
    (clearPeekedS cfg s).kvs = s.kvs := by
  unfold clearPeekedS
  split <;> rfl

theorem iterSeek_kvs (cfg : ScanConfig) (s : ScanState) (key : List Nat) :
    ((iterSeek cfg s key).2).kvs = s.kvs := by
  unfold iterSeek
  rw [updateCurrent_kvs]
  exact clearPeekedS_kvs cfg s

theorem iterNext_kvs (cfg : ScanConfig) (s : ScanState) :
    ((iterNext cfg s).2).kvs = s.kvs := by
  unfold iterNext
  repeat' first
  | rfl
  | rw [updateCurrent_kvs]
  | split
  | dsimp only

theorem iterPrev_kvs (cfg : ScanConfig) (s : ScanState) :
    ((iterPrev cfg s).2).kvs = s.kvs := by
  unfold iterPrev
  split <;> rw [updateCurrent_kvs]

theorem iterPeekPrev_kvs (cfg : ScanConfig) (s : ScanState) :
    ((iterPeekPrev cfg s).2.2).kvs = s.kvs := by
  unfold iterPeekPrev
  repeat' first
  | rfl
  | rw [updateCurrent_kvs]
  | split
  | dsimp only

theorem backwardLatestVersionLoop_kvs (cfg : ScanConfig) (key_buf : List Nat)
    (rem : Nat) (s : ScanState) :
    ((backwardLatestVersionLoop cfg key_buf rem s).2).kvs = s.kvs := by
  induction rem generalizing s with
  | zero => simp only [backwardLatestVersionLoop]; rw [iterSeek_kvs]
  | succ rem ih =>
    simp only [backwardLatestVersionLoop]
    have hp := iterPeekPrev_kvs cfg s
    split
    · next heq => rw [heq] at hp; exact hp
    · next pk s' heq =>
      rw [heq] at hp
      split
      · exact hp
      · have hv := iterPrev_kvs cfg s'
        split
        · next heq2 => rw [heq2] at hv; rw [hv]; exact hp
        · next heq2 => rw [heq2] at hv; rw [ih]; rw [hv]; exact hp

theorem backwardLatestVersion_kvs (cfg : ScanConfig) (s : ScanState) (key : List Nat)
    (i : Nat) : ((backwardLatestVersion cfg s key i).2).kvs = s.kvs :=
  backwardLatestVersionLoop_kvs cfg key _ s

theorem iterSeekReverse_kvs (cfg : ScanConfig) (s : ScanState) (key : List Nat) :
    ((iterSeekReverse cfg s key).2).kvs = s.kvs := by
  unfold iterSeekReverse
  dsimp only
  split
  · next s' heq =>
    have hu0 := congrArg ScanState.kvs (congrArg Prod.snd heq)
    rw [updateCurrent_kvs] at hu0
    have hu : (clearPeekedS cfg s).kvs = s'.kvs := hu0
    rw [← hu]
    exact clearPeekedS_kvs cfg s
  · next s' heq =>
    have hu0 := congrArg ScanState.kvs (congrArg Prod.snd heq)
    rw [updateCurrent_kvs] at hu0
    have hu : (clearPeekedS cfg s).kvs = s'.kvs := hu0
    split
    · rw [← hu]; exact clearPeekedS_kvs cfg s
    · rw [backwardLatestVersion_kvs, ← hu]; exact clearPeekedS_kvs cfg s

theorem nextKeyLoop_kvs (cfg : ScanConfig) (key_buf : List Nat) (rem : Nat)
    (s : ScanState) : ((nextKeyLoop cfg key_buf rem s).2).kvs = s.kvs := by
  induction rem generalizing s with
  | zero => simp only [nextKeyLoop]; rw [iterSeek_kvs]
  | succ rem ih =>
    simp only [nextKeyLoop]
    have hn := iterNext_kvs cfg s
    split
    · next heq => rw [heq] at hn; exact hn
    · next s' heq =>
      rw [heq] at hn
      split
      · exact hn
      · rw [ih]; exact hn

theorem nextKey_kvs (cfg : ScanConfig) (s : ScanState) :
    ((nextKey cfg s).2).kvs = s.kvs := by
  unfold nextKey
  split
  · rfl
  · exact nextKeyLoop_kvs cfg s.cur_key s.iters_before_seek s

theorem prevKeyLoop_kvs (cfg : ScanConfig) (key_buf : List Nat) (rem : Nat)
    (s : ScanState) : ((prevKeyLoop cfg key_buf rem s).2).kvs = s.kvs := by
  induction rem generalizing key_buf s with
  | zero => simp only [prevKeyLoop]; rw [iterSeekReverse_kvs]
  | succ rem ih =>
    simp only [prevKeyLoop]
    have hp := iterPeekPrev_kvs cfg s
    split
    · next heq => rw [heq] at hp; exact hp
    · next pk s' heq =>
      rw [heq] at hp
      split
      · rw [backwardLatestVersionLoop_kvs]; exact hp
      · have hv := iterPrev_kvs cfg s'
        split
        · next heq2 => rw [heq2] at hv; rw [hv]; exact hp
        · next heq2 => rw [heq2] at hv; rw [ih]; rw [hv]; exact hp

theorem prevKey_kvs (cfg : ScanConfig) (s : ScanState) (key : List Nat) :
    ((prevKey cfg s key).2).kvs = s.kvs := by
  unfold prevKey
  split
  · rfl
  · exact prevKeyLoop_kvs cfg key s.iters_before_seek s

theorem advanceKey_kvs (cfg : ScanConfig) (s : ScanState) :
    ((advanceKey cfg s).2).kvs = s.kvs := by
  unfold advanceKey
  split
  · exact prevKey_kvs cfg s s.cur_key
  · exact nextKey_kvs cfg s

theorem advanceKeyAtEnd_kvs (cfg : ScanConfig) (s : ScanState) :
    ((advanceKeyAtEnd cfg s).2).kvs = s.kvs := by
  unfold advanceKeyAtEnd
  split
  · dsimp only
    split
    · next s' heq =>
      have hu0 := congrArg ScanState.kvs (congrArg Prod.snd heq)
      rw [updateCurrent_kvs] at hu0
      have hu : (clearPeekedS cfg s).kvs = s'.kvs := hu0
      rw [← hu]
      exact clearPeekedS_kvs cfg s
    · next s' heq =>
      have hu0 := congrArg ScanState.kvs (congrArg Prod.snd heq)
      rw [updateCurrent_kvs] at hu0
      have hu : (clearPeekedS cfg s).kvs = s'.kvs := hu0
      rw [advanceKey_kvs, ← hu]
      exact clearPeekedS_kvs cfg s
  · rfl

theorem advanceKeyAtNewKey_kvs (cfg : ScanConfig) (s : ScanState) (key : List Nat) :
    ((advanceKeyAtNewKey cfg s key).2).kvs = s.kvs := by
  unfold advanceKeyAtNewKey
  split
  · exact prevKey_kvs cfg s key
  · rfl

end Libroach

namespace Libroach

/-- A successful `updateCurrent` leaves a decodable current entry
whose decoded user key and timestamp are the `cur_*` fields. -/
theorem updateCurrent_true_dec (cfg : ScanConfig) (s s' : ScanState)
    (h : updateCurrent cfg s = (true, s')) :
    decodeKeyTS s'.cur_raw_key = some (s'.cur_key, s'.cur_timestamp) := by
  unfold updateCurrent at h
  split at h
  · rw [Prod.mk.injEq] at h; exact Bool.noConfusion h.1
  · split at h
    · rw [Prod.mk.injEq] at h; exact Bool.noConfusion h.1
    · split at h
      · rw [Prod.mk.injEq] at h; exact Bool.noConfusion h.1
      · next heq =>
        rw [Prod.mk.injEq] at h
        rw [← h.2]
        exact heq

theorem iterSeek_true_dec (cfg : ScanConfig) (s s' : ScanState) (key : List Nat)
    (h : iterSeek cfg s key = (true, s')) :
    decodeKeyTS s'.cur_raw_key = some (s'.cur_key, s'.cur_timestamp) := by
  unfold iterSeek at h
  exact updateCurrent_true_dec cfg _ s' h

theorem iterNext_true_dec (cfg : ScanConfig) (s s' : ScanState)
    (h : iterNext cfg s = (true, s')) :
    decodeKeyTS s'.cur_raw_key = some (s'.cur_key, s'.cur_timestamp) := by
  unfold iterNext at h
  split at h
  · dsimp only at h
    split at h
    · exact updateCurrent_true_dec cfg _ s' h
    · split at h
      · exact updateCurrent_true_dec cfg _ s' h
      · rw [Prod.mk.injEq] at h; exact Bool.noConfusion h.1
  · exact updateCurrent_true_dec cfg _ s' h

/-- The shape of the rows accumulator after one emitting step: it is
unchanged, cleared (uncertainty), or extended by one row `(rk, v)`
with a non-empty value and `P rk`; and a `true` return keeps the row
count within `max_keys`. -/
def AddOut (cfg : ScanConfig) (P : List Nat → Prop)
    (k0 : List (List Nat × List Nat)) (r : Bool × ScanState) : Prop :=
  ((r.2).kvs = k0 ∨ (r.2).kvs = [] ∨
    ∃ rk v, v ≠ [] ∧ P rk ∧ (r.2).kvs = k0 ++ [(rk, v)]) ∧
  ((k0.length : Int) ≤ cfg.max_keys → r.1 = true →
    (((r.2).kvs.length : Int) ≤ cfg.max_keys))

theorem AddOut.mono {cfg : ScanConfig} {P Q : List Nat → Prop}
    {k0 : List (List Nat × List Nat)} {r : Bool × ScanState}
    (h : AddOut cfg P k0 r) (hPQ : ∀ rk, P rk → Q rk) : AddOut cfg Q k0 r := by
  obtain ⟨h1, h2⟩ := h
  refine ⟨?_, h2⟩
  rcases h1 with h1 | h1 | ⟨rk, v, hv, hP, he⟩
  · exact Or.inl h1
  · exact Or.inr (Or.inl h1)
  · exact Or.inr (Or.inr ⟨rk, v, hv, hPQ rk hP, he⟩)

theorem addAndAdvance_step (cfg : ScanConfig) (s : ScanState) (v : List Nat) :
    AddOut cfg (fun rk => rk = s.cur_raw_key) s.kvs (addAndAdvance cfg s v) := by
  unfold addAndAdvance
  split
  · next hv =>
    dsimp only
    split
    · next hgt =>
      constructor
      · exact Or.inr (Or.inr ⟨s.cur_raw_key, v, by intro hc; subst hc; simp at hv, rfl, rfl⟩)
      · intro _ hc; exact Bool.noConfusion hc
    · next hle =>
      constructor
      · refine Or.inr (Or.inr ⟨s.cur_raw_key, v, by intro hc; subst hc; simp at hv, rfl, ?_⟩)
        rw [advanceKey_kvs]
      · intro _ _
        rw [advanceKey_kvs]
        dsimp only at hle ⊢
        rw [List.length_append] at hle ⊢
        omega
  · next hv =>
    have hv0 : v = [] := by
      cases v with
      | nil => rfl
      | cons a l => simp at hv
    constructor
    · exact Or.inl (advanceKey_kvs cfg s)
    · intro hlen _
      rw [advanceKey_kvs]
      exact hlen

end Libroach

namespace Libroach

theorem AddOut.cast_k0 {cfg : ScanConfig} {P : List Nat → Prop}
    {k0 k1 : List (List Nat × List Nat)} {r : Bool × ScanState}
    (h : AddOut cfg P k0 r) (he : k0 = k1) : AddOut cfg P k1 r := he ▸ h

/-- `seekVersion` emits at most one row, whose raw key decodes to the
user key it was asked to stay on. -/
theorem seekVersionLoop_step (cfg : ScanConfig) (kb : List Nat) (desired : DBTimestampM)
    (cu : Bool) : ∀ (rem : Nat) (s : ScanState),
    AddOut cfg (fun rk => ∃ ts, decodeKeyTS rk = some (kb, ts)) s.kvs
      (seekVersionLoop cfg kb desired cu rem s) := by
  intro rem
  induction rem with
  | zero =>
    intro s
    simp only [seekVersionLoop]
    try dsimp only
    split
    · next s1 heq =>
      have hk0 := congrArg ScanState.kvs (congrArg Prod.snd heq)
      rw [iterSeek_kvs] at hk0
      have hk : s.kvs = s1.kvs := hk0
      constructor
      · left; rw [advanceKeyAtEnd_kvs, ← hk]
      · intro hlen _; rw [advanceKeyAtEnd_kvs, ← hk]; exact hlen
    · next s1 heq =>
      have hk0 := congrArg ScanState.kvs (congrArg Prod.snd heq)
      rw [iterSeek_kvs] at hk0
      have hk : s.kvs = s1.kvs := hk0
      have hdec := iterSeek_true_dec cfg _ s1 _ heq
      split
      · constructor
        · left; rw [advanceKeyAtNewKey_kvs, ← hk]
        · intro hlen _; rw [advanceKeyAtNewKey_kvs, ← hk]; exact hlen
      · next hne =>
        have hkb : s1.cur_key = kb := not_ne_iff.mp hne
        split
        · split
          · exact ⟨Or.inr (Or.inl rfl), fun _ hc => Bool.noConfusion hc⟩
          · refine AddOut.cast_k0 (AddOut.mono (addAndAdvance_step cfg s1 s1.cur_value) ?_) hk.symm
            intro rk hrk
            exact ⟨s1.cur_timestamp, by rw [hrk, hdec, hkb]⟩
        · constructor
          · left; rw [advanceKey_kvs, ← hk]
          · intro hlen _; rw [advanceKey_kvs, ← hk]; exact hlen
  | succ rem ih =>
    intro s
    simp only [seekVersionLoop]
    split
    · next s1 heq =>
      have hk0 := congrArg ScanState.kvs (congrArg Prod.snd heq)
      rw [iterNext_kvs] at hk0
      have hk : s.kvs = s1.kvs := hk0
      constructor
      · left; rw [advanceKeyAtEnd_kvs, ← hk]
      · intro hlen _; rw [advanceKeyAtEnd_kvs, ← hk]; exact hlen
    · next s1 heq =>
      have hk0 := congrArg ScanState.kvs (congrArg Prod.snd heq)
      rw [iterNext_kvs] at hk0
      have hk : s.kvs = s1.kvs := hk0
      have hdec := iterNext_true_dec cfg s s1 heq
      split
      · constructor
        · left
          rw [advanceKeyAtNewKey_kvs]
          exact hk.symm
        · intro hlen _
          rw [advanceKeyAtNewKey_kvs]
          exact hk ▸ hlen
      · next hne =>
        have hkb : s1.cur_key = kb := not_ne_iff.mp hne
        split
        · try dsimp only
          split
          · exact ⟨Or.inr (Or.inl rfl), fun _ hc => Bool.noConfusion hc⟩
          · refine AddOut.cast_k0 (AddOut.mono (addAndAdvance_step cfg _ _) ?_) ?_
            · intro rk hrk
              refine ⟨s1.cur_timestamp, ?_⟩
              rw [hrk]
              show decodeKeyTS s1.cur_raw_key = some (kb, s1.cur_timestamp)
              rw [hdec, hkb]
            · exact hk.symm
        · exact AddOut.cast_k0 (ih s1) hk.symm

end Libroach

namespace Libroach

/-- One `getAndAdvance` step emits at most one row; any self-read
current entry that it emits directly carries the current user key. -/
theorem getAndAdvance_step (pm : List Nat → Option MVCCMetadataM) (cfg : ScanConfig)
    (s : ScanState) :
    AddOut cfg
      (fun rk => decodeKeyTS s.cur_raw_key = some (s.cur_key, s.cur_timestamp) →
        ∃ ts, decodeKeyTS rk = some (s.cur_key, ts))
      s.kvs (getAndAdvance pm cfg s) := by
  unfold getAndAdvance seekVersion
  split
  · split
    · refine AddOut.mono (addAndAdvance_step cfg s s.cur_value) ?_
      intro rk hrk hdec
      exact ⟨s.cur_timestamp, by rw [hrk, hdec]⟩
    · split
      · split
        · exact ⟨Or.inr (Or.inl rfl), fun _ hc => Bool.noConfusion hc⟩
        · exact AddOut.mono (seekVersionLoop_step cfg _ _ _ _ _) (fun rk h _ => h)
      · exact AddOut.mono (seekVersionLoop_step cfg _ _ _ _ _) (fun rk h _ => h)
  · split
    · exact ⟨Or.inl rfl, fun _ hc => Bool.noConfusion hc⟩
    · split
      · refine AddOut.mono (addAndAdvance_step cfg s _) ?_
        intro rk hrk hdec
        exact ⟨s.cur_timestamp, by rw [hrk, hdec]⟩
      · split
        · exact ⟨Or.inl rfl, fun _ hc => Bool.noConfusion hc⟩
        · split
          · exact AddOut.mono (seekVersionLoop_step cfg _ _ _ _ _) (fun rk h _ => h)
          · split
            · exact AddOut.mono (seekVersionLoop_step cfg _ _ _ _ _) (fun rk h _ => h)
            · split
              · refine ⟨Or.inl ?_, fun hlen _ => ?_⟩
                · rw [advanceKey_kvs]
                · rw [advanceKey_kvs]; exact hlen
              · split
                · exact AddOut.mono (seekVersionLoop_step cfg _ _ _ _ _) (fun rk h _ => h)
                · split
                  · exact ⟨Or.inl rfl, fun _ hc => Bool.noConfusion hc⟩
                  · exact AddOut.mono (seekVersionLoop_step cfg _ _ _ _ _) (fun rk h _ => h)

/-- The scan loop never exceeds `max_keys + 1` accumulated rows. -/
theorem scanLoop_bound (pm : List Nat → Option MVCCMetadataM) (cfg : ScanConfig) :
    ∀ (fuel : Nat) (s : ScanState), (s.kvs.length : Int) ≤ cfg.max_keys →
      (((scanLoop pm cfg fuel s).kvs.length : Int)) ≤ cfg.max_keys + 1 := by
  intro fuel
  induction fuel with
  | zero =>
    intro s h
    simp only [scanLoop]
    omega
  | succ fuel ih =>
    intro s h
    simp only [scanLoop]
    split
    · split
      · next s1 heq =>
        have hga := getAndAdvance_step pm cfg s
        rw [heq] at hga
        obtain ⟨h1, -⟩ := hga
        rcases h1 with h1 | h1 | ⟨rk, v, -, -, h1⟩
        · have h1e : s1.kvs = s.kvs := h1
          rw [h1e]; omega
        · have h1e : s1.kvs = [] := h1
          rw [h1e]
          simp only [List.length_nil, Nat.cast_zero]
          have hnn : (0 : Int) ≤ (s.kvs.length : Int) := Int.ofNat_nonneg _
          omega
        · have h1e : s1.kvs = s.kvs ++ [(rk, v)] := h1
          rw [h1e, List.length_append]
          simp only [List.length_singleton]
          push_cast
          omega
      · next s1 heq =>
        have hga := getAndAdvance_step pm cfg s
        rw [heq] at hga
        obtain ⟨-, h2⟩ := hga
        exact ih s1 (h2 h rfl)
    · omega

/-- The scan loop only accumulates rows with non-empty values. -/
theorem scanLoop_values (pm : List Nat → Option MVCCMetadataM) (cfg : ScanConfig) :
    ∀ (fuel : Nat) (s : ScanState), (∀ p ∈ s.kvs, p.2 ≠ []) →
      ∀ p ∈ (scanLoop pm cfg fuel s).kvs, p.2 ≠ [] := by
  intro fuel
  induction fuel with
  | zero =>
    intro s h
    simp only [scanLoop]
    exact h
  | succ fuel ih =>
    intro s h
    simp only [scanLoop]
    split
    · split
      · next s1 heq =>
        have hga := getAndAdvance_step pm cfg s
        rw [heq] at hga
        obtain ⟨h1, -⟩ := hga
        rcases h1 with h1 | h1 | ⟨rk, v, hv, -, h1⟩
        · have h1e : s1.kvs = s.kvs := h1
          rw [h1e]; exact h
        · have h1e : s1.kvs = [] := h1
          rw [h1e]; intro p hp; cases hp
        · have h1e : s1.kvs = s.kvs ++ [(rk, v)] := h1
          rw [h1e]
          intro p hp
          rcases List.mem_append.mp hp with hp | hp
          · exact h p hp
          · rw [List.mem_singleton] at hp
            rw [hp]
            exact hv
      · next s1 heq =>
        have hga := getAndAdvance_step pm cfg s
        rw [heq] at hga
        obtain ⟨h1, -⟩ := hga
        refine ih s1 ?_
        rcases h1 with h1 | h1 | ⟨rk, v, hv, -, h1⟩
        · have h1e : s1.kvs = s.kvs := h1
          rw [h1e]; exact h
        · have h1e : s1.kvs = [] := h1
          rw [h1e]; intro p hp; cases hp
        · have h1e : s1.kvs = s.kvs ++ [(rk, v)] := h1
          rw [h1e]
          intro p hp
          rcases List.mem_append.mp hp with hp | hp
          · exact h p hp
          · rw [List.mem_singleton] at hp
            rw [hp]
            exact hv
    · exact h

end Libroach

namespace Libroach

theorem scanResults_len_le (s : ScanState) (n : Int)
    (h : ((s.kvs.length : Int)) ≤ n) (hn : 0 ≤ n) :
    (((scanResults s).kvs.length : Int)) ≤ n := by
  unfold scanResults
  dsimp only
  split
  · exact h
  · simpa using hn

theorem scanResults_values (s : ScanState) (h : ∀ p ∈ s.kvs, p.2 ≠ []) :
    ∀ p ∈ (scanResults s).kvs, p.2 ≠ [] := by
  unfold scanResults
  dsimp only
  split
  · exact h
  · intro p hp; cases hp

/-- The body of `mvccScanner::get` returns either no row or exactly
one row, with a non-empty value, whose raw key decodes to the
scanner's start key. -/
theorem scannerGet_rows (pm : List Nat → Option MVCCMetadataM) (cfg : ScanConfig)
    (s0 : ScanState) (h0 : s0.kvs = []) :
    (match iterSeek cfg s0 (encodeKey cfg.start_key 0 0) with
      | (false, s) => scanResults s
      | (true, s) =>
        if s.cur_key = cfg.start_key then scanResults (getAndAdvance pm cfg s).2
        else scanResults s).kvs = [] ∨
    ∃ rk v t, v ≠ [] ∧ decodeKeyTS rk = some (cfg.start_key, t) ∧
      (match iterSeek cfg s0 (encodeKey cfg.start_key 0 0) with
        | (false, s) => scanResults s
        | (true, s) =>
          if s.cur_key = cfg.start_key then scanResults (getAndAdvance pm cfg s).2
          else scanResults s).kvs = [(rk, v)] := by
  split
  · next s1 heq =>
    left
    have hk0 := congrArg ScanState.kvs (congrArg Prod.snd heq)
    rw [iterSeek_kvs] at hk0
    have hk : s1.kvs = [] := hk0.symm.trans h0
    unfold scanResults
    dsimp only
    split
    · exact hk
    · rfl
  · next s1 heq =>
    have hk0 := congrArg ScanState.kvs (congrArg Prod.snd heq)
    rw [iterSeek_kvs] at hk0
    have hk : s1.kvs = [] := hk0.symm.trans h0
    have hdec := iterSeek_true_dec cfg s0 s1 _ heq
    split
    · next hkey =>
      obtain ⟨h1, -⟩ := getAndAdvance_step pm cfg s1
      rcases h1 with h1 | h1 | ⟨rk, v, hv, hP, h1⟩
      · left
        have h1e : (getAndAdvance pm cfg s1).2.kvs = s1.kvs := h1
        unfold scanResults
        dsimp only
        split
        · exact h1e.trans hk
        · rfl
      · left
        have h1e : (getAndAdvance pm cfg s1).2.kvs = [] := h1
        unfold scanResults
        dsimp only
        split
        · exact h1e
        · rfl
      · have h1e : (getAndAdvance pm cfg s1).2.kvs = s1.kvs ++ [(rk, v)] := h1
        obtain ⟨t, ht⟩ := hP hdec
        rw [hkey] at ht
        unfold scanResults
        dsimp only
        split
        · right
          exact ⟨rk, v, t, hv, ht, by rw [h1e, hk]; rfl⟩
        · left; rfl
    · left
      unfold scanResults
      dsimp only
      split
      · exact hk
      · rfl

theorem mvccGet_rows (pm : List Nat → Option MVCCMetadataM)
    (entries : List (List Nat × List Nat)) (key : List Nat) (ts : DBTimestampM)
    (txn : DBTxnM) (consistent : Bool) :
    (mvccGet pm entries key ts txn consistent).kvs = [] ∨
    ∃ rk v t, v ≠ [] ∧ decodeKeyTS rk = some (key, t) ∧
      (mvccGet pm entries key ts txn consistent).kvs = [(rk, v)] := by
  unfold mvccGet
  dsimp only [scannerInit]
  exact scannerGet_rows pm _ _ rfl

/-- C5 both halves assembled over the public entry points. -/
theorem mvccScan_len_le (pm : List Nat → Option MVCCMetadataM)
    (entries : List (List Nat × List Nat)) (start_key end_key : List Nat)
    (ts : DBTimestampM) (max_keys : Int) (txn : DBTxnM) (consistent rv : Bool)
    (fuel : Nat) (hmax : 0 ≤ max_keys) :
    (((mvccScan pm entries start_key end_key ts max_keys txn consistent rv fuel).kvs.length : Int)
      ≤ max_keys + 1) := by
  unfold mvccScan
  dsimp only [scannerInit]
  split
  · split
    · next s1 heq =>
      have hk0 := congrArg ScanState.kvs (congrArg Prod.snd heq)
      rw [iterSeekReverse_kvs] at hk0
      have hk : s1.kvs = [] := hk0.symm
      refine scanResults_len_le s1 _ ?_ (by omega)
      rw [hk]
      simp
      omega
    · next s1 heq =>
      have hk0 := congrArg ScanState.kvs (congrArg Prod.snd heq)
      rw [iterSeekReverse_kvs] at hk0
      have hk : s1.kvs = [] := hk0.symm
      refine scanResults_len_le _ _ (scanLoop_bound pm _ fuel s1 ?_) (by omega)
      rw [hk]
      simpa using hmax
  · split
    · next s1 heq =>
      have hk0 := congrArg ScanState.kvs (congrArg Prod.snd heq)
      rw [iterSeek_kvs] at hk0
      have hk : s1.kvs = [] := hk0.symm
      refine scanResults_len_le s1 _ ?_ (by omega)
      rw [hk]
      simp
      omega
    · next s1 heq =>
      have hk0 := congrArg ScanState.kvs (congrArg Prod.snd heq)
      rw [iterSeek_kvs] at hk0
      have hk : s1.kvs = [] := hk0.symm
      refine scanResults_len_le _ _ (scanLoop_bound pm _ fuel s1 ?_) (by omega)
      rw [hk]
      simpa using hmax

end Libroach

namespace Libroach

theorem mvccScan_values (pm : List Nat → Option MVCCMetadataM)
    (entries : List (List Nat × List Nat)) (start_key end_key : List Nat)
    (ts : DBTimestampM) (max_keys : Int) (txn : DBTxnM) (consistent rv : Bool)
    (fuel : Nat) :
    ∀ p ∈ (mvccScan pm entries start_key end_key ts max_keys txn consistent rv fuel).kvs,
      p.2 ≠ [] := by
  unfold mvccScan
  dsimp only [scannerInit]
  split
  · split
    · next s1 heq =>
      have hk0 := congrArg ScanState.kvs (congrArg Prod.snd heq)
      rw [iterSeekReverse_kvs] at hk0
      have hk : s1.kvs = [] := hk0.symm
      refine scanResults_values s1 ?_
      rw [hk]
      intro p hp; cases hp
    · next s1 heq =>
      have hk0 := congrArg ScanState.kvs (congrArg Prod.snd heq)
      rw [iterSeekReverse_kvs] at hk0
      have hk : s1.kvs = [] := hk0.symm
      refine scanResults_values _ (scanLoop_values pm _ fuel s1 ?_)
      rw [hk]
      intro p hp; cases hp
  · split
    · next s1 heq =>
      have hk0 := congrArg ScanState.kvs (congrArg Prod.snd heq)
      rw [iterSeek_kvs] at hk0
      have hk : s1.kvs = [] := hk0.symm
      refine scanResults_values s1 ?_
      rw [hk]
      intro p hp; cases hp
    · next s1 heq =>
      have hk0 := congrArg ScanState.kvs (congrArg Prod.snd heq)
      rw [iterSeek_kvs] at hk0
      have hk : s1.kvs = [] := hk0.symm
      refine scanResults_values _ (scanLoop_values pm _ fuel s1 ?_)
      rw [hk]
      intro p hp; cases hp

/-- C5: every forward or reverse `MVCCScan` with a non-negative
`max_keys` returns at most `max_keys + 1` rows (the one extra row
signals resume semantics), and `MVCCGet` — a forward scan with
`max_keys = 0` and an empty end key — returns at most one row, and
only for a raw key whose decoded user key equals the requested key. -/
theorem c5_row_count_limit
    (pm : List Nat → Option MVCCMetadataM) (entries : List (List Nat × List Nat))
    (start_key end_key key : List Nat) (ts : DBTimestampM) (max_keys : Int)
    (txn : DBTxnM) (consistent rv : Bool) (fuel : Nat) (hmax : 0 ≤ max_keys) :
    (((mvccScan pm entries start_key end_key ts max_keys txn consistent rv fuel).kvs.length : Int)
        ≤ max_keys + 1) ∧
    (mvccGet pm entries key ts txn consistent).kvs.length ≤ 1 ∧
    ∀ p ∈ (mvccGet pm entries key ts txn consistent).kvs,
      ∃ t, decodeKeyTS p.1 = some (key, t) := by
  refine ⟨mvccScan_len_le pm entries start_key end_key ts max_keys txn consistent rv fuel hmax,
    ?_, ?_⟩ <;>
    rcases mvccGet_rows pm entries key ts txn consistent with h | ⟨rk, v, t, hv, ht, h⟩
  · rw [h]; simp
  · rw [h]; simp
  · rw [h]; intro p hp; cases hp
  · rw [h]
    intro p hp
    rw [List.mem_singleton] at hp
    rw [hp]
    exact ⟨t, ht⟩

/-- C5 witness at a concrete instance. -/
theorem c5_row_count_limit_witness :
    (0 : Int) ≤ 0 ∧
    ((((mvccScan (fun _ => none) [] [] [] ⟨0, 0⟩ 0 ⟨[], 0, ⟨0, 0⟩⟩ true false 0).kvs.length : Int)
        ≤ 0 + 1) ∧
      (mvccGet (fun _ => none) [] [] ⟨0, 0⟩ ⟨[], 0, ⟨0, 0⟩⟩ true).kvs.length ≤ 1 ∧
      ∀ p ∈ (mvccGet (fun _ => none) [] [] ⟨0, 0⟩ ⟨[], 0, ⟨0, 0⟩⟩ true).kvs,
        ∃ t, decodeKeyTS p.1 = some ([], t)) :=
  ⟨by decide,
    c5_row_count_limit (fun _ => none) [] [] [] [] ⟨0, 0⟩ 0 ⟨[], 0, ⟨0, 0⟩⟩ true false 0
      (by decide)⟩

/-- C10: every row returned by `MVCCGet` or by a forward or reverse
`MVCCScan` has a non-empty value — a deletion tombstone is never
emitted — and adding an empty value is exactly `advanceKey`: it leaves
the accumulated rows (and hence the row count) unchanged and moves to
the next key. -/
theorem c10_tombstone_suppression
    (pm : List Nat → Option MVCCMetadataM) (entries : List (List Nat × List Nat))
    (start_key end_key key : List Nat) (ts : DBTimestampM) (max_keys : Int)
    (txn : DBTxnM) (consistent rv : Bool) (fuel : Nat) :
    (∀ p ∈ (mvccScan pm entries start_key end_key ts max_keys txn consistent rv fuel).kvs,
        p.2 ≠ []) ∧
    (∀ p ∈ (mvccGet pm entries key ts txn consistent).kvs, p.2 ≠ []) ∧
    ∀ (cfg : ScanConfig) (s : ScanState), addAndAdvance cfg s [] = advanceKey cfg s := by
  refine ⟨mvccScan_values pm entries start_key end_key ts max_keys txn consistent rv fuel,
    ?_, fun cfg s => rfl⟩
  rcases mvccGet_rows pm entries key ts txn consistent with h | ⟨rk, v, t, hv, ht, h⟩
  · rw [h]; intro p hp; cases hp
  · rw [h]
    intro p hp
    rw [List.mem_singleton] at hp
    rw [hp]
    exact hv

end Libroach

namespace Libroach

theorem tsLE_true_iff (a b : DBTimestampM) : tsLE a b = true ↔ tsLT b a = false := by
  simp [tsLE]

theorem tsLE_false_iff (a b : DBTimestampM) : tsLE a b = false ↔ tsLT b a = true := by
  simp [tsLE]

theorem findIdx_map_comp {α β : Type} (f : α → β) (p : β → Bool) (l : List α) :
    (l.map f).findIdx p = l.findIdx (fun a => p (f a)) := by
  induction l with
  | nil => rfl
  | cons a l ih => simp [List.findIdx_cons, ih]

/-- Evaluation form of `updateCurrent` on a decodable entry. -/
theorem updateCurrent_eq (cfg : ScanConfig) (s : ScanState) (i : Nat)
    (rk v k : List Nat) (ts : DBTimestampM)
    (hpos : s.pos = some i) (hget : cfg.entries.get? i = some (rk, v))
    (hdec : decodeKeyTS rk = some (k, ts)) :
    updateCurrent cfg s =
      (true, { s with cur_raw_key := rk, cur_value := v, cur_key := k,
                      cur_timestamp := ts }) := by
  simp only [updateCurrent, hpos, hget, hdec]

theorem iterSeek_eq (cfg : ScanConfig) (s : ScanState) (key : List Nat)
    (hrev : cfg.reverse = false) :
    iterSeek cfg s key = updateCurrent cfg { s with pos := seekIdx cfg.entries key } := by
  unfold iterSeek clearPeekedS
  rw [hrev]
  simp

theorem iterNext_fwd (cfg : ScanConfig) (s : ScanState) (hrev : cfg.reverse = false) :
    iterNext cfg s = updateCurrent cfg { s with pos := nextIdx s.pos cfg.entries.length } := by
  unfold iterNext
  rw [hrev]
  simp

/-- The entry at index `i` of a pure version store for user key `k`. -/
theorem entries_map_get (k : List Nat) (vers : List (DBTimestampM × List Nat))
    (i : Nat) (h : i < vers.length) :
    ((vers.map fun v => (encodeKeyTS k v.1, v.2)).get? i) =
      some (encodeKeyTS k (vers.get ⟨i, h⟩).1, (vers.get ⟨i, h⟩).2) := by
  rw [List.get?_map, List.get?_eq_get h]
  rfl

end Libroach

namespace Libroach

/-- `Seek` on a pure version store for user key `k` lands on the first
version at or below the desired timestamp. -/
theorem seekIdx_version_store (k : List Nat) (desired : DBTimestampM)
    (vers : List (DBTimestampM × List Nat)) (J : Nat) (hJ : J < vers.length)
    (hvv : ∀ v ∈ vers, tsValid v.1 ∧ v.1 ≠ kZeroTimestamp)
    (hdv : tsValid desired) (hdz : desired ≠ kZeroTimestamp)
    (hsat : tsLE (vers.get ⟨J, hJ⟩).1 desired = true)
    (hmin : ∀ j (hj : j < J), tsLE (vers.get ⟨j, Nat.lt_trans hj hJ⟩).1 desired = false) :
    seekIdx (vers.map fun v => (encodeKeyTS k v.1, v.2)) (encodeKeyTS k desired) =
      some J := by
  unfold seekIdx
  dsimp only
  rw [findIdx_map_comp]
  have hfd : vers.findIdx
      (fun a => decide ¬(dbCompare (encodeKeyTS k a.1) (encodeKeyTS k desired) =
        Ordering.lt)) = J := by
    apply (List.findIdx_eq hJ).mpr
    constructor
    · have hvJ := hvv (vers.get ⟨J, hJ⟩) (List.get_mem vers J hJ)
      simp only [decide_eq_true_eq]
      show ¬dbCompare (encodeKeyTS k (vers.get ⟨J, hJ⟩).1) (encodeKeyTS k desired) =
        Ordering.lt
      rw [dbCompare_encTS_lt_iff k (vers.get ⟨J, hJ⟩).1 desired hvJ.1 hdv hvJ.2 hdz]
      rw [tsLE_true_iff] at hsat
      simp only [hsat]
      exact Bool.false_ne_true
    · intro j hj
      have hvj := hvv (vers.get ⟨j, Nat.lt_trans hj hJ⟩)
        (List.get_mem vers j (Nat.lt_trans hj hJ))
      simp only [decide_eq_false_iff_not, Decidable.not_not]
      show dbCompare (encodeKeyTS k (vers.get ⟨j, Nat.lt_trans hj hJ⟩).1)
        (encodeKeyTS k desired) = Ordering.lt
      rw [dbCompare_encTS_lt_iff k (vers.get ⟨j, Nat.lt_trans hj hJ⟩).1 desired
        hvj.1 hdv hvj.2 hdz]
      have hm := hmin j hj
      rw [tsLE_false_iff] at hm
      exact hm
  have hfd2 : vers.findIdx
      (fun a => decide ¬(dbCompare ((fun v => (encodeKeyTS k v.1, v.2)) a).1
        (encodeKeyTS k desired) = Ordering.lt)) = J := hfd
  rw [hfd2, if_pos (by simpa using hJ)]

end Libroach

namespace Libroach

/-- `seekVersion(desired, true)` on a pure version store of key `k`:
if the entry the loop is about to reach is strictly above the read
timestamp once it first satisfies `ts <= desired`, the scan terminates
with an uncertainty error at that version's timestamp, whether the
version is reached by stepping or by the seek fall-back. -/
theorem seekVersionLoop_uncertainty
    (cfg : ScanConfig) (k : List Nat) (desired : DBTimestampM)
    (vers : List (DBTimestampM × List Nat)) (J : Nat) (hJ : J < vers.length)
    (hrev : cfg.reverse = false)
    (hent : cfg.entries = vers.map fun v => (encodeKeyTS k v.1, v.2))
    (hvv : ∀ v ∈ vers, tsValid v.1 ∧ v.1 ≠ kZeroTimestamp)
    (hdv : tsValid desired) (hdz : desired ≠ kZeroTimestamp)
    (hsat : tsLE (vers.get ⟨J, hJ⟩).1 desired = true)
    (hmin : ∀ j (hj : j < J), tsLE (vers.get ⟨j, Nat.lt_trans hj hJ⟩).1 desired = false)
    (hunc : tsLT cfg.timestamp (vers.get ⟨J, hJ⟩).1 = true) :
    ∀ (rem p : Nat) (s : ScanState), s.pos = some p → p < J →
      ∃ s2, seekVersionLoop cfg k desired true rem s = (false, s2) ∧
        s2.uncertainty = some (vers.get ⟨J, hJ⟩).1 ∧ s2.kvs = [] ∧
        s2.intents = [] ∧ s2.status = s.status := by
  intro rem
  induction rem with
  | zero =>
    intro p s hpos hpJ
    simp only [seekVersionLoop]
    try dsimp only
    have hvJ := hvv (vers.get ⟨J, hJ⟩) (List.get_mem vers J hJ)
    have hseek : seekIdx cfg.entries (encodeKeyTS k desired) = some J := by
      rw [hent]
      exact seekIdx_version_store k desired vers J hJ hvv hdv hdz hsat hmin
    have hget : cfg.entries.get? J =
        some (encodeKeyTS k (vers.get ⟨J, hJ⟩).1, (vers.get ⟨J, hJ⟩).2) := by
      rw [hent]
      exact entries_map_get k vers J hJ
    have hstep : iterSeek cfg
        { s with iters_before_seek := max 1 (s.iters_before_seek - 1) }
        (encodeKeyTS k desired) =
        (true, { s with iters_before_seek := max 1 (s.iters_before_seek - 1),
                        pos := seekIdx cfg.entries (encodeKeyTS k desired),
                        cur_raw_key := encodeKeyTS k (vers.get ⟨J, hJ⟩).1,
                        cur_value := (vers.get ⟨J, hJ⟩).2, cur_key := k,
                        cur_timestamp := (vers.get ⟨J, hJ⟩).1 }) := by
      rw [iterSeek_eq cfg _ _ hrev]
      exact updateCurrent_eq cfg _ J _ _ _ _ hseek hget
        (decodeKeyTS_encodeKeyTS k _ hvJ.1)
    rw [hstep]
    dsimp only
    rw [if_neg (by simp)]
    rw [if_pos hsat]
    rw [if_pos ⟨trivial, hunc⟩]
    exact ⟨_, rfl, rfl, rfl, rfl, rfl⟩
  | succ rem ih =>
    intro p s hpos hpJ
    simp only [seekVersionLoop]
    have hp1 : p + 1 < vers.length := Nat.lt_of_le_of_lt (Nat.succ_le_of_lt hpJ) hJ
    have hmem := List.get_mem vers (p + 1) hp1
    have hval := hvv _ hmem
    have hpos2 : ({ s with pos := nextIdx s.pos cfg.entries.length } : ScanState).pos =
        some (p + 1) := by
      show nextIdx s.pos cfg.entries.length = some (p + 1)
      rw [hpos, hent]
      show (if p + 1 < (vers.map fun v => (encodeKeyTS k v.1, v.2)).length
        then some (p + 1) else none) = some (p + 1)
      rw [if_pos (by simpa using hp1)]
    have hget2 : cfg.entries.get? (p + 1) =
        some (encodeKeyTS k (vers.get ⟨p + 1, hp1⟩).1, (vers.get ⟨p + 1, hp1⟩).2) := by
      rw [hent]
      exact entries_map_get k vers (p + 1) hp1
    have hnext : iterNext cfg s =
        (true, { s with pos := nextIdx s.pos cfg.entries.length,
                        cur_raw_key := encodeKeyTS k (vers.get ⟨p + 1, hp1⟩).1,
                        cur_value := (vers.get ⟨p + 1, hp1⟩).2, cur_key := k,
                        cur_timestamp := (vers.get ⟨p + 1, hp1⟩).1 }) := by
      rw [iterNext_fwd cfg s hrev]
      exact updateCurrent_eq cfg _ (p + 1) _ _ _ _ hpos2 hget2
        (decodeKeyTS_encodeKeyTS k _ hval.1)
    rw [hnext]
    dsimp only
    rw [if_neg (by simp)]
    by_cases hc : p + 1 = J
    · have he : (⟨p + 1, hp1⟩ : Fin vers.length) = ⟨J, hJ⟩ := Fin.ext hc
      rw [he]
      rw [if_pos hsat]
      try dsimp only
      rw [if_pos ⟨trivial, hunc⟩]
      exact ⟨_, rfl, rfl, rfl, rfl, rfl⟩
    · have hlt : p + 1 < J := by omega
      have hm := hmin (p + 1) hlt
      have hm2 : tsLE (vers.get ⟨p + 1, hp1⟩).1 desired = false := hm
      rw [if_neg (by rw [hm2]; exact Bool.false_ne_true)]
      have hih := ih (p + 1)
        ({ s with pos := nextIdx s.pos cfg.entries.length,
                  cur_raw_key := encodeKeyTS k (vers.get ⟨p + 1, hp1⟩).1,
                  cur_value := (vers.get ⟨p + 1, hp1⟩).2, cur_key := k,
                  cur_timestamp := (vers.get ⟨p + 1, hp1⟩).1 }) hpos2 hlt
      obtain ⟨s2, he2, hu2, hk2, hi2, hs2⟩ := hih
      exact ⟨s2, he2, hu2, hk2, hi2, hs2⟩

end Libroach

namespace Libroach

theorem tsLT_trans {a b c : DBTimestampM} (h1 : tsLT a b = true) (h2 : tsLT b c = true) :
    tsLT a c = true := by
  rw [tsLT_iff] at h1 h2 ⊢
  omega

/-- `Seek` to the meta key of `k` on a pure version store of `k` lands
on the first (newest) version. -/
theorem seekIdx_version_store_meta (k : List Nat)
    (vers : List (DBTimestampM × List Nat)) (hne : 0 < vers.length)
    (hvv : ∀ v ∈ vers, tsValid v.1 ∧ v.1 ≠ kZeroTimestamp) :
    seekIdx (vers.map fun v => (encodeKeyTS k v.1, v.2)) (encodeKey k 0 0) = some 0 := by
  unfold seekIdx
  dsimp only
  rw [findIdx_map_comp]
  have hfd : vers.findIdx
      (fun a => decide ¬(dbCompare (encodeKeyTS k a.1) (encodeKey k 0 0) =
        Ordering.lt)) = 0 := by
    apply (List.findIdx_eq hne).mpr
    refine ⟨?_, fun j hj => absurd hj (Nat.not_lt_zero j)⟩
    simp only [decide_eq_true_eq]
    show ¬dbCompare (encodeKeyTS k (vers.get ⟨0, hne⟩).1) (encodeKey k 0 0) =
      Ordering.lt
    rw [dbCompare_encTS_meta_gt k _ (hvv _ (List.get_mem vers 0 hne)).2]
    simp
  have hfd2 : vers.findIdx
      (fun a => decide ¬(dbCompare ((fun v => (encodeKeyTS k v.1, v.2)) a).1
        (encodeKey k 0 0) = Ordering.lt)) = 0 := hfd
  rw [hfd2, if_pos (by simpa using hne)]

/-- The `mvccScanner::get` walk on a pure, newest-first version store
whose first version at or below `txn.max_timestamp` is still above the
read timestamp: the result is exactly an uncertainty error at that
version's timestamp. -/
theorem c3_walk (pm : List Nat → Option MVCCMetadataM) (cfg : ScanConfig)
    (s0 : ScanState) (k : List Nat) (vers : List (DBTimestampM × List Nat))
    (J : Nat) (hJ : J < vers.length)
    (hrev : cfg.reverse = false)
    (hent : cfg.entries = vers.map fun v => (encodeKeyTS k v.1, v.2))
    (hstart : cfg.start_key = k)
    (hcu : cfg.check_uncertainty = true)
    (hs0 : s0.status = none)
    (hvv : ∀ v ∈ vers, tsValid v.1 ∧ v.1 ≠ kZeroTimestamp)
    (hsorted : List.Pairwise (fun a b => tsLT b.1 a.1 = true) vers)
    (hMv : tsValid cfg.txn_max_timestamp)
    (hMz : cfg.txn_max_timestamp ≠ kZeroTimestamp)
    (hsat : tsLE (vers.get ⟨J, hJ⟩).1 cfg.txn_max_timestamp = true)
    (hmin : ∀ j (hj : j < J),
      tsLE (vers.get ⟨j, Nat.lt_trans hj hJ⟩).1 cfg.txn_max_timestamp = false)
    (hunc : tsLT cfg.timestamp (vers.get ⟨J, hJ⟩).1 = true) :
    (match iterSeek cfg s0 (encodeKey cfg.start_key 0 0) with
      | (false, s) => scanResults s
      | (true, s) =>
        if s.cur_key = cfg.start_key then scanResults (getAndAdvance pm cfg s).2
        else scanResults s) =
      { status := none, uncertainty := some (vers.get ⟨J, hJ⟩).1,
        kvs := [], intents := [] } := by
  have hne : 0 < vers.length := Nat.lt_of_le_of_lt (Nat.zero_le J) hJ
  have hz0 := hvv _ (List.get_mem vers 0 hne)
  -- the read timestamp is below the newest version
  have hT0 : tsLT cfg.timestamp (vers.get ⟨0, hne⟩).1 = true := by
    by_cases h0 : J = 0
    · have he : (⟨J, hJ⟩ : Fin vers.length) = ⟨0, hne⟩ := Fin.ext h0
      rw [he] at hunc
      exact hunc
    · have hJ0 : tsLT (vers.get ⟨J, hJ⟩).1 (vers.get ⟨0, hne⟩).1 = true :=
        List.pairwise_iff_get.mp hsorted ⟨0, hne⟩ ⟨J, hJ⟩
          (Nat.pos_of_ne_zero h0)
      exact tsLT_trans hunc hJ0
  -- the initial seek lands on the newest version
  have hseek0 : seekIdx cfg.entries (encodeKey cfg.start_key 0 0) = some 0 := by
    rw [hent, hstart]
    exact seekIdx_version_store_meta k vers hne hvv
  have hget0 : cfg.entries.get? 0 =
      some (encodeKeyTS k (vers.get ⟨0, hne⟩).1, (vers.get ⟨0, hne⟩).2) := by
    rw [hent]
    exact entries_map_get k vers 0 hne
  have hstep : iterSeek cfg s0 (encodeKey cfg.start_key 0 0) =
      (true, { s0 with pos := seekIdx cfg.entries (encodeKey cfg.start_key 0 0),
                       cur_raw_key := encodeKeyTS k (vers.get ⟨0, hne⟩).1,
                       cur_value := (vers.get ⟨0, hne⟩).2, cur_key := k,
                       cur_timestamp := (vers.get ⟨0, hne⟩).1 }) := by
    rw [iterSeek_eq cfg s0 _ hrev]
    exact updateCurrent_eq cfg _ 0 _ _ _ _ hseek0 hget0
      (decodeKeyTS_encodeKeyTS k _ hz0.1)
  rw [hstep]
  dsimp only
  rw [if_pos hstart.symm]
  simp only [getAndAdvance]
  rw [if_pos hz0.2]
  rw [if_neg (by rw [(tsLE_false_iff _ _).mpr hT0]; exact Bool.false_ne_true)]
  rw [if_pos hcu]
  by_cases h0 : J = 0
  · have he : (⟨J, hJ⟩ : Fin vers.length) = ⟨0, hne⟩ := Fin.ext h0
    rw [he] at hsat
    rw [if_pos hsat, he]
    unfold scanResults uncertaintyErrorS
    dsimp only
    rw [if_pos hs0]
    rw [hs0]
  · have hsf : tsLE (vers.get ⟨0, hne⟩).1 cfg.txn_max_timestamp = false := by
      have hm := hmin 0 (Nat.pos_of_ne_zero h0)
      exact hm
    rw [if_neg (by rw [hsf]; exact Bool.false_ne_true)]
    simp only [seekVersion]
    obtain ⟨s2, he2, hu2, hk2, hi2, hs2⟩ :=
      seekVersionLoop_uncertainty cfg k cfg.txn_max_timestamp vers J hJ hrev hent
        hvv hMv hMz hsat hmin hunc s0.iters_before_seek 0
        ({ s0 with pos := seekIdx cfg.entries (encodeKey cfg.start_key 0 0),
                   cur_raw_key := encodeKeyTS k (vers.get ⟨0, hne⟩).1,
                   cur_value := (vers.get ⟨0, hne⟩).2, cur_key := k,
                   cur_timestamp := (vers.get ⟨0, hne⟩).1 }) hseek0
        (Nat.pos_of_ne_zero h0)
    rw [he2]
    have hst : s2.status = none := by
      rw [hs2]
      exact hs0
    unfold scanResults
    dsimp only
    rw [if_pos hst, hst, hu2, hk2, hi2]
    rfl

end Libroach

namespace Libroach

set_option maxRecDepth 8000 in
/-- C3 counterexample: the store holds a foreign intent at (7,0) over
committed versions at (7,0) and (6,0) for key `k = [107]`.  A
consistent get at read timestamp (5,0) with `max_timestamp` (12,0)
returns no uncertainty error, although the committed version (6,0)
lies inside the uncertainty interval ((5,0), (12,0)]: case 5 of
`getAndAdvance` (db.cc:2728-2735) seeks to the read timestamp without
re-checking uncertainty. -/
theorem c3_uncertainty_counterexample :
    (mvccGet
        (fun v => if v = [42] then some ⟨none, some ([2], 0), ⟨7, 0⟩⟩ else none)
        [(encodeKey [107] 0 0, [42]), (encodeKey [107] 7 0, [118, 55]),
          (encodeKey [107] 6 0, [118, 54])]
        [107] ⟨5, 0⟩ ⟨[1], 0, ⟨12, 0⟩⟩ true).uncertainty = none ∧
    (mvccGet
        (fun v => if v = [42] then some ⟨none, some ([2], 0), ⟨7, 0⟩⟩ else none)
        [(encodeKey [107] 0 0, [42]), (encodeKey [107] 7 0, [118, 55]),
          (encodeKey [107] 6 0, [118, 54])]
        [107] ⟨5, 0⟩ ⟨[1], 0, ⟨12, 0⟩⟩ true).kvs = [] ∧
    tsLT ⟨5, 0⟩ ⟨6, 0⟩ = true ∧ tsLE ⟨6, 0⟩ ⟨12, 0⟩ = true ∧
    tsLT ⟨5, 0⟩ ⟨12, 0⟩ = true :=
  ⟨rfl, rfl, rfl, rfl, rfl⟩

set_option maxHeartbeats 2400000 in
set_option maxRecDepth 8000 in
/-- C3 amended: on a store holding only committed versions of a single
key, newest first, a consistent or inconsistent get whose read
timestamp `T` satisfies `T < txn.max_timestamp` and that can see a
version inside `(T, txn.max_timestamp]` terminates with an uncertainty
error carrying the timestamp of the newest version at or below
`txn.max_timestamp` — which itself lies inside the interval — with no
rows and no intents. -/
theorem c3_uncertainty_amended
    (pm : List Nat → Option MVCCMetadataM) (k : List Nat)
    (vers : List (DBTimestampM × List Nat)) (T maxts : DBTimestampM)
    (tid : List Nat) (tep : Nat) (consistent : Bool)
    (hvv : ∀ v ∈ vers, tsValid v.1 ∧ v.1 ≠ kZeroTimestamp)
    (hsorted : List.Pairwise (fun a b => tsLT b.1 a.1 = true) vers)
    (hMv : tsValid maxts) (hMz : maxts ≠ kZeroTimestamp)
    (hTM : tsLT T maxts = true)
    (hex : ∃ v ∈ vers, tsLT T v.1 = true ∧ tsLE v.1 maxts = true) :
    ∃ (J : Nat) (hJ : J < vers.length),
      (∀ j (hj : j < J), tsLE (vers.get ⟨j, Nat.lt_trans hj hJ⟩).1 maxts = false) ∧
      tsLE (vers.get ⟨J, hJ⟩).1 maxts = true ∧
      tsLT T (vers.get ⟨J, hJ⟩).1 = true ∧
      mvccGet pm (vers.map fun v => (encodeKeyTS k v.1, v.2)) k T
          ⟨tid, tep, maxts⟩ consistent =
        { status := none, uncertainty := some (vers.get ⟨J, hJ⟩).1,
          kvs := [], intents := [] } := by
  obtain ⟨w, hwmem, hwT, hwM⟩ := hex
  have hJlen : vers.findIdx (fun v => tsLE v.1 maxts) < vers.length :=
    List.findIdx_lt_length_of_exists ⟨w, hwmem, hwM⟩
  obtain ⟨hsat0, hmin0⟩ := (List.findIdx_eq hJlen).mp rfl
  have hsat : tsLE (vers.get ⟨vers.findIdx (fun v => tsLE v.1 maxts), hJlen⟩).1
      maxts = true := hsat0
  have hmin : ∀ j (hj : j < vers.findIdx (fun v => tsLE v.1 maxts)),
      tsLE (vers.get ⟨j, Nat.lt_trans hj hJlen⟩).1 maxts = false :=
    fun j hj => hmin0 j hj
  have hunc : tsLT T (vers.get ⟨vers.findIdx (fun v => tsLE v.1 maxts), hJlen⟩).1 =
      true := by
    obtain ⟨⟨iw, hiw⟩, hwg⟩ := List.mem_iff_get.mp hwmem
    rcases Nat.lt_trichotomy iw (vers.findIdx (fun v => tsLE v.1 maxts)) with
      hlt | heq | hgt
    · exfalso
      have hm : tsLE (vers.get ⟨iw, hiw⟩).1 maxts = false := hmin0 iw hlt
      rw [hwg, hwM] at hm
      exact Bool.noConfusion hm
    · have he : (⟨iw, hiw⟩ : Fin vers.length) =
          ⟨vers.findIdx (fun v => tsLE v.1 maxts), hJlen⟩ := Fin.ext heq
      rw [he] at hwg
      rw [hwg]
      exact hwT
    · have hJw : tsLT (vers.get ⟨iw, hiw⟩).1
          (vers.get ⟨vers.findIdx (fun v => tsLE v.1 maxts), hJlen⟩).1 = true :=
        List.pairwise_iff_get.mp hsorted
          ⟨vers.findIdx (fun v => tsLE v.1 maxts), hJlen⟩ ⟨iw, hiw⟩ hgt
      rw [hwg] at hJw
      exact tsLT_trans hwT hJw
  refine ⟨vers.findIdx (fun v => tsLE v.1 maxts), hJlen, ?_, ?_, ?_, ?_⟩
  · exact hmin
  · exact hsat
  · exact hunc
  · unfold mvccGet
    dsimp only [scannerInit]
    exact c3_walk pm _ _ k vers _ hJlen rfl rfl rfl hTM rfl hvv hsorted hMv hMz
      hsat hmin hunc

set_option maxRecDepth 8000 in
set_option maxHeartbeats 2400000 in
/-- C3 amended witness: store {(k,10) -> v10}, read at T = 5 with
max_timestamp 12 yields uncertainty at timestamp 10. -/
theorem c3_uncertainty_amended_witness :
    ((∀ v ∈ [((⟨10, 0⟩ : DBTimestampM), [118])], tsValid v.1 ∧ v.1 ≠ kZeroTimestamp) ∧
      List.Pairwise (fun a b => tsLT b.1 a.1 = true)
        [((⟨10, 0⟩ : DBTimestampM), [118])] ∧
      tsValid ⟨12, 0⟩ ∧ (⟨12, 0⟩ : DBTimestampM) ≠ kZeroTimestamp ∧
      tsLT ⟨5, 0⟩ ⟨12, 0⟩ = true ∧
      (∃ v ∈ [((⟨10, 0⟩ : DBTimestampM), [118])],
        tsLT ⟨5, 0⟩ v.1 = true ∧ tsLE v.1 ⟨12, 0⟩ = true)) ∧
    ∃ (J : Nat) (hJ : J < ([((⟨10, 0⟩ : DBTimestampM), [118])] :
        List (DBTimestampM × List Nat)).length),
      (∀ j (hj : j < J),
        tsLE (([((⟨10, 0⟩ : DBTimestampM), [118])].get
          ⟨j, Nat.lt_trans hj hJ⟩).1) ⟨12, 0⟩ = false) ∧
      tsLE (([((⟨10, 0⟩ : DBTimestampM), [118])].get ⟨J, hJ⟩).1) ⟨12, 0⟩ = true ∧
      tsLT ⟨5, 0⟩ (([((⟨10, 0⟩ : DBTimestampM), [118])].get ⟨J, hJ⟩).1) = true ∧
      mvccGet (fun _ => none)
          ([((⟨10, 0⟩ : DBTimestampM), [118])].map
            fun v => (encodeKeyTS [107] v.1, v.2)) [107] ⟨5, 0⟩
          ⟨[1], 0, ⟨12, 0⟩⟩ true =
        { status := none,
          uncertainty := some (([((⟨10, 0⟩ : DBTimestampM), [118])].get ⟨J, hJ⟩).1),
          kvs := [], intents := [] } :=
  ⟨⟨by decide, by decide, by decide, by decide, by decide,
      ⟨(⟨10, 0⟩, [118]), by decide, by decide, by decide⟩⟩,
    c3_uncertainty_amended (fun _ => none) [107] [((⟨10, 0⟩ : DBTimestampM), [118])]
      ⟨5, 0⟩ ⟨12, 0⟩ [1] 0 true (by decide) (by decide) (by decide) (by decide)
      (by decide) ⟨(⟨10, 0⟩, [118]), by decide, by decide, by decide⟩⟩

end Libroach

namespace Libroach

theorem tsLE_refl (a : DBTimestampM) : tsLE a a = true := by
  simp [tsLE, tsLT]

/-- `getAndAdvance` on the meta entry of an own intent under a
consistent read dispatches on the epoch trichotomy
(db.cc:2748-2781). -/
theorem getAndAdvance_meta_own (pm : List Nat → Option MVCCMetadataM)
    (cfg : ScanConfig) (s : ScanState) (mbytes tid : List Nat) (mepoch : Nat)
    (its : DBTimestampM)
    (hpm : pm mbytes = some ⟨none, some (tid, mepoch), its⟩)
    (hcv : s.cur_value = mbytes) (hct : s.cur_timestamp = kZeroTimestamp)
    (htid : cfg.txn_id = tid) (hcons : cfg.consistent = true) :
    getAndAdvance pm cfg s =
      if cfg.txn_epoch = mepoch then seekVersion cfg s its false
      else if cfg.txn_epoch < mepoch then
        (false, setStatusS s "failed to read due to a write intent with a newer epoch")
      else seekVersion cfg s (prevTimestamp its) false := by
  unfold getAndAdvance
  rw [if_neg (by rw [hct]; simp)]
  rw [hcv, hpm]
  dsimp only
  rw [if_neg (by simp [htid])]
  rw [if_neg (by simp [hcons])]
  rw [if_neg (by simp [htid])]

/-- One step of `seekVersion` that lands on a satisfying version. -/
theorem seekVersionLoop_hit (cfg : ScanConfig) (kb : List Nat)
    (desired : DBTimestampM) (rem p : Nat) (s : ScanState) (rk v : List Nat)
    (ts : DBTimestampM)
    (hrev : cfg.reverse = false) (hpos : s.pos = some p)
    (hlen : p + 1 < cfg.entries.length)
    (hget : cfg.entries.get? (p + 1) = some (rk, v))
    (hdec : decodeKeyTS rk = some (kb, ts))
    (hts : tsLE ts desired = true) :
    seekVersionLoop cfg kb desired false (rem + 1) s =
      addAndAdvance cfg
        ({ s with pos := nextIdx s.pos cfg.entries.length,
                  cur_raw_key := rk, cur_value := v, cur_key := kb,
                  cur_timestamp := ts,
                  iters_before_seek :=
                    min kMaxItersBeforeSeek (s.iters_before_seek + 1) }) v := by
  simp only [seekVersionLoop]
  have hpos2 : ({ s with pos := nextIdx s.pos cfg.entries.length } : ScanState).pos =
      some (p + 1) := by
    show nextIdx s.pos cfg.entries.length = some (p + 1)
    rw [hpos]
    show (if p + 1 < cfg.entries.length then some (p + 1) else none) = some (p + 1)
    rw [if_pos hlen]
  rw [iterNext_fwd cfg s hrev, updateCurrent_eq cfg _ (p + 1) rk v kb ts hpos2 hget hdec]
  dsimp only
  rw [if_neg (by simp)]
  rw [if_pos hts]
  rw [if_neg (by simp)]

/-- One step of `seekVersion` over a still-too-new version. -/
theorem seekVersionLoop_miss (cfg : ScanConfig) (kb : List Nat)
    (desired : DBTimestampM) (rem p : Nat) (s : ScanState) (rk v : List Nat)
    (ts : DBTimestampM)
    (hrev : cfg.reverse = false) (hpos : s.pos = some p)
    (hlen : p + 1 < cfg.entries.length)
    (hget : cfg.entries.get? (p + 1) = some (rk, v))
    (hdec : decodeKeyTS rk = some (kb, ts))
    (hts : tsLE ts desired = false) :
    seekVersionLoop cfg kb desired false (rem + 1) s =
      seekVersionLoop cfg kb desired false rem
        ({ s with pos := nextIdx s.pos cfg.entries.length,
                  cur_raw_key := rk, cur_value := v, cur_key := kb,
                  cur_timestamp := ts }) := by
  simp only [seekVersionLoop]
  have hpos2 : ({ s with pos := nextIdx s.pos cfg.entries.length } : ScanState).pos =
      some (p + 1) := by
    show nextIdx s.pos cfg.entries.length = some (p + 1)
    rw [hpos]
    show (if p + 1 < cfg.entries.length then some (p + 1) else none) = some (p + 1)
    rw [if_pos hlen]
  rw [iterNext_fwd cfg s hrev, updateCurrent_eq cfg _ (p + 1) rk v kb ts hpos2 hget hdec]
  dsimp only
  rw [if_neg (by simp)]
  rw [if_neg (by rw [hts]; exact Bool.false_ne_true)]

/-- One step of `seekVersion` off the end of the store (forward scan):
the scan halts. -/
theorem seekVersionLoop_end (cfg : ScanConfig) (kb : List Nat)
    (desired : DBTimestampM) (cu : Bool) (rem p : Nat) (s : ScanState)
    (hrev : cfg.reverse = false) (hpos : s.pos = some p)
    (hlen : ¬(p + 1 < cfg.entries.length)) :
    seekVersionLoop cfg kb desired cu (rem + 1) s =
      (false, { s with pos := none }) := by
  simp only [seekVersionLoop]
  have hpos3 : nextIdx s.pos cfg.entries.length = (none : Option Nat) := by
    rw [hpos]
    show (if p + 1 < cfg.entries.length then some (p + 1) else none) = none
    rw [if_neg hlen]
  have hun : iterNext cfg s = (false, { s with pos := none }) := by
    rw [iterNext_fwd cfg s hrev]
    unfold updateCurrent
    rw [hpos3]
  rw [hun]
  dsimp only
  unfold advanceKeyAtEnd
  rw [if_neg (by rw [hrev]; exact Bool.false_ne_true)]

/-- `addAndAdvance` with `max_keys = 0`: the first row is emitted and
the scan stops. -/
theorem addAndAdvance_overflow (cfg : ScanConfig) (s : ScanState) (v : List Nat)
    (hv : v ≠ []) (hkvs : s.kvs = []) (hmax : cfg.max_keys = 0) :
    addAndAdvance cfg s v = (false, { s with kvs := s.kvs ++ [(s.cur_raw_key, v)] }) := by
  unfold addAndAdvance
  rw [if_pos (List.length_pos.mpr hv)]
  dsimp only
  rw [if_pos]
  rw [hkvs, hmax]
  simp

end Libroach

namespace Libroach

/-- The `mvccScanner::get` walk over a store holding the caller's own
intent: meta entry, provisional version at the intent timestamp, then
older committed versions.  The three outcomes follow the epoch
trichotomy of `getAndAdvance` cases 8-10. -/
theorem c4_walk (pm : List Nat → Option MVCCMetadataM) (cfg : ScanConfig)
    (s0 : ScanState) (k tid mbytes provVal : List Nat) (mepoch : Nat)
    (its : DBTimestampM) (vs : List (DBTimestampM × List Nat))
    (hrev : cfg.reverse = false)
    (hent : cfg.entries = (encodeKey k 0 0, mbytes) ::
      (encodeKeyTS k its, provVal) :: vs.map (fun v => (encodeKeyTS k v.1, v.2)))
    (hstart : cfg.start_key = k)
    (htid : cfg.txn_id = tid) (hcons : cfg.consistent = true)
    (hmax : cfg.max_keys = 0)
    (hs0 : s0.status = none) (hk0 : s0.kvs = []) (hi0 : s0.intents = [])
    (hu0 : s0.uncertainty = none) (hibs : s0.iters_before_seek = 5)
    (hpm : pm mbytes = some ⟨none, some (tid, mepoch), its⟩)
    (hits : tsValid its) (hitz : its ≠ kZeroTimestamp)
    (hprov : provVal ≠ [])
    (hvs : ∀ v ∈ vs, tsValid v.1 ∧ v.1 ≠ kZeroTimestamp ∧ tsLT v.1 its = true)
    (hvne : ∀ v ∈ vs, v.2 ≠ []) :
    (cfg.txn_epoch = mepoch →
      (match iterSeek cfg s0 (encodeKey cfg.start_key 0 0) with
        | (false, s) => scanResults s
        | (true, s) => if s.cur_key = cfg.start_key
            then scanResults (getAndAdvance pm cfg s).2 else scanResults s) =
        { status := none, uncertainty := none,
          kvs := [(encodeKeyTS k its, provVal)], intents := [] }) ∧
    (cfg.txn_epoch < mepoch →
      (match iterSeek cfg s0 (encodeKey cfg.start_key 0 0) with
        | (false, s) => scanResults s
        | (true, s) => if s.cur_key = cfg.start_key
            then scanResults (getAndAdvance pm cfg s).2 else scanResults s) =
        { status := some "failed to read due to a write intent with a newer epoch",
          uncertainty := none, kvs := [], intents := [] }) ∧
    (mepoch < cfg.txn_epoch →
      (vs = [] →
        (match iterSeek cfg s0 (encodeKey cfg.start_key 0 0) with
          | (false, s) => scanResults s
          | (true, s) => if s.cur_key = cfg.start_key
              then scanResults (getAndAdvance pm cfg s).2 else scanResults s) =
          { status := none, uncertainty := none, kvs := [], intents := [] }) ∧
      (∀ v rest, vs = v :: rest →
        (match iterSeek cfg s0 (encodeKey cfg.start_key 0 0) with
          | (false, s) => scanResults s
          | (true, s) => if s.cur_key = cfg.start_key
              then scanResults (getAndAdvance pm cfg s).2 else scanResults s) =
          { status := none, uncertainty := none,
            kvs := [(encodeKeyTS k v.1, v.2)], intents := [] })) := by
  have hdec0 : decodeKeyTS (encodeKey k 0 0) = some (k, kZeroTimestamp) := by
    unfold decodeKeyTS
    rw [decodeKey_encodeKey k 0 0 le_rfl (by norm_num) le_rfl (by norm_num)]
    rfl
  have hdec1 : decodeKeyTS (encodeKeyTS k its) = some (k, its) :=
    decodeKeyTS_encodeKeyTS k its hits
  have hseek0 : seekIdx cfg.entries (encodeKey cfg.start_key 0 0) = some 0 := by
    rw [hent, hstart]
    simp [seekIdx, List.findIdx_cons, dbCompare_meta_self]
  have hget0 : cfg.entries.get? 0 = some (encodeKey k 0 0, mbytes) := by
    rw [hent]
    rfl
  have hget1 : cfg.entries.get? 1 = some (encodeKeyTS k its, provVal) := by
    rw [hent]
    rfl
  have hlen1 : 0 + 1 < cfg.entries.length := by
    rw [hent]
    simp
  have hstep : iterSeek cfg s0 (encodeKey cfg.start_key 0 0) =
      (true, { s0 with pos := seekIdx cfg.entries (encodeKey cfg.start_key 0 0),
                       cur_raw_key := encodeKey k 0 0, cur_value := mbytes,
                       cur_key := k, cur_timestamp := kZeroTimestamp }) := by
    rw [iterSeek_eq cfg s0 _ hrev]
    exact updateCurrent_eq cfg _ 0 _ _ _ _ hseek0 hget0 hdec0
  have hmiss : tsLE its (prevTimestamp its) = false := by
    cases h : tsLE its (prevTimestamp its) with
    | false => rfl
    | true =>
      have := (tsLE_prevTimestamp_iff its its hits hits hitz).mp h
      rw [tsLT_iff] at this
      omega
  refine ⟨?_, ?_, ?_⟩
  · intro hep
    rw [hstep]
    dsimp only
    rw [if_pos hstart.symm]
    generalize hS1 : ({ s0 with
      pos := seekIdx cfg.entries (encodeKey cfg.start_key 0 0),
      cur_raw_key := encodeKey k 0 0, cur_value := mbytes,
      cur_key := k, cur_timestamp := kZeroTimestamp } : ScanState) = S1
    have hposA : S1.pos = some 0 := by rw [← hS1]; exact hseek0
    have hcvA : S1.cur_value = mbytes := by rw [← hS1]
    have hctA : S1.cur_timestamp = kZeroTimestamp := by rw [← hS1]
    have hckA : S1.cur_key = k := by rw [← hS1]
    have hkvA : S1.kvs = [] := by rw [← hS1]; exact hk0
    have hstA : S1.status = none := by rw [← hS1]; exact hs0
    have hinA : S1.intents = [] := by rw [← hS1]; exact hi0
    have hunA : S1.uncertainty = none := by rw [← hS1]; exact hu0
    have hibA : S1.iters_before_seek = 5 := by rw [← hS1]; exact hibs
    rw [getAndAdvance_meta_own pm cfg S1 mbytes tid mepoch its hpm hcvA hctA htid hcons]
    rw [if_pos hep]
    simp only [seekVersion]
    rw [hckA, hibA]
    rw [show (5 : Nat) = 4 + 1 from rfl]
    rw [seekVersionLoop_hit cfg k its 4 0 S1 (encodeKeyTS k its) provVal its hrev
      hposA hlen1 hget1 hdec1 (tsLE_refl its)]
    generalize hS2 : ({ S1 with
      pos := nextIdx S1.pos cfg.entries.length,
      cur_raw_key := encodeKeyTS k its, cur_value := provVal, cur_key := k,
      cur_timestamp := its,
      iters_before_seek := min kMaxItersBeforeSeek (S1.iters_before_seek + 1) } :
        ScanState) = S2
    have hkvB : S2.kvs = [] := by rw [← hS2]; exact hkvA
    have hcrB : S2.cur_raw_key = encodeKeyTS k its := by rw [← hS2]
    have hstB : S2.status = none := by rw [← hS2]; exact hstA
    have hinB : S2.intents = [] := by rw [← hS2]; exact hinA
    have hunB : S2.uncertainty = none := by rw [← hS2]; exact hunA
    rw [addAndAdvance_overflow cfg S2 provVal hprov hkvB hmax]
    unfold scanResults
    dsimp only
    rw [hkvB, hcrB, hstB, hinB, hunB]
    simp
  · intro hep
    rw [hstep]
    dsimp only
    rw [if_pos hstart.symm]
    generalize hS1 : ({ s0 with
      pos := seekIdx cfg.entries (encodeKey cfg.start_key 0 0),
      cur_raw_key := encodeKey k 0 0, cur_value := mbytes,
      cur_key := k, cur_timestamp := kZeroTimestamp } : ScanState) = S1
    have hcvA : S1.cur_value = mbytes := by rw [← hS1]
    have hctA : S1.cur_timestamp = kZeroTimestamp := by rw [← hS1]
    have hunA : S1.uncertainty = none := by rw [← hS1]; exact hu0
    rw [getAndAdvance_meta_own pm cfg S1 mbytes tid mepoch its hpm hcvA hctA htid hcons]
    rw [if_neg (by omega), if_pos hep]
    unfold scanResults setStatusS
    dsimp only
    rw [hunA]
    simp
  · intro hep
    have hdispatch : ∀ (S1 : ScanState), S1.cur_value = mbytes →
        S1.cur_timestamp = kZeroTimestamp →
        getAndAdvance pm cfg S1 = seekVersion cfg S1 (prevTimestamp its) false := by
      intro S1 hcvA hctA
      rw [getAndAdvance_meta_own pm cfg S1 mbytes tid mepoch its hpm hcvA hctA htid hcons]
      rw [if_neg (by omega), if_neg (by omega)]
    constructor
    · intro hvs0
      subst hvs0
      rw [hstep]
      dsimp only
      rw [if_pos hstart.symm]
      generalize hS1 : ({ s0 with
        pos := seekIdx cfg.entries (encodeKey cfg.start_key 0 0),
        cur_raw_key := encodeKey k 0 0, cur_value := mbytes,
        cur_key := k, cur_timestamp := kZeroTimestamp } : ScanState) = S1
      have hposA : S1.pos = some 0 := by rw [← hS1]; exact hseek0
      have hcvA : S1.cur_value = mbytes := by rw [← hS1]
      have hctA : S1.cur_timestamp = kZeroTimestamp := by rw [← hS1]
      have hckA : S1.cur_key = k := by rw [← hS1]
      have hkvA : S1.kvs = [] := by rw [← hS1]; exact hk0
      have hstA : S1.status = none := by rw [← hS1]; exact hs0
      have hinA : S1.intents = [] := by rw [← hS1]; exact hi0
      have hunA : S1.uncertainty = none := by rw [← hS1]; exact hu0
      have hibA : S1.iters_before_seek = 5 := by rw [← hS1]; exact hibs
      rw [hdispatch S1 hcvA hctA]
      simp only [seekVersion]
      rw [hckA, hibA]
      rw [show (5 : Nat) = 4 + 1 from rfl]
      rw [seekVersionLoop_miss cfg k (prevTimestamp its) 4 0 S1 (encodeKeyTS k its)
        provVal its hrev hposA hlen1 hget1 hdec1 hmiss]
      generalize hS2 : ({ S1 with
        pos := nextIdx S1.pos cfg.entries.length,
        cur_raw_key := encodeKeyTS k its, cur_value := provVal, cur_key := k,
        cur_timestamp := its } : ScanState) = S2
      have hposB : S2.pos = some 1 := by
        rw [← hS2]
        show nextIdx S1.pos cfg.entries.length = some 1
        rw [hposA]
        show (if 0 + 1 < cfg.entries.length then some (0 + 1) else none) = some 1
        rw [if_pos hlen1]
      have hkvB : S2.kvs = [] := by rw [← hS2]; exact hkvA
      have hstB : S2.status = none := by rw [← hS2]; exact hstA
      have hinB : S2.intents = [] := by rw [← hS2]; exact hinA
      have hunB : S2.uncertainty = none := by rw [← hS2]; exact hunA
      rw [show (4 : Nat) = 3 + 1 from rfl]
      rw [seekVersionLoop_end cfg k (prevTimestamp its) false 3 1 S2 hrev hposB
        (by rw [hent]; simp)]
      unfold scanResults
      dsimp only
      rw [hkvB, hstB, hinB, hunB]
      simp
    · intro v rest hvcons
      subst hvcons
      rw [hstep]
      dsimp only
      rw [if_pos hstart.symm]
      generalize hS1 : ({ s0 with
        pos := seekIdx cfg.entries (encodeKey cfg.start_key 0 0),
        cur_raw_key := encodeKey k 0 0, cur_value := mbytes,
        cur_key := k, cur_timestamp := kZeroTimestamp } : ScanState) = S1
      have hposA : S1.pos = some 0 := by rw [← hS1]; exact hseek0
      have hcvA : S1.cur_value = mbytes := by rw [← hS1]
      have hctA : S1.cur_timestamp = kZeroTimestamp := by rw [← hS1]
      have hckA : S1.cur_key = k := by rw [← hS1]
      have hkvA : S1.kvs = [] := by rw [← hS1]; exact hk0
      have hstA : S1.status = none := by rw [← hS1]; exact hs0
      have hinA : S1.intents = [] := by rw [← hS1]; exact hi0
      have hunA : S1.uncertainty = none := by rw [← hS1]; exact hu0
      have hibA : S1.iters_before_seek = 5 := by rw [← hS1]; exact hibs
      rw [hdispatch S1 hcvA hctA]
      simp only [seekVersion]
      rw [hckA, hibA]
      rw [show (5 : Nat) = 4 + 1 from rfl]
      rw [seekVersionLoop_miss cfg k (prevTimestamp its) 4 0 S1 (encodeKeyTS k its)
        provVal its hrev hposA hlen1 hget1 hdec1 hmiss]
      generalize hS2 : ({ S1 with
        pos := nextIdx S1.pos cfg.entries.length,
        cur_raw_key := encodeKeyTS k its, cur_value := provVal, cur_key := k,
        cur_timestamp := its } : ScanState) = S2
      have hposB : S2.pos = some 1 := by
        rw [← hS2]
        show nextIdx S1.pos cfg.entries.length = some 1
        rw [hposA]
        show (if 0 + 1 < cfg.entries.length then some (0 + 1) else none) = some 1
        rw [if_pos hlen1]
      have hkvB : S2.kvs = [] := by rw [← hS2]; exact hkvA
      have hstB : S2.status = none := by rw [← hS2]; exact hstA
      have hinB : S2.intents = [] := by rw [← hS2]; exact hinA
      have hunB : S2.uncertainty = none := by rw [← hS2]; exact hunA
      have hvmem : v ∈ v :: rest := List.mem_cons_self v rest
      have hvfact := hvs v hvmem
      have hget2 : cfg.entries.get? 2 = some (encodeKeyTS k v.1, v.2) := by
        rw [hent]
        rfl
      have hdec2 : decodeKeyTS (encodeKeyTS k v.1) = some (k, v.1) :=
        decodeKeyTS_encodeKeyTS k v.1 hvfact.1
      have hts2 : tsLE v.1 (prevTimestamp its) = true :=
        (tsLE_prevTimestamp_iff v.1 its hvfact.1 hits hitz).mpr hvfact.2.2
      rw [show (4 : Nat) = 3 + 1 from rfl]
      rw [seekVersionLoop_hit cfg k (prevTimestamp its) 3 1 S2 (encodeKeyTS k v.1)
        v.2 v.1 hrev hposB (by rw [hent]; simp) hget2 hdec2 hts2]
      generalize hS3 : ({ S2 with
        pos := nextIdx S2.pos cfg.entries.length,
        cur_raw_key := encodeKeyTS k v.1, cur_value := v.2, cur_key := k,
        cur_timestamp := v.1,
        iters_before_seek := min kMaxItersBeforeSeek (S2.iters_before_seek + 1) } :
          ScanState) = S3
      have hkvC : S3.kvs = [] := by rw [← hS3]; exact hkvB
      have hcrC : S3.cur_raw_key = encodeKeyTS k v.1 := by rw [← hS3]
      have hstC : S3.status = none := by rw [← hS3]; exact hstB
      have hinC : S3.intents = [] := by rw [← hS3]; exact hinB
      have hunC : S3.uncertainty = none := by rw [← hS3]; exact hunB
      rw [addAndAdvance_overflow cfg S3 v.2 (hvne v hvmem) hkvC hmax]
      unfold scanResults
      dsimp only
      rw [hkvC, hcrC, hstC, hinC, hunC]
      simp

end Libroach

namespace Libroach

/-- C4: a consistent get by transaction `tid` over its own intent
(meta entry with epoch `mepoch` and timestamp `its`, provisional
version at `its`, older committed versions below): (a) at equal epoch
the provisional version is returned regardless of the read timestamp;
(b) at an older scan epoch the scan fails with an epoch-mismatch
error; (c) at a newer scan epoch the intent is ignored and the newest
version strictly older than `its` is returned, or nothing when none
exists. -/
theorem c4_own_intent_epoch_trichotomy
    (pm : List Nat → Option MVCCMetadataM) (k tid mbytes provVal : List Nat)
    (mepoch tep : Nat) (its maxts T : DBTimestampM)
    (vs : List (DBTimestampM × List Nat))
    (hpm : pm mbytes = some ⟨none, some (tid, mepoch), its⟩)
    (hits : tsValid its) (hitz : its ≠ kZeroTimestamp) (hprov : provVal ≠ [])
    (hvs : ∀ v ∈ vs, tsValid v.1 ∧ v.1 ≠ kZeroTimestamp ∧ tsLT v.1 its = true)
    (hvne : ∀ v ∈ vs, v.2 ≠ []) :
    (tep = mepoch →
      mvccGet pm ((encodeKey k 0 0, mbytes) :: (encodeKeyTS k its, provVal) ::
          vs.map (fun v => (encodeKeyTS k v.1, v.2))) k T ⟨tid, tep, maxts⟩ true =
        { status := none, uncertainty := none,
          kvs := [(encodeKeyTS k its, provVal)], intents := [] }) ∧
    (tep < mepoch →
      mvccGet pm ((encodeKey k 0 0, mbytes) :: (encodeKeyTS k its, provVal) ::
          vs.map (fun v => (encodeKeyTS k v.1, v.2))) k T ⟨tid, tep, maxts⟩ true =
        { status := some "failed to read due to a write intent with a newer epoch",
          uncertainty := none, kvs := [], intents := [] }) ∧
    (mepoch < tep →
      (vs = [] →
        mvccGet pm ((encodeKey k 0 0, mbytes) :: (encodeKeyTS k its, provVal) ::
            vs.map (fun v => (encodeKeyTS k v.1, v.2))) k T ⟨tid, tep, maxts⟩ true =
          { status := none, uncertainty := none, kvs := [], intents := [] }) ∧
      (∀ v rest, vs = v :: rest →
        mvccGet pm ((encodeKey k 0 0, mbytes) :: (encodeKeyTS k its, provVal) ::
            vs.map (fun v => (encodeKeyTS k v.1, v.2))) k T ⟨tid, tep, maxts⟩ true =
          { status := none, uncertainty := none,
            kvs := [(encodeKeyTS k v.1, v.2)], intents := [] })) := by
  unfold mvccGet
  dsimp only [scannerInit]
  exact c4_walk pm
    { entries := (encodeKey k 0 0, mbytes) :: (encodeKeyTS k its, provVal) ::
        vs.map (fun v => (encodeKeyTS k v.1, v.2)),
      reverse := false, start_key := k, end_key := [], max_keys := 0,
      timestamp := T, txn_id := tid, txn_epoch := tep, txn_max_timestamp := maxts,
      consistent := true, check_uncertainty := tsLT T maxts }
    { kvs := [], intents := [], status := none, uncertainty := none, pos := none,
      peeked := false, cur_raw_key := [], cur_key := [], cur_value := [],
      cur_timestamp := kZeroTimestamp, iters_before_seek := kMaxItersBeforeSeek / 2 }
    k tid mbytes provVal mepoch its vs rfl rfl rfl rfl rfl rfl rfl rfl rfl rfl rfl
    hpm hits hitz hprov hvs hvne

end Libroach

namespace Libroach

/-- C4 witness: the spec scenario — own intent with epoch 2 at
timestamp (7,0) over an older version at (3,0); a consistent read at
T = (4,0) with matching epoch returns the provisional value "v7". -/
theorem c4_own_intent_epoch_trichotomy_witness :
    ((fun v => if v = [42] then
        some (⟨none, some ([1], 2), ⟨7, 0⟩⟩ : MVCCMetadataM) else none) [42] =
      some (⟨none, some ([1], 2), ⟨7, 0⟩⟩ : MVCCMetadataM)) ∧
    mvccGet
        (fun v => if v = [42] then
          some (⟨none, some ([1], 2), ⟨7, 0⟩⟩ : MVCCMetadataM) else none)
        ((encodeKey [107] 0 0, [42]) :: (encodeKeyTS [107] ⟨7, 0⟩, [118, 55]) ::
          [((⟨3, 0⟩ : DBTimestampM), [118, 51])].map
            (fun v => (encodeKeyTS [107] v.1, v.2)))
        [107] ⟨4, 0⟩ ⟨[1], 2, ⟨0, 0⟩⟩ true =
      { status := none, uncertainty := none,
        kvs := [(encodeKeyTS [107] ⟨7, 0⟩, [118, 55])], intents := [] } :=
  ⟨by decide,
    (c4_own_intent_epoch_trichotomy
      (fun v => if v = [42] then
        some (⟨none, some ([1], 2), ⟨7, 0⟩⟩ : MVCCMetadataM) else none)
      [107] [1] [42] [118, 55] 2 2 ⟨7, 0⟩ ⟨0, 0⟩ ⟨4, 0⟩
      [((⟨3, 0⟩ : DBTimestampM), [118, 51])] (by decide) (by decide) (by decide)
      (by decide) (by decide) (by decide)).1 rfl⟩

end Libroach
